import Mathlib

/-!
Verification of the HiCT library core (hict/core/chunked_file.py,
hict/api/ContactMatrixFacet.py, hict/core/AGPProcessor.py) against its
natural-language specification.

The Python sources are shallowly embedded below.  Machine integers
(numpy int64 / Python int) are modelled as unbounded integers, which is
faithful because Python integers are unbounded and all quantities stay
far below 2^63 in the formalised flows.  Dense numpy matrices are
modelled as lists of row lists over the rationals; fallible code
(Python exceptions, assertion failures, IndexError) is modelled with
Option/Except.

The files hict/core/common.py, hict/core/contig_tree.py and
hict/core/scaffold_tree.py are not part of the provided sources; the
data carried by their descriptors and the spec-documented behaviour of
the contig tree (its in-order sequence of contigs, expose/traverse
semantics, cached size vectors) are modelled from the specification as
explained in the doc comments of the corresponding definitions.
-/

namespace HiCT

/-- Modelled from the spec: hict/core/common.py is not under src/.
Direction flag used for both contigs and ATUs (spec section 3).  The
Python enums use value 1 for Forward and 0 for Reversed (visible in
AGPProcessor.py where the symbol plus maps to ContigDirection(1), and in
chunked_file.py where ATUDirection(1-d.value) flips a direction). -/
inductive Dir where
  | forward : Dir
  | reversed : Dir
deriving DecidableEq, Repr

/-- Direction flip, the embedding of ATUDirection(1-atu.direction.value). -/
def Dir.flip : Dir → Dir
  | .forward => .reversed
  | .reversed => .forward

/-- Modelled from the spec: hict/core/common.py is not under src/.
StripeDescriptor (spec section 3): a stripe id, its length in bins and
its bin-weight vector (length stripe_length_bins, all ones when absent
on disk). -/
structure Stripe where
  stripe_id : ℕ
  stripe_length_bins : ℤ
  bin_weights : List ℚ
deriving DecidableEq, Repr

/-- Modelled from the spec: hict/core/common.py is not under src/.
ATUDescriptor (spec section 3): a stripe reference, a half-open index
interval into it and a direction flag. -/
structure ATU where
  stripe : Stripe
  startI : ℤ
  endE : ℤ
  dir : Dir
deriving DecidableEq, Repr

/-- Length of an ATU, spec section 3: length = end - start. -/
def ATU.lenZ (a : ATU) : ℤ := a.endE - a.startI

/-- Well-formedness of an ATU descriptor, spec section 3:
0 <= start < end <= stripe.length_bins. -/
def ATU.WF (a : ATU) : Prop :=
  0 ≤ a.startI ∧ a.startI < a.endE ∧ a.endE ≤ a.stripe.stripe_length_bins

instance (a : ATU) : Decidable a.WF := by unfold ATU.WF; infer_instance

/-- Total length of a list of ATUs. -/
def sumLen (l : List ATU) : ℤ := (l.map ATU.lenZ).sum

/-- Modelled from the spec: hict/core/common.py is not under src/.
ContigHideType (spec section 3): presence of a contig at a resolution. -/
inductive HideType where
  | autoHidden : HideType
  | autoShown : HideType
  | forcedHidden : HideType
  | forcedShown : HideType
deriving DecidableEq, Repr

/-- Modelled from the spec: hict/core/common.py is not under src/.
The per-resolution slice of a ContigDescriptor that the ATU resolver
reads at a fixed queried resolution: the source-order (forward
orientation) ATU list and whether the contig is hidden at this
resolution.  Per the spec invariant (section 8) the descriptor fields
contig_length_at_resolution[R] and atu_prefix_sum_length_bins[R] equal
the sum respectively the cumulative sums of the ATU lengths, so both
are derived below rather than stored. -/
structure ContigRes where
  atus : List ATU
  hidden : Bool
deriving DecidableEq, Repr

/-- Modelled from the spec: hict/core/contig_tree.py is not under src/.
The contig tree (spec section 4.1) is an implicit-key balanced tree
whose observable content is the in-order sequence of contigs with their
effective (lazily-pushed) directions; every tree operation pushes lazy
reversal flags before reading, so the tree is modelled by that sequence
directly.  A node carries the contig data at the queried resolution and
its effective direction. -/
structure CNode where
  contig : ContigRes
  dir : Dir
deriving DecidableEq, Repr

/-- Size of one contig node in the chosen unit (spec sections 3 and 4.1):
in bins (exclude_hidden = false) a contig contributes its bin length;
in pixels (exclude_hidden = true) a hidden contig contributes 0 and a
shown one its bin length.  The bin length is the sum of ATU lengths
(spec section 8 invariant). -/
def nodeSize (excl : Bool) (n : CNode) : ℤ :=
  if excl && n.contig.hidden then 0 else sumLen n.contig.atus

/-- Total size of a sequence of contig nodes in the chosen unit;
embedding of ContigTree.get_sizes()[2 if exclude_hidden else 0][resolution]
over the spec-modelled tree. -/
def sizeU (excl : Bool) (l : List CNode) : ℤ := (l.map (nodeSize excl)).sum

/-- Embedding of constrain_coordinate (chunked_file.py lines 70-72):
max(min(x, upper), lower). -/
def constrainCoordinate (x lower upper : ℤ) : ℤ := max (min x upper) lower

/-- Python floor-division semantics on integers (the // operator). -/
def pyDiv (a b : ℤ) : ℤ := Int.fdiv a b

/-- Cumulative (inclusive) sums of a list of integers; the embedding of
the stored numpy array atu_prefix_sum_length_bins, which per the spec
section 8 invariant holds the cumulative ATU lengths in source order
(entry i is the total length of ATUs 0..i). -/
def cums : List ℤ → List ℤ
  | [] => []
  | x :: xs => x :: (cums xs).map (fun y => x + y)

/-- Embedding of numpy searchsorted(a, v, side='right') for a sorted
array a: the number of entries less than or equal to v, which is the
insertion index to the right of all entries equal to v. -/
def ssR (a : List ℤ) (v : ℤ) : ℕ := a.countP (fun x => decide (x ≤ v))

/-- Embedding of numpy searchsorted(a, v, side='left') for a sorted
array a: the number of entries strictly less than v. -/
def ssL (a : List ℤ) (v : ℤ) : ℕ := a.countP (fun x => decide (x < v))

/-- Embedding of the orientation adjustment applied to a stored ATU
prefix-sum array ps (chunked_file.py lines 730-732 and 799-801):
ps[:-1] = ps[-1] - np.flip(ps)[1:], i.e. entry i becomes
ps[-1] - ps[N-2-i] for i < N-1 while the last entry stays ps[-1]. -/
def adjustPS (ps : List ℤ) : List ℤ :=
  match ps.getLast? with
  | none => []
  | some t => (ps.reverse.drop 1).map (fun x => t - x) ++ [t]

/-- The in-order oriented ATU list contributed by one contig node in
the traverse of chunked_file.py lines 683-702: for a reversed contig
the source ATU list is reversed and each ATU direction flipped. -/
def orientedAtus (n : CNode) : List ATU :=
  match n.dir with
  | .reversed => (n.contig.atus.reverse).map (fun a => { a with dir := a.dir.flip })
  | .forward => n.contig.atus

/-- The ATUs collected by ContigTree.traverse_nodes_at_resolution over
an exposed segment (chunked_file.py lines 697-702): in-order visit that
skips hidden contigs when exclude_hidden is set (spec section 4.1). -/
def travAtus (excl : Bool) (seg : List CNode) : List ATU :=
  (seg.filter (fun n => !(excl && n.contig.hidden))).flatMap orientedAtus

/-- Modelled from the spec: hict/core/contig_tree.py is not under src/.
First split of expose_segment (spec section 4.1 split_by_length with
include_equal_to_the_left): the maximal prefix whose total size in the
chosen unit is at most k goes left. -/
def splitLE (excl : Bool) (k : ℤ) : List CNode → List CNode × List CNode
  | [] => ([], [])
  | n :: ns =>
    if nodeSize excl n ≤ k then
      let p := splitLE excl (k - nodeSize excl n) ns
      (n :: p.1, p.2)
    else ([], n :: ns)

/-- Modelled from the spec: hict/core/contig_tree.py is not under src/.
Second split of expose_segment: the minimal prefix whose total size in
the chosen unit is at least k goes left, so that the left part is
exactly the run of contigs covering positions [0, k) (spec section 4.1:
the segment exposes exactly the contigs covering the queried range). -/
def splitGE (excl : Bool) (k : ℤ) : List CNode → List CNode × List CNode
  | [] => ([], [])
  | n :: ns =>
    if k ≤ 0 then ([], n :: ns)
    else if k ≤ nodeSize excl n then ([n], ns)
    else
      let p := splitGE excl (k - nodeSize excl n) ns
      (n :: p.1, p.2)

/-- Modelled from the spec: hict/core/contig_tree.py is not under src/.
ContigTree.expose_segment (spec section 4.1): two splits producing
(less, segment, greater) where segment exposes exactly the contigs
covering [start, end) in the chosen unit. -/
def exposeSegment (excl : Bool) (s e : ℤ) (asm : List CNode) :
    List CNode × List CNode × List CNode :=
  let p := splitLE excl s asm
  let q := splitGE excl (e - sizeU excl p.1) p.2
  (p.1, q.1, q.2)

/-- Modelled from the spec: hict/core/common.py is not under src/.
Fusing of two adjacent ATUs (spec sections 3 and 4.3 step 7): they fuse
iff they reference the same stripe in the same direction and their
index intervals are contiguous in reading order. -/
def fuse2 (x y : ATU) : Option ATU :=
  if x.stripe = y.stripe ∧ x.dir = y.dir then
    match x.dir with
    | .forward => if x.endE = y.startI then some { x with endE := y.endE } else none
    | .reversed => if y.endE = x.startI then some { x with startI := y.startI } else none
  else none

/-- Modelled from the spec: hict/core/common.py is not under src/.
The left-to-right walk of ATUDescriptor.reduce carrying the current
leftmost unmerged ATU. -/
def reduceGo : ATU → List ATU → List ATU
  | a, [] => [a]
  | a, b :: rest =>
    match fuse2 a b with
    | some ab => reduceGo ab rest
    | none => a :: reduceGo b rest

/-- Modelled from the spec: hict/core/common.py is not under src/.
ATUDescriptor.reduce (spec section 4.3 step 7): one left-to-right walk
merging adjacent fusible ATUs. -/
def reduceATUs : List ATU → List ATU
  | [] => []
  | a :: rest => reduceGo a rest

theorem reduceATUs_cons2 (a b : ATU) (rest : List ATU) :
    reduceATUs (a :: b :: rest) =
      match fuse2 a b with
      | some ab => reduceATUs (ab :: rest)
      | none => a :: reduceATUs (b :: rest) := by
  cases hf : fuse2 a b with
  | none =>
    show reduceGo a (b :: rest) = _
    rw [reduceGo, hf]
    rfl
  | some ab =>
    show reduceGo a (b :: rest) = _
    rw [reduceGo, hf]
    rfl

/-- Embedding of the Python slice l[:-k] for k > 0: all but the last k
elements. -/
def dropLastN (l : List α) (k : ℕ) : List α := l.take (l.length - k)

/-- Embedding of the left trim of the ATU resolver (chunked_file.py
lines 719-791): first is the leftmost contig node of the exposed
segment, atus the flat oriented ATU list of the segment and d the
offset of the query start inside the first contig
(delta_px_between_segment_first_contig_start_and_query_start).  The ATU
containing the query start is shrunk from its logical left and all
preceding ATUs are dropped.  IndexError is modelled by none. -/
def leftTrim (first : CNode) (atus : List ATU) (d : ℤ) : Option (List ATU) :=
  -- lines 726-732: orientation-adjusted prefix sums of the leftmost contig
  let rps0 := cums (first.contig.atus.map ATU.lenZ)
  let rps := if first.dir = .reversed then adjustPS rps0 else rps0
  -- lines 734-738
  let idx := ssR rps d
  -- lines 745-749
  let before := if 0 < idx then rps.getD (idx - 1) 0 else 0
  match atus[idx]? with
  | none => none -- line 751 would raise IndexError
  | some oldFirst =>
    -- lines 757-790: shrink the ATU containing the query start
    let newFirst :=
      if oldFirst.dir = .forward then
        { oldFirst with startI := oldFirst.startI + (d - before) }
      else
        { oldFirst with endE := oldFirst.endE - (d - before) }
    -- lines 790-791: replace and drop the fully skipped ATUs
    some (newFirst :: atus.drop (idx + 1))

/-- Embedding of the right trim of the ATU resolver (chunked_file.py
lines 793-846): last is the rightmost contig node of the exposed
segment, atus the ATU list remaining after the left trim and dr the
non-positive distance end - (less_size + segment_size).  Whole ATUs
beyond the query end are dropped and the ATU containing the last
queried pixel is retracted from its logical right. -/
def rightTrim (last : CNode) (atus : List ATU) (dr : ℤ) : Option (List ATU) :=
  -- lines 796-801: adjusted prefix sums of the rightmost contig
  let rps2base := cums (last.contig.atus.map ATU.lenZ)
  let rps2 := if last.dir = .forward then adjustPS rps2base else rps2base
  -- lines 803-807
  let roff := ssR rps2 (-dr)
  -- lines 809-812
  let atus2 := if 0 < roff then dropLastN atus roff else atus
  let deleted := if 0 < roff then rps2.getD (roff - 1) 0 else 0
  match atus2.getLast? with
  | none => none -- line 814 would raise IndexError
  | some oldLast =>
    -- lines 818-846: extend the last ATU up to the query end
    let newLast :=
      if oldLast.dir = .forward then
        { oldLast with endE := oldLast.endE + (deleted + dr) }
      else
        { oldLast with startI := oldLast.startI - (deleted + dr) }
    some (dropLastN atus2 1 ++ [newLast])

/-- Embedding of ChunkedFile.get_atus_for_range (chunked_file.py lines
629-895), the ATU resolver, at a fixed queried resolution over the
spec-modelled contig tree.  Python assertion failures and IndexErrors
are modelled by returning none; the always-true internal assertions of
the success path are established by the theorems below instead of being
recomputed here. -/
def getAtusForRange (asm : List CNode) (excl : Bool) (startPx endPx : ℤ) :
    Option (List ATU) :=
  -- lines 640-645: clamp the query to [0, total]
  let total := sizeU excl asm
  let s := constrainCoordinate startPx 0 total
  let e := constrainCoordinate endPx 0 total
  -- line 647: expose the segment
  let es := exposeSegment excl s e asm
  -- lines 657-659: trivial query
  if e - s ≤ 0 then some [] else
  match es.2.1 with
  | [] => none -- line 661-662: segment is None although the query is non-trivial
  | first :: segRest =>
    let seg := first :: segRest
    -- lines 666-673
    let segSize := sizeU excl seg
    let lessSize := sizeU excl es.1
    -- line 675
    let d := s - lessSize
    -- lines 681-702: collect oriented ATUs of the exposed segment
    let atus := travAtus excl seg
    -- lines 719-791
    match leftTrim first atus d with
    | none => none
    | some atus1 =>
      -- lines 793-846
      match rightTrim (seg.getLastD first) atus1 (e - (lessSize + segSize)) with
      | none => none
      | some atus3 =>
        -- line 870
        some (reduceATUs atus3)

/-! ## Dense matrices -/

/-- A dense numpy 2-D array modelled as a list of row lists. -/
abbrev Mat := List (List ℚ)

/-- Entry of a matrix at row i, column j (0 outside the bounds). -/
def ent (m : Mat) (i j : ℕ) : ℚ := (m.getD i []).getD j 0

/-- Column count of a matrix (length of the first row). -/
def ncolsM (m : Mat) : ℕ := ((m.head?).map List.length).getD 0

/-- The matrix is rectangular with exactly r rows and c columns. -/
def Rect (m : Mat) (r c : ℕ) : Prop :=
  m.length = r ∧ ∀ row ∈ m, row.length = c

instance (m : Mat) (r c : ℕ) : Decidable (Rect m r c) := by
  unfold Rect; infer_instance

/-- Embedding of np.zeros(shape=(r, c)). -/
def zerosM (r c : ℕ) : Mat := List.replicate r (List.replicate c 0)

/-- Embedding of numpy transpose (the .T attribute) for rectangular
matrices. -/
def npT (m : Mat) : Mat :=
  (List.range (ncolsM m)).map (fun j => m.map (fun row => row.getD j 0))

/-- Python index resolution for a slice bound on a sequence of length
n: negative indices count from the end, then the result is clamped to
[0, n]. -/
def pyBound (n : ℕ) (i : ℤ) : ℕ :=
  (max 0 (min (if i < 0 then (n : ℤ) + i else i) (n : ℤ))).toNat

/-- Embedding of the Python slice l[a:b] (step 1). -/
def pySlice (l : List α) (a b : ℤ) : List α :=
  (l.take (pyBound l.length b)).drop (pyBound l.length a)

/-- Embedding of the 2-D numpy slice m[r0:r1, c0:c1]. -/
def pySlice2 (m : Mat) (r0 r1 c0 c1 : ℤ) : Mat :=
  (pySlice m r0 r1).map (fun row => pySlice row c0 c1)

/-- Embedding of np.flip(m, axis=0). -/
def flipRows (m : Mat) : Mat := m.reverse

/-- Embedding of np.flip(m, axis=1). -/
def flipCols (m : Mat) : Mat := m.map List.reverse

/-- Embedding of the diagonal fix-up np.where(mx, mx, mx.T)
(chunked_file.py lines 457-458): each zero entry is replaced by the
transposed entry, non-zero entries stay. -/
def whereFix (m : Mat) : Mat :=
  m.mapIdx (fun i row => row.mapIdx (fun j v => if v ≠ 0 then v else ent m j i))

/-- Embedding of ChunkedFile.process_flips (chunked_file.py lines
377-387): flip rows for a reversed row ATU, then columns for a reversed
column ATU. -/
def processFlips (m : Mat) (rowAtu colAtu : ATU) : Mat :=
  let m1 := if rowAtu.dir = .reversed then flipRows m else m
  if colAtu.dir = .reversed then flipCols m1 else m1

/-! ## The opened file and the per-pair intersection -/

/-- The in-memory state of an opened file at one queried resolution:
the spec-modelled contig tree sequence and the on-disk block table.
The block lookup models chunked_file.py lines 408-451: none stands for
an empty block (block_length == 0) and some m for the dense base
matrix that the reads produce there (a precomputed dense block, or a
COO block densified to the full stripe-by-stripe shape). -/
structure HState where
  asm : List CNode
  block : ℕ → ℕ → Option Mat

/-- Embedding of
ChunkedFile.get_stripe_intersection_for_atus_as_raw_dense_matrix
(chunked_file.py lines 389-470).  The assertion at lines 454-456 (equal
stripe ids but different descriptors) is modelled by none. -/
def getStripeIntersection (st : HState) (rowAtu colAtu : ATU) : Option Mat :=
  -- lines 395-400: order the two stripes, remembering the transpose
  let rowStripe := rowAtu.stripe
  let colStripe := colAtu.stripe
  let needsT := colStripe.stripe_id < rowStripe.stripe_id
  let rs := if needsT then colStripe else rowStripe
  let cs := if needsT then rowStripe else colStripe
  match st.block rs.stripe_id cs.stripe_id with
  | none =>
    -- lines 418-425: empty block, zero matrix of the ATU-slice shape
    some (zerosM (rowAtu.lenZ).toNat (colAtu.lenZ).toNat)
  | some m0 =>
    -- lines 453-458: diagonal symmetry fix-up before transpose and slicing
    let fixed :=
      if rowAtu.stripe.stripe_id = colAtu.stripe.stripe_id then
        if rowAtu.stripe = colAtu.stripe then some (whereFix m0) else none
      else some m0
    match fixed with
    | none => none
    | some m1 =>
      -- lines 460-461
      let m2 := if needsT then npT m1 else m1
      -- lines 463-466
      let m3 := pySlice2 m2 rowAtu.startI rowAtu.endE colAtu.startI colAtu.endE
      -- line 468
      some (processFlips m3 rowAtu colAtu)

/-- Embedding of ChunkedFile.get_atu_intersection (chunked_file.py
lines 606-627): the dense intersection together with the sliced and
possibly flipped bin-weight vectors. -/
def getAtuIntersection (st : HState) (rowAtu colAtu : ATU) :
    Option (Mat × List ℚ × List ℚ) :=
  match getStripeIntersection st rowAtu colAtu with
  | none => none
  | some m =>
    let rw0 := pySlice rowAtu.stripe.bin_weights rowAtu.startI rowAtu.endE
    let cw0 := pySlice colAtu.stripe.bin_weights colAtu.startI colAtu.endE
    let rw := if rowAtu.dir = .reversed then rw0.reverse else rw0
    let cw := if colAtu.dir = .reversed then cw0.reverse else cw0
    some (m, rw, cw)

/-- Embedding of np.ones(n) as a weight vector. -/
def onesV (n : ℕ) : List ℚ := List.replicate n 1

/-- Embedding of np.hstack on a non-empty list of matrices of equal
height: rows are concatenated pairwise. -/
def hstackM : List Mat → Mat
  | [] => []
  | m :: ms => ms.foldl (fun acc x => acc.zipWith (fun r1 r2 => r1 ++ r2) x) m

/-- The body of the per-row-ATU loop of ChunkedFile.get_submatrix
(chunked_file.py lines 522-563): assemble one row strip from the
intersections of ra with every column ATU, with the loop's internal
assertions (lines 542-552) modelled as none. -/
def rowStrip (st : HState) (colAtus : List ATU) (qc : ℤ) (ra : ATU) :
    Option (Mat × Option (List ℚ) × List (Mat × List ℚ × List ℚ)) := do
  let subtotals ← colAtus.mapM (fun ca => getAtuIntersection st ra ca)
  let rowSubmatrices := subtotals.map (fun t => t.1)
  if colAtus ≠ [] then
    -- lines 542-552: uniform height equal to the row ATU length
    if ¬ (∀ sbm ∈ rowSubmatrices, sbm.length = (rowSubmatrices.headD []).length)
      then none else
    if ¬ (((rowSubmatrices.headD []).length : ℤ) = ra.endE - ra.startI)
      then none else
    some (hstackM rowSubmatrices, some ((subtotals.headD ([], [], [])).2.1), subtotals)
  else
    -- lines 557-562
    if ¬ (qc ≤ 0) then none else
    some (zerosM (ra.endE - ra.startI).toNat 0, none, subtotals)

/-- Embedding of ChunkedFile.get_submatrix (chunked_file.py lines
472-604).  The Python assertions are modelled as none results; np.vstack
is row concatenation and its width-consistency requirement is the guard
before it. -/
def getSubmatrix (st : HState) (excl : Bool) (r0 c0 r1 c1 : ℤ) :
    Option (Mat × List ℚ × List ℚ) := do
  -- lines 484-494: clamp every coordinate to [0, total]
  let total := sizeU excl st.asm
  let r0 := constrainCoordinate r0 0 total
  let r1 := constrainCoordinate r1 0 total
  let c0 := constrainCoordinate c0 0 total
  let c1 := constrainCoordinate c1 0 total
  -- lines 496-507
  let rowAtus ← getAtusForRange st.asm excl r0 r1
  let colAtus ← getAtusForRange st.asm excl c0 c1
  -- lines 509-510
  let qr := r1 - r0
  let qc := c1 - c0
  -- lines 512-520
  if (r0 < r1 ∧ 0 ≤ r0 ∧ r0 < total) ∧ rowAtus = [] then none else
  if (c0 < c1 ∧ 0 ≤ c0 ∧ c0 < total) ∧ colAtus = [] then none else do
  -- lines 522-563: assemble each row strip
  let rowResults ← rowAtus.mapM (rowStrip st colAtus qc)
  let rowMatrices := rowResults.map (fun t => t.1)
  let rowSubweights := rowResults.filterMap (fun t => t.2.1)
  -- lines 565-568
  let rowWeights := if rowSubweights ≠ [] then rowSubweights.flatten
                    else onesV (max 0 qr).toNat
  -- lines 570-574: column weights come from the last processed row
  let lastSubtotals := ((rowResults.getLast?).map (fun t => t.2.2)).getD []
  let colSubweights := lastSubtotals.map (fun t => t.2.2)
  let colWeights := if colSubweights ≠ [] then colSubweights.flatten
                    else onesV (max 0 qc).toNat
  -- lines 576-586
  if 0 < qr ∧ 0 < qc ∧ rowSubweights = [] then none else
  if 0 < qr ∧ 0 < qc ∧ colSubweights = [] then none else
  if 0 < qr ∧ 0 < qc ∧
    ¬ (∀ m ∈ rowMatrices, ncolsM m = ncolsM (rowMatrices.headD [])) then none else
  let result := if 0 < qr ∧ 0 < qc then rowMatrices.flatten
                else zerosM (max 0 qr).toNat (max 0 qc).toNat
  -- shape[1] of the numpy result: the zeros branch keeps its column
  -- count even when it has no rows
  let resultCols := if 0 < qr ∧ 0 < qc then ncolsM result else (max 0 qc).toNat
  -- lines 588-602: final shape assertions
  if ¬ ((result.length : ℤ) = r1 - r0) then none else
  if ¬ ((resultCols : ℤ) = c1 - c0) then none else
  if ¬ ((rowWeights.length : ℤ) = r1 - r0) then none else
  if ¬ ((colWeights.length : ℤ) = c1 - c0) then none else
  some (result, rowWeights, colWeights)

/-! ## The facade -/

/-- The error kinds raised by the embedded facade calls:
ContactMatrixFacet.IncorrectResolution, and Python AssertionError or
IndexError escaping from the model layer. -/
inductive FErr where
  | incorrectResolution : FErr
  | assertionError : FErr
deriving DecidableEq, Repr

/-- The query units of the embedded facade calls.  The BASE_PAIRS
branch of get_dense_submatrix delegates to get_px_by_bp before reaching
get_submatrix and is not embedded; BINS and PIXELS reach get_submatrix
directly (ContactMatrixFacet.py lines 300-308). -/
inductive QUnit where
  | bins : QUnit
  | pixels : QUnit
deriving DecidableEq, Repr

/-- An opened file as seen by the facade: the stored resolutions and,
for each resolution, the per-resolution state. -/
structure FileModel where
  resolutions : List ℤ
  dataAt : ℤ → HState

/-- Embedding of ContactMatrixFacet.get_dense_submatrix
(ContactMatrixFacet.py lines 237-310) for BINS and PIXELS units: raise
IncorrectResolution when the resolution is not stored (lines 273-274),
otherwise delegate to get_submatrix with
exclude_hidden_contigs or (units == PIXELS) (lines 300-308). -/
def getDenseSubmatrix (fm : FileModel) (R : ℤ) (x0 y0 x1 y1 : ℤ)
    (u : QUnit) (excl : Bool) : Except FErr (Mat × List ℚ × List ℚ) :=
  if R ∉ fm.resolutions then .error .incorrectResolution
  else
    match getSubmatrix (fm.dataAt R) (excl || (u = .pixels)) x0 y0 x1 y1 with
    | some t => .ok t
    | none => .error .assertionError

/-! ## Bin-weights normalization -/

/-- Embedding of np.copy: a fresh array with the same contents. -/
def npCopy (m : Mat) : Mat := m

/-- Embedding of the numpy broadcast product m * v of a 2-D array with
a 1-D array: every row is multiplied elementwise by v. -/
def bcastMul (m : Mat) (v : List ℚ) : Mat :=
  m.map (fun row => row.zipWith (fun x w => x * w) v)

/-- Embedding of ContactMatrixFacet.apply_cooler_balance_to_dense_matrix
(ContactMatrixFacet.py lines 312-322). -/
def applyCoolerBalance (m : Mat) (rowWeights colWeights : List ℚ)
    (inplace : Bool) : Mat :=
  let result := if inplace then m else npCopy m
  let result := bcastMul result colWeights
  let result := npT (bcastMul (npT result) rowWeights)
  result

/-- A heap of numpy buffers, for stating that
apply_cooler_balance_to_dense_matrix never writes to its argument: a
buffer store indexed by references. -/
abbrev Heap := List Mat

/-- Read a buffer from the heap. -/
def heapRead (h : Heap) (r : ℕ) : Mat := h.getD r []

/-- Allocate a fresh buffer; the only way any embedded numpy operation
below touches the heap. -/
def heapAlloc (h : Heap) (m : Mat) : Heap × ℕ := (h ++ [m], h.length)

/-- The numpy * operator on (array, 1-D array): reads its operand and
allocates the broadcast product (it is not an in-place operation). -/
def npMulOp (h : Heap) (r : ℕ) (v : List ℚ) : Heap × ℕ :=
  heapAlloc h (bcastMul (heapRead h r) v)

/-- The numpy .T attribute: reads its operand into a new buffer (a
read-only view; materialised here, which is sound because no embedded
operation ever writes to an existing buffer). -/
def npTOp (h : Heap) (r : ℕ) : Heap × ℕ := heapAlloc h (npT (heapRead h r))

/-- np.copy as a heap operation: allocates a fresh buffer. -/
def npCopyOp (h : Heap) (r : ℕ) : Heap × ℕ := heapAlloc h (heapRead h r)

/-- Embedding of apply_cooler_balance_to_dense_matrix over the buffer
heap, statement by statement (ContactMatrixFacet.py lines 319-322):
the local name result is successively rebound to freshly allocated
buffers, never writing through the original reference. -/
def applyCoolerBalanceHeap (h0 : Heap) (r0 : ℕ) (rowWeights colWeights : List ℚ)
    (inplace : Bool) : Heap × ℕ :=
  let p1 := if inplace then (h0, r0) else npCopyOp h0 r0
  let p2 := npMulOp p1.1 p1.2 colWeights
  let p3 := npTOp p2.1 p2.2
  let p4 := npMulOp p3.1 p3.2 rowWeights
  let p5 := npTOp p4.1 p4.2
  p5

/-! ## The AGP importer -/

/-- One AGP contig record (AGPProcessor.py lines 45-49). -/
structure AGPContigRecord where
  name : String
  direction : Dir
  startPos : ℤ
  endPos : ℤ
deriving DecidableEq, Repr

/-- One AGP scaffold record (AGPProcessor.py lines 39-42). -/
structure AGPScaffoldRecord where
  name : String
  startCtg : String
  endCtg : String
deriving DecidableEq, Repr

/-- A Python str.split() whitespace character (space, tab, newline,
carriage return cover the AGP format). -/
def wsChar (c : Char) : Bool := c = ' ' || c = '\t' || c = '\n' || c = '\r'

/-- Token accumulator for pyTokens: walk the characters keeping the
current (reversed) token. -/
def tokensAux : List Char → List Char → List (List Char)
  | [], cur => if cur = [] then [] else [cur.reverse]
  | c :: rest, cur =>
    if wsChar c then
      if cur = [] then tokensAux rest [] else cur.reverse :: tokensAux rest []
    else tokensAux rest (c :: cur)

/-- Embedding of Python str.split() without arguments: split on runs of
whitespace, discarding empty tokens. -/
def pyTokens (line : String) : List String :=
  (tokensAux line.data []).map (fun cs => ⟨cs⟩)

/-- The numeric value of a decimal digit character. -/
def digitVal (c : Char) : Option ℕ :=
  if '0' ≤ c ∧ c ≤ '9' then some (c.toNat - '0'.toNat) else none

/-- The natural number denoted by a non-empty digit string. -/
def natOfDigits : List Char → Option ℕ
  | [] => none
  | [c] => digitVal c
  | c :: rest =>
    match digitVal c, natOfDigits rest with
    | some d, some n => some (d * 10 ^ rest.length + n)
    | _, _ => none

/-- Embedding of Python int() on the AGP coordinate columns: an
optional minus sign followed by decimal digits (none models the
ValueError raised on anything else). -/
def pyToInt (s : String) : Option ℤ :=
  match s.data with
  | '-' :: rest => (natOfDigits rest).map (fun n => -(n : ℤ))
  | l => (natOfDigits l).map (fun n => (n : ℤ))

/-- Embedding of AGPparser.parseAGPLine (AGPProcessor.py lines 61-75).
Missing columns raise IndexError; a component type other than N or W
raises; int() failures raise ValueError. -/
def parseAGPLine (line : String) :
    Except String (String × String × String × ℤ × ℤ) :=
  let toks := pyTokens line
  match toks[4]? with
  | none => .error "IndexError"
  | some t4 =>
    if t4 = "N" then
      match toks[5]? with
      | none => .error "IndexError"
      | some _gapLen => .ok ("N_spacer", _gapLen, "", 0, 0)
    else if t4 = "W" then
      match toks[0]?, toks[5]?, toks[8]?, toks[6]?, toks[7]? with
      | some obj, some compName, some dirStr, some begS, some endS =>
        match pyToInt begS, pyToInt endS with
        | some b, some e2 => .ok (obj, compName, dirStr, b, e2)
        | _, _ => .error "ValueError"
      | _, _, _, _, _ => .error "IndexError"
    else .error "unexpected symbol in agp component_type column"

/-- The loop state of AGPparser.parseAGP: the accumulated records and
the current run of equal object names.  The run variables
cur_scaf_name, start_ctg and end_ctg are local names that are only
bound once a line with index 0 carries a W record; none models the
unbound state, whose read raises UnboundLocalError. -/
structure AGPState where
  contigs : List AGPContigRecord
  scaffolds : List AGPScaffoldRecord
  run : Option (String × String × String)
deriving DecidableEq, Repr

/-- One iteration of the parseAGP loop (AGPProcessor.py lines 87-111)
on the i-th line. -/
def parseAGPStep (st : AGPState) (i : ℕ) (line : String) :
    Except String AGPState := do
  let (scafName, ctgName, dirStr, sp, ep) ← parseAGPLine line
  -- lines 89-90: spacer lines are skipped
  if scafName = "N_spacer" then .ok st
  else if dirStr ≠ "+" ∧ dirStr ≠ "-" then
    -- lines 91-94
    .error "unexpected symbol in agp direction column"
  else
    -- lines 95-98
    let dir := if dirStr = "+" then Dir.forward else Dir.reversed
    let contigs := st.contigs ++ [⟨ctgName, dir, sp, ep⟩]
    -- lines 99-111: the run bookkeeping keys on the raw line index i
    if i = 0 then
      .ok { contigs := contigs, scaffolds := st.scaffolds,
            run := some (scafName, ctgName, ctgName) }
    else
      match st.run with
      | none => .error "UnboundLocalError: cur_scaf_name"
      | some (cur, sctg, ectg) =>
        if scafName = cur then
          .ok { contigs := contigs, scaffolds := st.scaffolds,
                run := some (cur, sctg, ctgName) }
        else
          .ok { contigs := contigs,
                scaffolds := st.scaffolds ++ [⟨cur, sctg, ectg⟩],
                run := some (scafName, ctgName, ctgName) }

/-- Embedding of AGPparser.parseAGP (AGPProcessor.py lines 77-113) on
the list of file lines: fold the per-line step over the enumerated
lines, then close the final run (lines 112-113), which reads the run
variables and raises UnboundLocalError when they were never bound. -/
def parseAGP (lines : List String) :
    Except String (List AGPContigRecord × List AGPScaffoldRecord) := do
  let final ← lines.enum.foldlM (fun st p => parseAGPStep st p.1 p.2)
    (AGPState.mk [] [] none)
  match final.run with
  | none => .error "UnboundLocalError: cur_scaf_name"
  | some (cur, sctg, ectg) =>
    .ok (final.contigs, final.scaffolds ++ [⟨cur, sctg, ectg⟩])

/-! ## split_contig_at_bin, per resolution -/

/-- A value stored in the Python dict new_contig_length_at_resolution
of split_contig_at_bin: intended to be an integer bin count, but the
code at chunked_file.py lines 1399-1403 also assigns ContigHideType
enum members into it. -/
inductive LenVal where
  | num : ℤ → LenVal
  | hide : HideType → LenVal
deriving DecidableEq, Repr

/-- Embedding of copy_true_atu (chunked_file.py lines 1336-1340). -/
def copyTrueAtu (a : ATU) (contigDir : Dir) : ATU :=
  if contigDir = .reversed then { a with dir := a.dir.flip } else a

/-- Embedding of one resolution iteration of the loop in
ChunkedFile.split_contig_at_bin (chunked_file.py lines 1319-1409),
producing the entries this iteration stores into the per-resolution
dictionaries for the two new contigs: length values, presence values
(none = key never set) and ATU lists.  Inputs: the old contig ATU list
at this resolution, the exposed node direction, delta_from_contig_start
(bins at the minimal resolution), delta_from_start_at_resolution as
returned by convert_units, the old contig length at this resolution,
the old presence at this resolution, whether this is the minimal
resolution, the two new contig bp lengths and the resolution. -/
def splitContigAtResolution (oldAtus : List ATU) (nodeDir : Dir)
    (delta dR oldLen : ℤ) (pres : HideType) (isMin : Bool)
    (newBp0 newBp1 R : ℤ) :
    Except String ((LenVal × LenVal) × (Option HideType × Option HideType)
      × (List ATU × List ATU)) :=
  -- lines 1329-1334: numeric lengths of the two parts
  let len0 : ℤ := if isMin then delta else dR
  let len1 : ℤ := if isMin then oldLen - delta - 1 else oldLen - dR
  -- lines 1342-1347: orientation-corrected ATU list and prefix sums
  let src0 := oldAtus.map (fun a => copyTrueAtu a nodeDir)
  let ps0 := cums (oldAtus.map ATU.lenZ)
  let ps := if nodeDir = .reversed then adjustPS ps0 else ps0
  let src := if nodeDir = .reversed then src0.reverse else src0
  -- line 1349: searchsorted side left
  let i := ssL ps dR
  match src[i]? with
  | none => .error "IndexError"
  | some oldJoin =>
    -- lines 1351-1353
    let atusL := src.take i
    let atusR := src.drop i
    let lLen := if 0 < i then ps.getD (i - 1) 0 else 0
    -- line 1357
    let deltaL := dR - lLen
    -- lines 1358-1366
    let atusL :=
      if 0 < deltaL then
        atusL ++ [⟨oldJoin.stripe,
          (if oldJoin.dir = .forward then oldJoin.startI
           else oldJoin.endE - deltaL),
          (if oldJoin.dir = .forward then oldJoin.startI + deltaL
           else oldJoin.endE),
          oldJoin.dir⟩]
      else atusL
    -- lines 1368-1370
    if ¬ (lLen + deltaL = len0) then .error "Unexpected length of left part"
    else
      -- lines 1374-1375
      let newRS := if oldJoin.dir = .forward then
          oldJoin.startI + deltaL + (if isMin then 1 else 0)
        else oldJoin.startI
      let newRE := if oldJoin.dir = .forward then oldJoin.endE
        else oldJoin.endE - deltaL + (if isMin then 1 else 0)
      -- lines 1377-1391: replacing atus_r[0] raises IndexError when empty
      let atusRres : Except String (List ATU) :=
        if 0 < newRE - newRS then
          match atusR with
          | [] => .error "IndexError"
          | _ :: rest => .ok (⟨oldJoin.stripe, newRS, newRE, oldJoin.dir⟩ :: rest)
        else .ok (atusR.drop 1)
      match atusRres with
      | .error msg => .error msg
      | .ok atusR =>
      -- lines 1394-1396
      if ¬ (sumLen atusR = len1) then .error "Unexpected length of right part"
      else
        -- lines 1399-1406: when the old presence is Forced*, the code
        -- assigns the presence enum into the LENGTH dictionaries and
        -- leaves the presence dictionaries without this key
        if pres = .forcedHidden ∨ pres = .forcedShown then
          .ok ((LenVal.hide pres, LenVal.hide pres), (none, none), (atusL, atusR))
        else
          .ok ((LenVal.num len0, LenVal.num len1),
            (some (if newBp0 ≥ R then HideType.autoShown else .autoHidden),
             some (if newBp1 ≥ R then HideType.autoShown else .autoHidden)),
            (atusL, atusR))


/-- The stripes referenced by the assembly's ATUs: every stripe a
resolver output can mention (resolver outputs only shrink or fuse the
stored ATUs, never changing their stripe references). -/
def stripesOf (asm : List CNode) : List Stripe :=
  (asm.flatMap (fun n => n.contig.atus)).map ATU.stripe

/-- The on-disk block for a pair of stripes, when present, is a dense
matrix of the full stripe-by-stripe shape (chunked_file.py lines
408-451 produce exactly that dense shape). -/
def blockRectB (st : HState) (s1 s2 : Stripe) : Bool :=
  match st.block s1.stripe_id s2.stripe_id with
  | none => true
  | some m =>
    decide (Rect m s1.stripe_length_bins.toNat s2.stripe_length_bins.toNat)

/-- The sliced and possibly flipped bin-weight vector an ATU
contributes in get_atu_intersection (chunked_file.py lines 616-624). -/
def atuWeight (a : ATU) : List ℚ :=
  let w0 := pySlice a.stripe.bin_weights a.startI a.endE
  if a.dir = .reversed then w0.reverse else w0

/-- The dense intersection matrix of a pair of ATUs on the success
path (the value inside getStripeIntersection when it returns some). -/
def interM (st : HState) (ra ca : ATU) : Mat :=
  (getStripeIntersection st ra ca).getD []

/-- One assembled row strip of get_submatrix (chunked_file.py lines
522-552): the horizontal stack of the row ATU's intersections with
every column ATU. -/
def stripOf (st : HState) (cas : List ATU) (ra : ATU) : Mat :=
  hstackM (cas.map (fun ca => interM st ra ca))

/-- The assembled dense matrix of get_submatrix on the main path
(chunked_file.py lines 576-586): the vertical stack of the row
strips. -/
def assembleM (st : HState) (ras cas : List ATU) : Mat :=
  (ras.map (stripOf st cas)).flatten

/-! ## Lemmas: cumulative sums and searchsorted -/

theorem cums_length (xs : List ℤ) : (cums xs).length = xs.length := by
  induction xs with
  | nil => rfl
  | cons x xs ih => simp [cums, ih]

theorem cums_pos (xs : List ℤ) (hpos : ∀ x ∈ xs, 0 < x) :
    ∀ y ∈ cums xs, 0 < y := by
  induction xs with
  | nil => simp [cums]
  | cons x xs ih =>
    have hx : 0 < x := hpos x (by simp)
    simp only [cums, List.mem_cons, List.mem_map]
    rintro y (rfl | ⟨z, hz, rfl⟩)
    · exact hx
    · have hz0 : 0 < z := ih (fun a ha => hpos a (by simp [ha])) z hz
      linarith

theorem cums_getD (xs : List ℤ) (i : ℕ) (h : i < xs.length) :
    (cums xs).getD i 0 = (xs.take (i + 1)).sum := by
  induction xs generalizing i with
  | nil => simp at h
  | cons x xs ih =>
    cases i with
    | zero => simp [cums]
    | succ n =>
      have hn : n < xs.length := by simpa using h
      have hn2 : n < (cums xs).length := by rw [cums_length]; exact hn
      simp only [cums, List.getD_cons_succ, List.take_succ_cons, List.sum_cons]
      rw [List.getD_eq_getElem _ _ (by simpa using hn2), List.getElem_map,
        ← List.getD_eq_getElem _ 0 hn2, ih n hn]

theorem ssR_cums_cons (x : ℤ) (xs : List ℤ) (v : ℤ) :
    ssR (cums (x :: xs)) v =
      (if x ≤ v then 1 else 0) + ssR (cums xs) (v - x) := by
  simp only [cums, ssR, List.countP_cons, List.countP_map]
  have hfun : ((fun y => decide (y ≤ v)) ∘ (fun y : ℤ => x + y)) =
      (fun y => decide (y ≤ v - x)) := by
    funext y
    simp only [Function.comp_apply, decide_eq_decide]
    omega
  rw [hfun]
  by_cases h : x ≤ v <;> simp [h] <;> omega

theorem ssR_zero_of_all_gt (l : List ℤ) (v : ℤ) (h : ∀ y ∈ l, v < y) :
    ssR l v = 0 := by
  simp only [ssR, List.countP_eq_zero]
  intro a ha
  simpa using h a ha

/-- The searchsorted characterisation over strictly positive entries:
for 0 <= v < sum the found index is in range, the entries before it sum
to at most v and including it they exceed v. -/
theorem ssR_cums_spec (xs : List ℤ) (v : ℤ) (hpos : ∀ x ∈ xs, 0 < x)
    (hv0 : 0 ≤ v) (hvlt : v < xs.sum) :
    ssR (cums xs) v < xs.length ∧
    (xs.take (ssR (cums xs) v)).sum ≤ v ∧
    v < (xs.take (ssR (cums xs) v + 1)).sum := by
  induction xs generalizing v with
  | nil => simp at hvlt; omega
  | cons x xs ih =>
    have hx : 0 < x := hpos x (by simp)
    rw [ssR_cums_cons]
    by_cases hxv : x ≤ v
    · rw [if_pos hxv]
      have hsum : v - x < xs.sum := by
        simp only [List.sum_cons] at hvlt; omega
      obtain ⟨h1, h2, h3⟩ := ih (v - x)
        (fun a ha => hpos a (by simp [ha])) (by omega) hsum
      refine ⟨?_, ?_, ?_⟩
      · simp only [List.length_cons]
        omega
      · rw [show 1 + ssR (cums xs) (v - x) = ssR (cums xs) (v - x) + 1 from by
          omega]
        rw [List.take_succ_cons, List.sum_cons]
        omega
      · rw [show 1 + ssR (cums xs) (v - x) + 1 =
          (ssR (cums xs) (v - x) + 1) + 1 from by omega]
        rw [List.take_succ_cons, List.sum_cons]
        omega
    · rw [if_neg hxv]
      have h0 : ssR (cums xs) (v - x) = 0 := by
        apply ssR_zero_of_all_gt
        intro y hy
        have := cums_pos xs (fun a ha => hpos a (by simp [ha])) y hy
        omega
      rw [h0]
      refine ⟨by simp, by simpa using hv0, ?_⟩
      have hvx : v < x := by omega
      simpa using hvx

/-- The guarded getD read of the cumulative sums at index-1, as done
for length_of_atus_before_one_containing_start_px, is the sum of the
first idx entries. -/
theorem cums_before_eq (xs : List ℤ) (idx : ℕ) (h : idx ≤ xs.length) :
    (if 0 < idx then (cums xs).getD (idx - 1) 0 else 0) =
      (xs.take idx).sum := by
  cases idx with
  | zero => simp
  | succ n =>
    rw [if_pos (Nat.succ_pos n)]
    simpa using cums_getD xs n (by omega)

theorem cums_append_one (xs : List ℤ) (y : ℤ) :
    cums (xs ++ [y]) = cums xs ++ [xs.sum + y] := by
  induction xs with
  | nil => simp [cums]
  | cons x xs ih =>
    simp only [List.cons_append, cums, List.append_eq]
    rw [ih, List.map_append]
    simp [add_assoc]

theorem cums_getLastQ (xs : List ℤ) (h : xs ≠ []) :
    (cums xs).getLast? = some xs.sum := by
  obtain ⟨ys, y, rfl⟩ := (List.eq_nil_or_concat xs).resolve_left h
  rw [List.concat_eq_append, cums_append_one]
  simp

/-- The orientation adjustment of a stored cumulative-sum array is the
cumulative-sum array of the reversed length list. -/
theorem adjustPS_cums_rev (zs : List ℤ) :
    adjustPS (cums zs.reverse) = cums zs := by
  induction zs with
  | nil => simp [adjustPS, cums]
  | cons z zt ih =>
    rcases eq_or_ne zt [] with rfl | hzt
    · simp [adjustPS, cums]
    · have hrne : zt.reverse ≠ [] := by simpa using hzt
      have hne : cums zt.reverse ≠ [] := by
        intro hC
        have hl := cums_length zt.reverse
        rw [hC] at hl
        exact hrne (List.length_eq_zero.mp hl.symm)
      have hlastC : (cums zt.reverse).getLast? = some zt.reverse.sum :=
        cums_getLastQ _ hrne
      have step1 : cums ((z :: zt).reverse) =
          cums zt.reverse ++ [zt.reverse.sum + z] := by
        rw [show (z :: zt).reverse = zt.reverse ++ [z] by simp, cums_append_one]
      rw [step1]
      obtain ⟨D, d, hDd⟩ := (List.eq_nil_or_concat (cums zt.reverse)).resolve_left hne
      rw [List.concat_eq_append] at hDd
      have hd : d = zt.reverse.sum := by
        have h2 : (cums zt.reverse).getLast? = some d := by
          rw [hDd]; simp
        rw [hlastC] at h2
        exact (Option.some.injEq _ _ ▸ h2).symm
      subst hd
      have hCrev : (cums zt.reverse).reverse = zt.reverse.sum :: D.reverse := by
        rw [hDd]; simp
      have hAdjC : adjustPS (cums zt.reverse) =
          (D.reverse.map (fun w => zt.reverse.sum - w)) ++ [zt.reverse.sum] := by
        rw [adjustPS, hlastC, hCrev]
        simp
      have step2 : adjustPS (cums zt.reverse ++ [zt.reverse.sum + z]) =
          ((zt.reverse.sum :: D.reverse).map (fun w => zt.reverse.sum + z - w)) ++
            [zt.reverse.sum + z] := by
        rw [adjustPS]
        rw [show (cums zt.reverse ++ [zt.reverse.sum + z]).getLast? =
          some (zt.reverse.sum + z) by simp]
        congr 1
        rw [List.reverse_append]
        simp [hCrev]
      rw [step2, cums, ← ih, hAdjC]
      simp only [List.map_cons, List.map_append, List.map_map, List.cons_append,
        List.map_nil]
      congr 1
      · ring
      congr 1
      · apply List.map_congr_left
        intro w _
        simp only [Function.comp_apply]
        ring
      · simp only [List.nil_append, List.cons.injEq, and_true]
        ring


/-! ## Lemmas: ATU well-formedness and sizes -/

theorem ATU.lenZ_pos (a : ATU) (h : a.WF) : 0 < a.lenZ := by
  obtain ⟨h1, h2, h3⟩ := h
  unfold ATU.lenZ
  omega

theorem sumLen_nil : sumLen [] = 0 := rfl

theorem sumLen_cons (a : ATU) (l : List ATU) :
    sumLen (a :: l) = a.lenZ + sumLen l := by
  simp [sumLen]

theorem sumLen_append (l1 l2 : List ATU) :
    sumLen (l1 ++ l2) = sumLen l1 + sumLen l2 := by
  simp [sumLen]

theorem sumLen_reverse (l : List ATU) : sumLen l.reverse = sumLen l := by
  simp [sumLen, List.sum_reverse]

theorem sumLen_nonneg (l : List ATU) (h : ∀ a ∈ l, a.WF) : 0 ≤ sumLen l := by
  induction l with
  | nil => simp [sumLen]
  | cons a l ih =>
    rw [sumLen_cons]
    have := ATU.lenZ_pos a (h a (by simp))
    have := ih (fun b hb => h b (by simp [hb]))
    omega

theorem sumLen_pos (l : List ATU) (h : ∀ a ∈ l, a.WF) (hne : l ≠ []) :
    0 < sumLen l := by
  rcases l with _ | ⟨a, l⟩
  · simp at hne
  · rw [sumLen_cons]
    have := ATU.lenZ_pos a (h a (by simp))
    have := sumLen_nonneg l (fun b hb => h b (by simp [hb]))
    omega

theorem sumLen_eq_map_sum (l : List ATU) : sumLen l = (l.map ATU.lenZ).sum := rfl

theorem sumLen_take_le (l : List ATU) (i j : ℕ) (hij : i ≤ j)
    (h : ∀ a ∈ l, a.WF) : sumLen (l.take i) ≤ sumLen (l.take j) := by
  have hdecomp : l.take j = l.take i ++ (l.drop i).take (j - i) := by
    rw [← List.take_add]
    congr 1
    omega
  rw [hdecomp, sumLen_append]
  have : 0 ≤ sumLen ((l.drop i).take (j - i)) := by
    apply sumLen_nonneg
    intro a ha
    exact h a (List.mem_of_mem_drop (List.mem_of_mem_take ha))
  omega

theorem nodeSize_nonneg (excl : Bool) (n : CNode)
    (h : ∀ a ∈ n.contig.atus, a.WF) : 0 ≤ nodeSize excl n := by
  unfold nodeSize
  split
  · omega
  · exact sumLen_nonneg _ h

theorem sizeU_nil (excl : Bool) : sizeU excl [] = 0 := rfl

theorem sizeU_cons (excl : Bool) (n : CNode) (l : List CNode) :
    sizeU excl (n :: l) = nodeSize excl n + sizeU excl l := by
  simp [sizeU]

theorem sizeU_append (excl : Bool) (l1 l2 : List CNode) :
    sizeU excl (l1 ++ l2) = sizeU excl l1 + sizeU excl l2 := by
  simp [sizeU]

/-- The well-formedness carried by the ATU resolver state: every ATU of
every contig descriptor satisfies the spec section 3 bounds. -/
def AsmWF (asm : List CNode) : Prop :=
  ∀ n ∈ asm, ∀ a ∈ n.contig.atus, a.WF

instance (asm : List CNode) : Decidable (AsmWF asm) := by
  unfold AsmWF; infer_instance

/-- Well-formedness of an opened per-resolution state: well-formed
ATUs, stripe ids identify stripes, bin-weight vectors have the stripe
length, and stored blocks have the full stripe-by-stripe shape. -/
def StateWF (st : HState) : Prop :=
  AsmWF st.asm ∧
  (∀ s1 ∈ stripesOf st.asm, ∀ s2 ∈ stripesOf st.asm,
    s1.stripe_id = s2.stripe_id → s1 = s2) ∧
  (∀ s ∈ stripesOf st.asm, s.bin_weights.length =
    s.stripe_length_bins.toNat) ∧
  (∀ s1 ∈ stripesOf st.asm, ∀ s2 ∈ stripesOf st.asm, blockRectB st s1 s2 = true)

instance (st : HState) : Decidable (StateWF st) := by
  unfold StateWF
  infer_instance

theorem sizeU_nonneg (excl : Bool) (l : List CNode) (h : AsmWF l) :
    0 ≤ sizeU excl l := by
  induction l with
  | nil => simp [sizeU]
  | cons n l ih =>
    rw [sizeU_cons]
    have h1 := nodeSize_nonneg excl n (h n (by simp))
    have h2 := ih (fun m hm => h m (by simp [hm]))
    omega

/-! ## Lemmas: the expose splits -/

theorem splitLE_append (excl : Bool) (k : ℤ) (l : List CNode) :
    (splitLE excl k l).1 ++ (splitLE excl k l).2 = l := by
  induction l generalizing k with
  | nil => simp [splitLE]
  | cons n ns ih =>
    simp only [splitLE]
    split
    · simpa using ih (k - nodeSize excl n)
    · simp

theorem splitLE_size_le (excl : Bool) (k : ℤ) (l : List CNode) (hk : 0 ≤ k) :
    sizeU excl (splitLE excl k l).1 ≤ k := by
  induction l generalizing k with
  | nil => simpa [splitLE, sizeU] using hk
  | cons n ns ih =>
    simp only [splitLE]
    split
    · rename_i hle
      have hrec := ih (k - nodeSize excl n) (by omega)
      rw [sizeU_cons]
      omega
    · simpa [sizeU] using hk

theorem splitLE_snd_head (excl : Bool) (k : ℤ) (l : List CNode)
    (n : CNode) (ns : List CNode) (h : (splitLE excl k l).2 = n :: ns) :
    k < sizeU excl (splitLE excl k l).1 + nodeSize excl n := by
  induction l generalizing k with
  | nil => simp [splitLE] at h
  | cons m ms ih =>
    simp only [splitLE] at h ⊢
    by_cases hle : nodeSize excl m ≤ k
    · rw [if_pos hle] at h ⊢
      have hrec := ih (k - nodeSize excl m) (by simpa using h)
      simp only at hrec ⊢
      rw [sizeU_cons]
      omega
    · rw [if_neg hle] at h ⊢
      have hmn : m = n ∧ ms = ns := by simpa using h
      obtain ⟨rfl, rfl⟩ := hmn
      simp only
      rw [sizeU_nil]
      omega

theorem splitGE_append (excl : Bool) (k : ℤ) (l : List CNode) :
    (splitGE excl k l).1 ++ (splitGE excl k l).2 = l := by
  induction l generalizing k with
  | nil => simp [splitGE]
  | cons n ns ih =>
    simp only [splitGE]
    split
    · simp
    · split
      · simp
      · simpa using ih (k - nodeSize excl n)

theorem splitGE_size_ge (excl : Bool) (k : ℤ) (l : List CNode)
    (h : k ≤ sizeU excl l) : k ≤ sizeU excl (splitGE excl k l).1 := by
  induction l generalizing k with
  | nil => simpa [splitGE, sizeU] using h
  | cons n ns ih =>
    simp only [splitGE]
    split
    · rename_i h0
      simpa [sizeU] using h0
    · split
      · rename_i h1
        simp [sizeU]
        omega
      · rename_i h0 h1
        rw [sizeU_cons] at h ⊢
        have := ih (k - nodeSize excl n) (by omega)
        omega

theorem splitGE_last (excl : Bool) (k : ℤ) (l : List CNode)
    (hk : 0 < k) (hkle : k ≤ sizeU excl l) :
    ∃ pre lst, (splitGE excl k l).1 = pre ++ [lst] ∧
      sizeU excl pre < k ∧ k ≤ sizeU excl pre + nodeSize excl lst := by
  induction l generalizing k with
  | nil =>
    rw [sizeU_nil] at hkle
    omega
  | cons n ns ih =>
    simp only [splitGE]
    split
    · omega
    · split
      · rename_i h0 h1
        exact ⟨[], n, by simp, by simpa [sizeU] using hk, by
          rw [sizeU_nil]; omega⟩
      · rename_i h0 h1
        rw [sizeU_cons] at hkle
        obtain ⟨pre, lst, heq, hlt, hge⟩ := ih (k - nodeSize excl n)
          (by omega) (by omega)
        refine ⟨n :: pre, lst, ?_, ?_, ?_⟩
        · simp [heq]
        · rw [sizeU_cons]; omega
        · rw [sizeU_cons]; omega

/-! ## Lemmas: traverse -/

theorem ATU.flip_lenZ (a : ATU) :
    ATU.lenZ { a with dir := a.dir.flip } = a.lenZ := rfl

theorem ATU.flip_WF (a : ATU) (h : a.WF) : ATU.WF { a with dir := a.dir.flip } := h

theorem orientedAtus_map_lenZ (n : CNode) :
    (orientedAtus n).map ATU.lenZ =
      (if n.dir = .reversed then (n.contig.atus.map ATU.lenZ).reverse
       else n.contig.atus.map ATU.lenZ) := by
  cases hd : n.dir
  · simp [orientedAtus, hd]
  · simp only [orientedAtus, hd, if_pos, List.map_reverse, List.map_map]
    congr 1

theorem sumLen_orientedAtus (n : CNode) :
    sumLen (orientedAtus n) = sumLen n.contig.atus := by
  rw [sumLen_eq_map_sum, orientedAtus_map_lenZ, sumLen_eq_map_sum]
  split <;> simp [List.sum_reverse]

theorem orientedAtus_WF (n : CNode) (h : ∀ a ∈ n.contig.atus, a.WF) :
    ∀ a ∈ orientedAtus n, a.WF := by
  intro a ha
  cases hd : n.dir <;> rw [orientedAtus, hd] at ha
  · exact h a ha
  · simp only [List.mem_map, List.mem_reverse] at ha
    obtain ⟨b, hb, rfl⟩ := ha
    exact ATU.flip_WF b (h b hb)

theorem orientedAtus_ne_nil (n : CNode) (h : n.contig.atus ≠ []) :
    orientedAtus n ≠ [] := by
  cases hd : n.dir <;> simp [orientedAtus, hd, h]

theorem travAtus_nil (excl : Bool) : travAtus excl [] = [] := rfl

theorem travAtus_cons_kept (excl : Bool) (n : CNode) (l : List CNode)
    (h : (excl && n.contig.hidden) = false) :
    travAtus excl (n :: l) = orientedAtus n ++ travAtus excl l := by
  unfold travAtus
  rw [List.filter_cons]
  simp [h]

theorem travAtus_cons_skip (excl : Bool) (n : CNode) (l : List CNode)
    (h : (excl && n.contig.hidden) = true) :
    travAtus excl (n :: l) = travAtus excl l := by
  unfold travAtus
  rw [List.filter_cons]
  simp [h]

theorem travAtus_append (excl : Bool) (l1 l2 : List CNode) :
    travAtus excl (l1 ++ l2) = travAtus excl l1 ++ travAtus excl l2 := by
  unfold travAtus
  rw [List.filter_append, List.flatMap_append]

theorem sumLen_travAtus (excl : Bool) (l : List CNode) :
    sumLen (travAtus excl l) = sizeU excl l := by
  induction l with
  | nil => simp [travAtus_nil, sumLen_nil, sizeU_nil]
  | cons n l ih =>
    by_cases h : (excl && n.contig.hidden) = true
    · rw [travAtus_cons_skip excl n l h, ih, sizeU_cons]
      have hz : nodeSize excl n = 0 := by
        unfold nodeSize
        rw [if_pos h]
      omega
    · have hf : (excl && n.contig.hidden) = false := by simpa using h
      rw [travAtus_cons_kept excl n l hf, sumLen_append, ih, sizeU_cons,
        sumLen_orientedAtus]
      have hs : nodeSize excl n = sumLen n.contig.atus := by
        unfold nodeSize
        rw [if_neg (by simp [hf])]
      omega

theorem travAtus_WF (excl : Bool) (l : List CNode) (h : AsmWF l) :
    ∀ a ∈ travAtus excl l, a.WF := by
  intro a ha
  unfold travAtus at ha
  simp only [List.mem_flatMap, List.mem_filter] at ha
  obtain ⟨n, ⟨hn, _⟩, hna⟩ := ha
  exact orientedAtus_WF n (h n hn) a hna

/-- The non-hidden-size form: when a node is kept by the traverse, its
size in the chosen unit is the total ATU length. -/
theorem nodeSize_kept (excl : Bool) (n : CNode)
    (h : (excl && n.contig.hidden) = false) :
    nodeSize excl n = sumLen n.contig.atus := by
  unfold nodeSize
  rw [if_neg (by simp [h])]

/-- A node with positive size in the chosen unit is kept by the
traverse and has a non-empty ATU list. -/
theorem nodeSize_pos_kept (excl : Bool) (n : CNode) (h : 0 < nodeSize excl n) :
    (excl && n.contig.hidden) = false ∧ n.contig.atus ≠ [] := by
  unfold nodeSize at h
  by_cases hc : (excl && n.contig.hidden) = true
  · rw [if_pos hc] at h
    omega
  · have hf : (excl && n.contig.hidden) = false := by simpa using hc
    refine ⟨hf, ?_⟩
    intro hnil
    rw [if_neg (by simp [hf]), hnil] at h
    simp [sumLen_nil] at h


/-! ## Lemmas: the two trims -/

theorem trimPS_left_eq (n : CNode) :
    (if n.dir = .reversed then adjustPS (cums (n.contig.atus.map ATU.lenZ))
     else cums (n.contig.atus.map ATU.lenZ)) =
    cums ((orientedAtus n).map ATU.lenZ) := by
  rw [orientedAtus_map_lenZ]
  by_cases hd : n.dir = .reversed
  · rw [if_pos hd, if_pos hd]
    have h2 := adjustPS_cums_rev (n.contig.atus.map ATU.lenZ).reverse
    rwa [List.reverse_reverse] at h2
  · rw [if_neg hd, if_neg hd]

theorem trimPS_right_eq (n : CNode) :
    (if n.dir = .forward then adjustPS (cums (n.contig.atus.map ATU.lenZ))
     else cums (n.contig.atus.map ATU.lenZ)) =
    cums (((orientedAtus n).map ATU.lenZ).reverse) := by
  rw [orientedAtus_map_lenZ]
  by_cases hd : n.dir = .reversed
  · have hnf : ¬ (n.dir = .forward) := by rw [hd]; simp
    rw [if_neg hnf, if_pos hd, List.reverse_reverse]
  · have hf : n.dir = .forward := by
      cases h2 : n.dir
      · rfl
      · exact absurd h2 hd
    rw [if_pos hf, if_neg hd]
    have h2 := adjustPS_cums_rev (n.contig.atus.map ATU.lenZ).reverse
    rwa [List.reverse_reverse] at h2

theorem sumLen_take_add_getElem (l : List ATU) (k : ℕ) (h : k < l.length) :
    sumLen (l.take (k + 1)) = sumLen (l.take k) + (l.get ⟨k, h⟩).lenZ := by
  have h2 : k < (l.map ATU.lenZ).length := by simpa using h
  have hs := List.sum_take_succ (l.map ATU.lenZ) k h2
  rw [sumLen_eq_map_sum, sumLen_eq_map_sum, List.map_take, List.map_take, hs]
  congr 1
  simp [List.get_eq_getElem]

/-- The left trim of the resolver: on a list starting with the oriented
ATUs of the leftmost contig, with the query start at offset d strictly
inside that contig, the trim succeeds and removes exactly d units of
length from the left. -/
theorem leftTrim_spec (first : CNode) (rest : List ATU) (d : ℤ)
    (hFwf : ∀ a ∈ first.contig.atus, a.WF)
    (hRwf : ∀ a ∈ rest, a.WF)
    (hd0 : 0 ≤ d) (hdlt : d < sumLen (orientedAtus first)) :
    ∃ idx newF,
      leftTrim first (orientedAtus first ++ rest) d =
        some (newF :: ((orientedAtus first).drop (idx + 1) ++ rest)) ∧
      idx < (orientedAtus first).length ∧
      newF.WF ∧
      newF.lenZ = sumLen ((orientedAtus first).take (idx + 1)) - d ∧
      0 < newF.lenZ ∧
      sumLen ((orientedAtus first).take idx) ≤ d ∧
      sumLen (newF :: (orientedAtus first).drop (idx + 1)) =
        sumLen (orientedAtus first) - d ∧
      (∃ b ∈ orientedAtus first, newF.stripe = b.stripe) := by
  have hBwf : ∀ a ∈ orientedAtus first, a.WF := orientedAtus_WF first hFwf
  set blk := orientedAtus first with hblk
  set ls := blk.map ATU.lenZ with hls
  have hlspos : ∀ x ∈ ls, 0 < x := by
    intro x hx
    rw [hls] at hx
    obtain ⟨a, ha, rfl⟩ := List.mem_map.mp hx
    exact ATU.lenZ_pos a (hBwf a ha)
  have hsum : ls.sum = sumLen blk := (sumLen_eq_map_sum blk).symm
  obtain ⟨hidx, hbefore, hafter⟩ :=
    ssR_cums_spec ls d hlspos hd0 (by rw [hsum]; exact hdlt)
  set idx := ssR (cums ls) d with hidxdef
  have hidxblk : idx < blk.length := by
    simpa [hls] using hidx
  -- the element at idx
  have hget : (blk ++ rest)[idx]? = some (blk.get ⟨idx, hidxblk⟩) := by
    rw [List.getElem?_append_left (by omega), List.getElem?_eq_getElem hidxblk]
    rfl
  set oldF := blk.get ⟨idx, hidxblk⟩ with holdF
  have holdwf : oldF.WF := hBwf oldF (List.get_mem blk idx hidxblk)
  -- sums over the map commute with take
  have htake : ∀ k : ℕ, (ls.take k).sum = sumLen (blk.take k) := by
    intro k
    rw [hls, ← List.map_take, ← sumLen_eq_map_sum]
  have hbefore2 : sumLen (blk.take idx) ≤ d := by rw [← htake]; exact hbefore
  have hafter2 : d < sumLen (blk.take (idx + 1)) := by rw [← htake]; exact hafter
  have hstep : sumLen (blk.take (idx + 1)) = sumLen (blk.take idx) + oldF.lenZ :=
    sumLen_take_add_getElem blk idx hidxblk
  -- the before value read from the prefix sums
  have hbeforeval :
      (if 0 < idx then (cums ls).getD (idx - 1) 0 else 0) = sumLen (blk.take idx) := by
    rw [cums_before_eq ls idx (by simpa [hls] using le_of_lt hidxblk), htake]
  -- unfold leftTrim
  set r := d - sumLen (blk.take idx) with hr
  have hr0 : 0 ≤ r := by omega
  have hrlen : r < oldF.lenZ := by omega
  set newF : ATU :=
    (if oldF.dir = .forward then
      { oldF with startI := oldF.startI + r }
    else
      { oldF with endE := oldF.endE - r }) with hnewF
  have hnewlen : newF.lenZ = oldF.lenZ - r := by
    unfold ATU.lenZ
    rw [hnewF]
    by_cases hdir : oldF.dir = .forward
    · rw [if_pos hdir]
      dsimp only
      ring
    · rw [if_neg hdir]
      dsimp only
      ring
  have hnewwf : newF.WF := by
    obtain ⟨hw1, hw2, hw3⟩ := holdwf
    have hlen : r < oldF.endE - oldF.startI := by
      have h2 := hrlen
      unfold ATU.lenZ at h2
      exact h2
    unfold ATU.WF
    rw [hnewF]
    by_cases hdir : oldF.dir = .forward
    · rw [if_pos hdir]
      dsimp only
      omega
    · rw [if_neg hdir]
      dsimp only
      omega
  refine ⟨idx, newF, ?_, hidxblk, hnewwf, ?_, ?_, hbefore2, ?_,
    oldF, List.get_mem blk idx hidxblk, by rw [hnewF]; split <;> rfl⟩
  · -- the computation itself
    rw [leftTrim]
    simp only
    rw [trimPS_left_eq first, ← hblk, ← hls, ← hidxdef, hget]
    simp only [Option.some.injEq]
    rw [hbeforeval, ← hr, ← hnewF]
    rw [List.drop_append_of_le_length (by omega)]
  · omega
  · omega
  · rw [sumLen_cons, hnewlen]
    have hsplit : sumLen (blk.take (idx + 1)) + sumLen (blk.drop (idx + 1)) =
        sumLen blk := by
      rw [← sumLen_append, List.take_append_drop]
    omega


/-! ## Lemmas: dropping from the right -/

theorem dropLastN_zero (l : List α) : dropLastN l 0 = l := by
  unfold dropLastN
  simp

theorem dropLastN_append (l1 l2 : List α) (k : ℕ) (h : k ≤ l2.length) :
    dropLastN (l1 ++ l2) k = l1 ++ dropLastN l2 k := by
  unfold dropLastN
  rw [List.length_append]
  rw [show l1.length + l2.length - k = l1.length + (l2.length - k) from by omega]
  rw [List.take_append]

theorem dropLastN_one (l : List α) : dropLastN l 1 = l.dropLast := by
  unfold dropLastN
  rw [List.dropLast_eq_take]

theorem sumLen_take_le_total (l : List ATU) (k : ℕ)
    (h : ∀ a ∈ l, a.WF) : sumLen (l.take k) ≤ sumLen l := by
  have hsplit : sumLen (l.take k) + sumLen (l.drop k) = sumLen l := by
    rw [← sumLen_append, List.take_append_drop]
  have : 0 ≤ sumLen (l.drop k) :=
    sumLen_nonneg _ (fun a ha => h a (List.mem_of_mem_drop ha))
  omega

theorem sumLen_reverse_drop (l : List ATU) (k : ℕ) (h : k ≤ l.length) :
    sumLen (l.reverse.drop k) = sumLen (l.take (l.length - k)) := by
  have h2 := List.reverse_take (n := l.length - k) (l := l)
  rw [show l.length - (l.length - k) = k from by omega] at h2
  rw [← h2, sumLen_reverse]

theorem sumLen_dropLastN (l : List ATU) (k : ℕ) (hk : k ≤ l.length) :
    sumLen (dropLastN l k) = sumLen l - sumLen (l.reverse.take k) := by
  have hsplit : sumLen (l.reverse.take k) + sumLen (l.reverse.drop k) =
      sumLen l := by
    rw [← sumLen_append, List.take_append_drop, sumLen_reverse]
  rw [show dropLastN l k = l.take (l.length - k) from rfl]
  rw [← sumLen_reverse_drop l k hk]
  omega

/-- Mapping ATU lengths commutes with the reverse-take used by the
right trim. -/
theorem map_lenZ_reverse_take (l : List ATU) (k : ℕ) :
    (l.reverse.take k).map ATU.lenZ = (l.map ATU.lenZ).reverse.take k := by
  rw [← List.map_reverse, List.map_take]

theorem getElemQ_reverse (l : List α) (i : ℕ) (h : i < l.length) :
    l.reverse[i]? = l[l.length - 1 - i]? := by
  rw [List.getElem?_eq_getElem (by simpa using h),
    List.getElem?_eq_getElem (by omega)]
  rw [List.getElem_reverse]

/-- The right trim of the resolver.  The input list ends with the
suffix of the oriented ATUs of the rightmost contig starting at index
j, preceded by a non-empty front part; c is the number of units to cut
from the right, smaller than the part of the last contig present plus
one more ATU, and also smaller than what the present part and the last
front element together can absorb. -/
theorem rightTrim_spec (last : CNode) (F : List ATU) (j : ℕ) (c : ℤ)
    (hLwf : ∀ a ∈ last.contig.atus, a.WF)
    (hFwf : ∀ a ∈ F, a.WF)
    (hFne : F ≠ [])
    (hc0 : 0 ≤ c)
    (hcsafe : c < sumLen ((orientedAtus last).reverse.take
      ((orientedAtus last).length - j + 1)))
    (hlastF : ∀ h : F ≠ [], c < sumLen ((orientedAtus last).drop j) +
      (F.getLast h).lenZ) :
    ∃ out, rightTrim last (F ++ (orientedAtus last).drop j) (-c) = some out ∧
      sumLen out = sumLen F + sumLen ((orientedAtus last).drop j) - c ∧
      (∀ a ∈ out, a.WF) ∧
      (∀ a ∈ out, ∃ b, (b ∈ F ∨ b ∈ orientedAtus last) ∧
        a.stripe = b.stripe) := by
  have hBwf : ∀ a ∈ orientedAtus last, a.WF := orientedAtus_WF last hLwf
  set blk := orientedAtus last with hblk
  set ls := blk.map ATU.lenZ with hls
  set xs := ls.reverse with hxs
  have hxspos : ∀ x ∈ xs, 0 < x := by
    intro x hx
    rw [hxs, List.mem_reverse, hls] at hx
    obtain ⟨a, ha, rfl⟩ := List.mem_map.mp hx
    exact ATU.lenZ_pos a (hBwf a ha)
  have hxs_len : xs.length = blk.length := by
    rw [hxs, List.length_reverse, hls, List.length_map]
  -- the sum bound needed by the searchsorted characterisation
  have htakex : ∀ k : ℕ, (xs.take k).sum = sumLen (blk.reverse.take k) := by
    intro k
    rw [hxs, hls, ← map_lenZ_reverse_take, ← sumLen_eq_map_sum]
  have hxsum : xs.sum = sumLen blk := by
    rw [hxs, List.sum_reverse, hls, ← sumLen_eq_map_sum]
  have hcsum : c < xs.sum := by
    rw [hxsum]
    calc c < sumLen (blk.reverse.take (blk.length - j + 1)) := hcsafe
    _ ≤ sumLen blk.reverse := by
        apply sumLen_take_le_total
        intro a ha
        exact hBwf a (List.mem_reverse.mp ha)
    _ = sumLen blk := sumLen_reverse blk
  obtain ⟨hroff_lt, hbefore, hafter⟩ := ssR_cums_spec xs c hxspos hc0 hcsum
  set roff := ssR (cums xs) c with hroffdef
  -- roff cannot eat into what precedes the suffix
  have hroff_le : roff ≤ blk.length - j := by
    by_contra hcon
    have h1 : blk.length - j + 1 ≤ roff := by omega
    have h2 : (xs.take (blk.length - j + 1)).sum ≤ (xs.take roff).sum := by
      rw [htakex, htakex]
      apply sumLen_take_le _ _ _ h1
      intro a ha
      exact hBwf a (List.mem_reverse.mp ha)
    have h3 : c < (xs.take (blk.length - j + 1)).sum := by
      rw [htakex]
      exact hcsafe
    omega
  -- the two branch values of the right trim
  have hD : ∀ k : ℕ, k ≤ (blk.drop j).length →
      dropLastN (F ++ blk.drop j) k = F ++ dropLastN (blk.drop j) k :=
    fun k hk => dropLastN_append F (blk.drop j) k hk
  have hdropj_len : (blk.drop j).length = blk.length - j := by simp
  have hkk : roff ≤ (blk.drop j).length := by
    rw [hdropj_len]
    omega
  -- dropped sum: last roff ATUs of the suffix are the last roff of blk
  have hdropsum : sumLen (dropLastN (blk.drop j) roff) =
      sumLen (blk.drop j) - (xs.take roff).sum := by
    rw [sumLen_dropLastN _ _ hkk, htakex]
    have hrev : (blk.drop j).reverse.take roff = blk.reverse.take roff := by
      have hsplit : blk.reverse = (blk.drop j).reverse ++ (blk.take j).reverse := by
        rw [← List.reverse_append, List.take_append_drop]
      rw [hsplit, List.take_append_of_le_length (by
        rw [List.length_reverse]
        exact hkk)]
    rw [hrev]
  have hatus2 : (if 0 < roff then dropLastN (F ++ blk.drop j) roff
      else F ++ blk.drop j) = F ++ dropLastN (blk.drop j) roff := by
    split
    · exact hD roff (by omega)
    · rename_i h0
      rw [show roff = 0 from by omega, dropLastN_zero]
  have hdel : (if 0 < roff then (cums xs).getD (roff - 1) 0 else 0) =
      (xs.take roff).sum :=
    cums_before_eq xs roff (by omega)
  -- the last element of the trimmed list
  obtain ⟨D, hDD⟩ : ∃ D, D = dropLastN (blk.drop j) roff := ⟨_, rfl⟩
  rw [← hDD] at hdropsum hatus2
  have hDlen : D.length = (blk.drop j).length - roff := by
    rw [hDD]
    unfold dropLastN
    simp
  have hMain : ∃ oldL, (F ++ D).getLast? = some oldL ∧ oldL.WF ∧
      (oldL ∈ F ∨ oldL ∈ blk) ∧
      c - (xs.take roff).sum < oldL.lenZ ∧
      sumLen (dropLastN (F ++ D) 1) = sumLen F + sumLen D - oldL.lenZ := by
    by_cases hDne : D = []
    · -- the whole suffix was dropped; the last element is the last of F
      have hjr : roff = blk.length - j := by
        have h9 := hdropj_len
        have hlen := hDlen
        rw [hDne] at hlen
        simp at hlen
        omega
      refine ⟨F.getLast hFne, ?_, ?_, Or.inl (List.getLast_mem hFne), ?_, ?_⟩
      · rw [hDne, List.append_nil, List.getLast?_eq_getLast F hFne]
      · exact hFwf _ (List.getLast_mem hFne)
      · have hdel2 : (xs.take roff).sum = sumLen (blk.drop j) := by
          rw [htakex, hjr]
          have hbr : blk.reverse.take (blk.length - j) = (blk.drop j).reverse :=
            List.reverse_drop.symm
          rw [hbr, sumLen_reverse]
        have := hlastF hFne
        omega
      · rw [hDne, List.append_nil, dropLastN_one]
        have hFd : F.dropLast ++ [F.getLast hFne] = F :=
          List.dropLast_append_getLast hFne
        have hsum3 : sumLen (F.dropLast ++ [F.getLast hFne]) = sumLen F := by
          rw [hFd]
        rw [sumLen_append, sumLen_cons, sumLen_nil] at hsum3
        rw [sumLen_nil]
        omega
    · -- the last element survives inside the suffix of blk
      have hDlen_pos : 0 < D.length := by
        rcases Nat.eq_zero_or_pos D.length with h0 | h0
        · exact absurd (List.length_eq_zero.mp h0) hDne
        · exact h0
      have hroff_lt2 : roff < (blk.drop j).length := by omega
      have hgetD : D.getLast? = blk[blk.length - 1 - roff]? := by
        rw [hDD, List.getLast?_eq_getElem?]
        unfold dropLastN
        rw [List.getElem?_take]
        rw [if_pos (by
          simp only [List.length_take, List.length_drop]
          omega)]
        rw [List.getElem?_drop]
        congr 1
        simp only [List.length_take, List.length_drop]
        omega
      have hidx : blk.length - 1 - roff < blk.length := by omega
      have hgetD2 : D.getLast? = some (blk.get ⟨blk.length - 1 - roff, hidx⟩) := by
        rw [hgetD, List.getElem?_eq_getElem hidx]
        rfl
      set oldL := blk.get ⟨blk.length - 1 - roff, hidx⟩ with holdL
      have holdmem : oldL ∈ blk := List.get_mem blk _ _
      refine ⟨oldL, ?_, hBwf oldL holdmem, Or.inr holdmem, ?_, ?_⟩
      · rw [List.getLast?_append_of_ne_nil _ hDne, hgetD2]
      · -- from the searchsorted bound: c < deleted + len(oldL)
        have hx_el : xs[roff]? = some oldL.lenZ := by
          rw [hxs, getElemQ_reverse ls roff (by rw [hls, List.length_map]; omega)]
          rw [hls, List.getElem?_map, List.length_map]
          rw [List.getElem?_eq_getElem hidx]
          rw [holdL]
          rfl
        have hsucc : (xs.take (roff + 1)).sum = (xs.take roff).sum + oldL.lenZ := by
          have h2 : roff < xs.length := by omega
          rw [List.sum_take_succ xs roff h2]
          congr 1
          have h5 : xs[roff]? = some (xs.get ⟨roff, h2⟩) := by
            rw [List.getElem?_eq_getElem h2]
            rfl
          rw [hx_el] at h5
          exact Option.some_inj.mp h5.symm
        omega
      · -- removing the last element removes its length
        have hne2 : F ++ D ≠ [] := by simp [hDne]
        have hlast2 : (F ++ D).getLast hne2 = oldL := by
          have := List.getLast?_eq_getLast (F ++ D) hne2
          rw [List.getLast?_append_of_ne_nil _ hDne, hgetD2] at this
          exact (Option.some.injEq _ _ ▸ this).symm
        have hFd : (F ++ D).dropLast ++ [(F ++ D).getLast hne2] = F ++ D :=
          List.dropLast_append_getLast hne2
        have hsum2 : sumLen ((F ++ D).dropLast) + oldL.lenZ =
            sumLen F + sumLen D := by
          have h3 : sumLen ((F ++ D).dropLast ++ [(F ++ D).getLast hne2]) =
              sumLen (F ++ D) := by rw [hFd]
          rw [sumLen_append, sumLen_cons, sumLen_nil, hlast2] at h3
          rw [sumLen_append] at h3
          omega
        rw [dropLastN_one]
        omega
  obtain ⟨oldL, hgetlast, holdwf, hprov, hresid, hdroplast⟩ := hMain
  obtain ⟨resid, hresid_def⟩ : ∃ r : ℤ, r = c - (xs.take roff).sum := ⟨_, rfl⟩
  have hresid0 : 0 ≤ resid := by
    rw [hresid_def]
    omega
  obtain ⟨newL, hnewL⟩ : ∃ newL : ATU, newL =
    (if oldL.dir = .forward then
      { oldL with endE := oldL.endE + ((xs.take roff).sum + -c) }
    else
      { oldL with startI := oldL.startI - ((xs.take roff).sum + -c) }) := ⟨_, rfl⟩
  have hnewlen : newL.lenZ = oldL.lenZ - resid := by
    unfold ATU.lenZ
    rw [hnewL]
    by_cases hdir : oldL.dir = .forward
    · rw [if_pos hdir]
      dsimp only
      rw [hresid_def]
      ring
    · rw [if_neg hdir]
      dsimp only
      rw [hresid_def]
      ring
  have hnewwf : newL.WF := by
    obtain ⟨hw1, hw2, hw3⟩ := holdwf
    have hlen : resid < oldL.endE - oldL.startI := by
      have h2 := hresid
      unfold ATU.lenZ at h2
      rw [hresid_def]
      omega
    unfold ATU.WF
    rw [hnewL]
    by_cases hdir : oldL.dir = .forward
    · rw [if_pos hdir]
      dsimp only
      rw [hresid_def] at hlen hresid0
      omega
    · rw [if_neg hdir]
      dsimp only
      rw [hresid_def] at hlen hresid0
      omega
  refine ⟨dropLastN (F ++ D) 1 ++ [newL], ?_, ?_, ?_, ?_⟩
  · -- the computation itself
    rw [rightTrim]
    simp only
    rw [trimPS_right_eq last, ← hblk, ← hls, ← hxs, neg_neg, ← hroffdef]
    rw [hatus2, hgetlast]
    simp only [Option.some.injEq]
    rw [hdel, ← hnewL]
  · rw [sumLen_append, hdroplast, sumLen_cons, sumLen_nil, hnewlen]
    rw [hresid_def] at hresid0
    omega
  · intro a ha
    rw [List.mem_append] at ha
    rcases ha with ha | ha
    · have ha2 : a ∈ F ++ D := by
        unfold dropLastN at ha
        exact List.mem_of_mem_take ha
      rw [List.mem_append] at ha2
      rcases ha2 with h3 | h3
      · exact hFwf a h3
      · rw [hDD] at h3
        unfold dropLastN at h3
        exact hBwf a (List.mem_of_mem_drop (List.mem_of_mem_take h3))
    · rw [List.mem_singleton] at ha
      rw [ha]
      exact hnewwf
  · intro a ha
    rw [List.mem_append] at ha
    rcases ha with ha | ha
    · have ha2 : a ∈ F ++ D := by
        unfold dropLastN at ha
        exact List.mem_of_mem_take ha
      rw [List.mem_append] at ha2
      rcases ha2 with h3 | h3
      · exact ⟨a, Or.inl h3, rfl⟩
      · have h4 : a ∈ blk := by
          rw [hDD] at h3
          unfold dropLastN at h3
          exact List.mem_of_mem_drop (List.mem_of_mem_take h3)
        exact ⟨a, Or.inr h4, rfl⟩
    · rw [List.mem_singleton] at ha
      have hstr : a.stripe = oldL.stripe := by
        rw [ha, hnewL]
        split <;> rfl
      exact ⟨oldL, hprov, hstr⟩


/-! ## Lemmas: reduce -/

theorem fuse2_props (x y ab : ATU) (h : fuse2 x y = some ab) :
    ab.lenZ = x.lenZ + y.lenZ ∧ ab.stripe = x.stripe ∧
      (x.WF → y.WF → ab.WF) := by
  unfold fuse2 at h
  by_cases h1 : x.stripe = y.stripe ∧ x.dir = y.dir
  · rw [if_pos h1] at h
    by_cases hd : x.dir = .forward
    · rw [hd] at h
      simp only at h
      by_cases h2 : x.endE = y.startI
      · rw [if_pos h2] at h
        have hab := (Option.some_inj.mp h).symm
        subst hab
        refine ⟨?_, rfl, ?_⟩
        · unfold ATU.lenZ
          dsimp only
          omega
        · intro hx hy
          obtain ⟨hx1, hx2, hx3⟩ := hx
          obtain ⟨hy1, hy2, hy3⟩ := hy
          unfold ATU.WF
          dsimp only
          rw [h1.1]
          omega
      · rw [if_neg h2] at h
        exact absurd h (by simp)
    · have hrev : x.dir = .reversed := by
        cases h3 : x.dir
        · exact absurd h3 hd
        · rfl
      rw [hrev] at h
      simp only at h
      by_cases h2 : y.endE = x.startI
      · rw [if_pos h2] at h
        have hab := (Option.some_inj.mp h).symm
        subst hab
        refine ⟨?_, rfl, ?_⟩
        · unfold ATU.lenZ
          dsimp only
          omega
        · intro hx hy
          obtain ⟨hx1, hx2, hx3⟩ := hx
          obtain ⟨hy1, hy2, hy3⟩ := hy
          unfold ATU.WF
          dsimp only
          omega
      · rw [if_neg h2] at h
        exact absurd h (by simp)
  · rw [if_neg h1] at h
    exact absurd h (by simp)

theorem reduceATUs_props : ∀ l : List ATU, (∀ a ∈ l, a.WF) →
    sumLen (reduceATUs l) = sumLen l ∧ (∀ a ∈ reduceATUs l, a.WF) ∧
      (∀ a ∈ reduceATUs l, a.stripe ∈ l.map ATU.stripe)
  | [] => by
    intro _
    simp [reduceATUs]
  | [a] => by
    intro h
    refine ⟨by simp [reduceATUs, reduceGo], ?_, ?_⟩
    · simpa [reduceATUs, reduceGo] using h
    · intro x hx
      rw [show reduceATUs [a] = [a] from by simp [reduceATUs, reduceGo]] at hx
      rw [List.mem_singleton] at hx
      subst hx
      simp
  | a :: b :: rest => by
    intro h
    rw [reduceATUs_cons2]
    cases hf : fuse2 a b with
    | none =>
      simp only
      have hr := reduceATUs_props (b :: rest)
        (fun x hx => h x (by simp [List.mem_cons] at hx ⊢; tauto))
      refine ⟨?_, ?_, ?_⟩
      · rw [sumLen_cons, sumLen_cons, sumLen_cons, hr.1, sumLen_cons]
      · intro x hx
        rw [List.mem_cons] at hx
        rcases hx with rfl | hx
        · exact h x (by simp)
        · exact hr.2.1 x hx
      · intro x hx
        rw [List.mem_cons] at hx
        rcases hx with rfl | hx
        · simp
        · have := hr.2.2 x hx
          simp only [List.map_cons, List.mem_cons] at this ⊢
          tauto
    | some ab =>
      simp only
      have hprops := fuse2_props a b ab hf
      have habwf : ab.WF :=
        hprops.2.2 (h a (by simp)) (h b (by simp))
      have hr := reduceATUs_props (ab :: rest) (by
        intro x hx
        rw [List.mem_cons] at hx
        rcases hx with rfl | hx
        · exact habwf
        · exact h x (by simp [hx]))
      refine ⟨?_, hr.2.1, ?_⟩
      · rw [hr.1, sumLen_cons, sumLen_cons, sumLen_cons, hprops.1]
        ring
      · intro x hx
        have := hr.2.2 x hx
        simp only [List.map_cons, List.mem_cons] at this ⊢
        rcases this with h1 | h1
        · left
          rw [h1, hprops.2.1]
        · tauto
  termination_by l => l.length


theorem stripe_mem_stripesOf (asm : List CNode) (n : CNode) (hn : n ∈ asm)
    (a : ATU) (ha : a ∈ n.contig.atus) : a.stripe ∈ stripesOf asm := by
  unfold stripesOf
  exact List.mem_map_of_mem _ (List.mem_flatMap.mpr ⟨n, hn, ha⟩)

theorem orientedAtus_stripe_mem (asm : List CNode) (n : CNode) (hn : n ∈ asm)
    (a : ATU) (ha : a ∈ orientedAtus n) : a.stripe ∈ stripesOf asm := by
  unfold orientedAtus at ha
  cases hd : n.dir
  · rw [hd] at ha
    exact stripe_mem_stripesOf asm n hn a ha
  · rw [hd] at ha
    simp only [List.mem_map, List.mem_reverse] at ha
    obtain ⟨b, hb, rfl⟩ := ha
    exact stripe_mem_stripesOf asm n hn b hb

theorem travAtus_stripe_mem (asm : List CNode) (excl : Bool) (seg : List CNode)
    (hsub : ∀ n ∈ seg, n ∈ asm) (a : ATU) (ha : a ∈ travAtus excl seg) :
    a.stripe ∈ stripesOf asm := by
  unfold travAtus at ha
  simp only [List.mem_flatMap, List.mem_filter] at ha
  obtain ⟨n, ⟨hn, _⟩, hna⟩ := ha
  exact orientedAtus_stripe_mem asm n (hsub n hn) a hna

theorem sumLen_reverse_take (l : List ATU) (k : ℕ) (hk : k ≤ l.length) :
    sumLen (l.reverse.take k) = sumLen l - sumLen (l.take (l.length - k)) := by
  have hsp : sumLen (l.reverse.take k) + sumLen (l.reverse.drop k) =
      sumLen l := by
    rw [← sumLen_append, List.take_append_drop, sumLen_reverse]
  rw [sumLen_reverse_drop l k hk] at hsp
  omega

/-- The ATU resolver succeeds on every query over a well-formed assembly:
it returns a list of well-formed ATUs whose total length is the length of
the query window clamped to the assembly (chunked_file.py lines 629-895,
spec section 4.3 guarantees a-c). -/
theorem getAtusForRange_spec (asm : List CNode) (excl : Bool) (s e : ℤ)
    (hwf : AsmWF asm) :
    ∃ out, getAtusForRange asm excl s e = some out ∧
      sumLen out = max 0 (min e (sizeU excl asm) - max 0 s) ∧
      (∀ a ∈ out, a.WF) ∧
      (e ≤ s → out = []) ∧
      (∀ a ∈ out, a.stripe ∈ stripesOf asm) := by
  have htot0 : 0 ≤ sizeU excl asm := sizeU_nonneg excl asm hwf
  obtain ⟨S, hS⟩ : ∃ x, x = constrainCoordinate s 0 (sizeU excl asm) := ⟨_, rfl⟩
  obtain ⟨E, hE⟩ : ∃ x, x = constrainCoordinate e 0 (sizeU excl asm) := ⟨_, rfl⟩
  have hSf : 0 ≤ S ∧ S ≤ sizeU excl asm := by
    rw [hS]
    unfold constrainCoordinate
    omega
  have hEf : 0 ≤ E ∧ E ≤ sizeU excl asm := by
    rw [hE]
    unfold constrainCoordinate
    omega
  have hformula : max 0 (min e (sizeU excl asm) - max 0 s) = max 0 (E - S) := by
    rw [hS, hE]
    unfold constrainCoordinate
    omega
  have htriv : e ≤ s → E - S ≤ 0 := by
    intro h
    rw [hS, hE]
    unfold constrainCoordinate
    omega
  by_cases hcase : E - S ≤ 0
  · refine ⟨[], ?_, ?_, by simp, fun _ => rfl, by simp⟩
    · unfold getAtusForRange
      simp only
      rw [← hS, ← hE, if_pos hcase]
    · rw [sumLen_nil, hformula]
      omega
  · have hSE : S < E := by omega
    have hsplit1 : (splitLE excl S asm).1 ++ (splitLE excl S asm).2 = asm :=
      splitLE_append excl S asm
    have hless_le : sizeU excl (splitLE excl S asm).1 ≤ S :=
      splitLE_size_le excl S asm hSf.1
    have hsize2 : sizeU excl (splitLE excl S asm).1 +
        sizeU excl (splitLE excl S asm).2 = sizeU excl asm := by
      have h2 := sizeU_append excl (splitLE excl S asm).1 (splitLE excl S asm).2
      rw [hsplit1] at h2
      omega
    have hk_pos : 0 < E - sizeU excl (splitLE excl S asm).1 := by omega
    have hk_le : E - sizeU excl (splitLE excl S asm).1 ≤
        sizeU excl (splitLE excl S asm).2 := by omega
    have hqsplit := splitGE_append excl (E - sizeU excl (splitLE excl S asm).1)
      (splitLE excl S asm).2
    have hsegsz := splitGE_size_ge excl (E - sizeU excl (splitLE excl S asm).1)
      (splitLE excl S asm).2 hk_le
    obtain ⟨pre, lst, hsegpre, hprelt, hprege⟩ :=
      splitGE_last excl (E - sizeU excl (splitLE excl S asm).1)
        (splitLE excl S asm).2 hk_pos hk_le
    have hmemseg : ∀ n ∈ (splitGE excl (E - sizeU excl (splitLE excl S asm).1)
        (splitLE excl S asm).2).1, n ∈ asm := by
      intro n hn
      rw [← hsplit1]
      refine List.mem_append_right _ ?_
      rw [← hqsplit]
      exact List.mem_append_left _ hn
    have hP1 : (exposeSegment excl S E asm).1 = (splitLE excl S asm).1 := rfl
    have hP21 : (exposeSegment excl S E asm).2.1 =
        (splitGE excl (E - sizeU excl (splitLE excl S asm).1)
          (splitLE excl S asm).2).1 := rfl
    cases hsegcons : (splitGE excl (E - sizeU excl (splitLE excl S asm).1)
        (splitLE excl S asm).2).1 with
    | nil =>
      rw [hsegcons] at hsegpre
      exact absurd hsegpre (by simp)
    | cons first segRest =>
      rw [hsegcons] at hsegpre hsegsz hqsplit
      have hsubasm : ∀ n ∈ first :: segRest, n ∈ asm := by
        intro n hn
        exact hmemseg n (by rw [hsegcons]; exact hn)
      have hwfseg : ∀ n ∈ first :: segRest, ∀ a ∈ n.contig.atus, a.WF := by
        intro n hn
        exact hwf n (hsubasm n hn)
      have hp2eq : (splitLE excl S asm).2 =
          first :: (segRest ++ (splitGE excl
            (E - sizeU excl (splitLE excl S asm).1) (splitLE excl S asm).2).2) := by
        conv_lhs => rw [← hqsplit]
        rw [List.cons_append]
      have hhead := splitLE_snd_head excl S asm first _ hp2eq
      have hd0 : 0 ≤ S - sizeU excl (splitLE excl S asm).1 := by omega
      have hdlt : S - sizeU excl (splitLE excl S asm).1 <
          nodeSize excl first := by omega
      have hfirstpos : 0 < nodeSize excl first := by omega
      obtain ⟨hkept1, hne1⟩ := nodeSize_pos_kept excl first hfirstpos
      have hwffirst : ∀ a ∈ first.contig.atus, a.WF := hwfseg first (by simp)
      have hfirstsum : sumLen (orientedAtus first) = nodeSize excl first := by
        rw [sumLen_orientedAtus, nodeSize_kept excl first hkept1]
      have hsegRestwf : AsmWF segRest := fun n hn => hwfseg n (by simp [hn])
      have hrestwf : ∀ a ∈ travAtus excl segRest, a.WF :=
        travAtus_WF excl segRest hsegRestwf
      obtain ⟨idx, newF, heqL, hidxlt, hnewFwf, hnewFlen, hnewFpos, hbeforeLe,
        hsumL, hnewFstr⟩ := leftTrim_spec first (travAtus excl segRest)
          (S - sizeU excl (splitLE excl S asm).1) hwffirst hrestwf hd0
          (by rw [hfirstsum]; exact hdlt)
      have hAwf : ∀ a ∈ orientedAtus first, a.WF :=
        orientedAtus_WF first hwffirst
      have hsumL2 : newF.lenZ + sumLen ((orientedAtus first).drop (idx + 1)) =
          sumLen (orientedAtus first) -
            (S - sizeU excl (splitLE excl S asm).1) := by
        have h2 := hsumL
        rw [sumLen_cons] at h2
        omega
      cases segRest with
      | nil =>
        obtain ⟨c, hc⟩ : ∃ x, x = sizeU excl (splitLE excl S asm).1 +
            sizeU excl [first] - E := ⟨_, rfl⟩
        have hsz1 : sizeU excl [first] = nodeSize excl first := by
          rw [sizeU_cons, sizeU_nil]
          omega
        have hc0 : 0 ≤ c := by omega
        have hclt : c < nodeSize excl first -
            (S - sizeU excl (splitLE excl S asm).1) := by omega
        simp only [travAtus_nil, List.append_nil] at heqL
        have hcsafe1 : c < sumLen ((orientedAtus first).reverse.take
            ((orientedAtus first).length - (idx + 1) + 1)) := by
          rw [sumLen_reverse_take (orientedAtus first)
            ((orientedAtus first).length - (idx + 1) + 1) (by omega)]
          rw [show (orientedAtus first).length -
            ((orientedAtus first).length - (idx + 1) + 1) = idx from by omega]
          omega
        have hlastF1 : ∀ h : [newF] ≠ [], c <
            sumLen ((orientedAtus first).drop (idx + 1)) +
              (([newF]).getLast h).lenZ := by
          intro h
          rw [List.getLast_singleton]
          omega
        obtain ⟨out, hrT, hsumR, houtwf, houtstr⟩ := rightTrim_spec first [newF] (idx + 1)
          c hwffirst
          (by
            intro a ha
            rw [List.mem_singleton] at ha
            subst ha
            exact hnewFwf)
          (by simp) hc0 hcsafe1 hlastF1
        rw [List.singleton_append] at hrT
        have hsumout : sumLen out = E - S := by
          rw [hsumR, sumLen_cons, sumLen_nil]
          omega
        have hrun : getAtusForRange asm excl s e = some (reduceATUs out) := by
          unfold getAtusForRange
          simp only
          rw [← hS, ← hE, if_neg hcase]
          rw [show (exposeSegment excl S E asm).2.1 = [first] from
            hP21.trans hsegcons]
          simp only
          rw [hP1]
          rw [travAtus_cons_kept excl first [] hkept1, travAtus_nil,
            List.append_nil]
          rw [heqL]
          simp only
          rw [show ([first].getLastD first) = first from rfl]
          rw [show E - (sizeU excl (splitLE excl S asm).1 +
            sizeU excl [first]) = -c from by omega]
          rw [hrT]
        obtain ⟨hredsum, hredwf, hredstr⟩ := reduceATUs_props out houtwf
        refine ⟨reduceATUs out, hrun, ?_, hredwf, ?_, ?_⟩
        · rw [hredsum, hsumout, hformula]
          omega
        · intro hes
          exact absurd (htriv hes) hcase
        · intro a ha
          obtain ⟨b, hb, hba⟩ := List.mem_map.mp (hredstr a ha)
          rw [← hba]
          obtain ⟨bb, hbb, hbs⟩ := houtstr b hb
          rw [hbs]
          rcases hbb with h3 | h3
          · rw [List.mem_singleton] at h3
            subst h3
            obtain ⟨b0, hb0, hsteq⟩ := hnewFstr
            rw [hsteq]
            exact orientedAtus_stripe_mem asm first (hsubasm first (by simp))
              b0 hb0
          · exact orientedAtus_stripe_mem asm first (hsubasm first (by simp))
              bb h3
      | cons r0 rs =>
        cases pre with
        | nil => simp at hsegpre
        | cons p0 pre2 =>
          rw [List.cons_append] at hsegpre
          injection hsegpre with hfp hrest
          subst hfp
          have hszpre : sizeU excl (first :: pre2) =
              nodeSize excl first + sizeU excl pre2 := sizeU_cons excl first pre2
          have hszrest : sizeU excl (r0 :: rs) =
              sizeU excl pre2 + nodeSize excl lst := by
            rw [hrest, sizeU_append, sizeU_cons, sizeU_nil]
            omega
          obtain ⟨c, hc⟩ : ∃ x, x = sizeU excl (splitLE excl S asm).1 +
              sizeU excl (first :: r0 :: rs) - E := ⟨_, rfl⟩
          have hszseg : sizeU excl (first :: r0 :: rs) =
              nodeSize excl first + sizeU excl (r0 :: rs) :=
            sizeU_cons excl first (r0 :: rs)
          have hc0 : 0 ≤ c := by omega
          have hclt : c < nodeSize excl lst := by omega
          have hlstpos : 0 < nodeSize excl lst := by omega
          obtain ⟨hkept2, hne2⟩ := nodeSize_pos_kept excl lst hlstpos
          have hlstmem : lst ∈ first :: r0 :: rs := by
            apply List.mem_cons_of_mem
            rw [hrest]
            exact List.mem_append_right _ (by simp)
          have hwflst : ∀ a ∈ lst.contig.atus, a.WF := hwfseg lst hlstmem
          have hlstsum : sumLen (orientedAtus lst) = nodeSize excl lst := by
            rw [sumLen_orientedAtus, nodeSize_kept excl lst hkept2]
          have hlastd : ((first :: r0 :: rs).getLastD first) = lst := by
            rw [hrest, ← List.cons_append]
            exact List.getLastD_concat _ _ _
          have hwfpre2 : AsmWF pre2 := by
            intro n hn
            refine hwfseg n (List.mem_cons_of_mem _ ?_)
            rw [hrest]
            exact List.mem_append_left _ hn
          have htravrest : travAtus excl (r0 :: rs) =
              travAtus excl pre2 ++ orientedAtus lst := by
            rw [hrest, travAtus_append, travAtus_cons_kept excl lst [] hkept2,
              travAtus_nil, List.append_nil]
          have hform : newF :: ((orientedAtus first).drop (idx + 1) ++
              travAtus excl (r0 :: rs)) =
              (newF :: ((orientedAtus first).drop (idx + 1) ++
                travAtus excl pre2)) ++ (orientedAtus lst).drop 0 := by
            rw [htravrest, List.drop_zero]
            simp [List.append_assoc]
          have hFwfA : ∀ a ∈ newF :: ((orientedAtus first).drop (idx + 1) ++
              travAtus excl pre2), a.WF := by
            intro a ha
            rw [List.mem_cons] at ha
            rcases ha with rfl | ha
            · exact hnewFwf
            · rw [List.mem_append] at ha
              rcases ha with ha | ha
              · exact hAwf a (List.mem_of_mem_drop ha)
              · exact travAtus_WF excl pre2 hwfpre2 a ha
          have hcsafe2 : c < sumLen ((orientedAtus lst).reverse.take
              ((orientedAtus lst).length - 0 + 1)) := by
            rw [List.take_of_length_le (by
              rw [List.length_reverse]
              omega)]
            rw [sumLen_reverse]
            omega
          have hlastF2 : ∀ h : (newF :: ((orientedAtus first).drop (idx + 1) ++
              travAtus excl pre2)) ≠ [], c <
              sumLen ((orientedAtus lst).drop 0) +
                ((newF :: ((orientedAtus first).drop (idx + 1) ++
                  travAtus excl pre2)).getLast h).lenZ := by
            intro h
            rw [List.drop_zero]
            have hpos := ATU.lenZ_pos _ (hFwfA _ (List.getLast_mem h))
            omega
          obtain ⟨out, hrT, hsumR, houtwf, houtstr⟩ := rightTrim_spec lst
            (newF :: ((orientedAtus first).drop (idx + 1) ++
              travAtus excl pre2)) 0 c
            hwflst hFwfA (by simp) hc0 hcsafe2 hlastF2
          have hsumout : sumLen out = E - S := by
            rw [hsumR, sumLen_cons, sumLen_append, List.drop_zero]
            have hts : sumLen (travAtus excl pre2) = sizeU excl pre2 :=
              sumLen_travAtus excl pre2
            omega
          have hrun : getAtusForRange asm excl s e = some (reduceATUs out) := by
            unfold getAtusForRange
            simp only
            rw [← hS, ← hE, if_neg hcase]
            rw [show (exposeSegment excl S E asm).2.1 = first :: r0 :: rs from
              hP21.trans hsegcons]
            simp only
            rw [hP1]
            rw [travAtus_cons_kept excl first (r0 :: rs) hkept1]
            rw [heqL]
            simp only
            rw [hlastd]
            rw [show E - (sizeU excl (splitLE excl S asm).1 +
              sizeU excl (first :: r0 :: rs)) = -c from by omega]
            rw [hform, hrT]
          obtain ⟨hredsum, hredwf, hredstr⟩ := reduceATUs_props out houtwf
          have hpre2sub : ∀ n ∈ pre2, n ∈ asm := by
            intro n hn
            refine hsubasm n (List.mem_cons_of_mem _ ?_)
            rw [hrest]
            exact List.mem_append_left _ hn
          refine ⟨reduceATUs out, hrun, ?_, hredwf, ?_, ?_⟩
          · rw [hredsum, hsumout, hformula]
            omega
          · intro hes
            exact absurd (htriv hes) hcase
          · intro a ha
            obtain ⟨b, hb, hba⟩ := List.mem_map.mp (hredstr a ha)
            rw [← hba]
            obtain ⟨bb, hbb, hbs⟩ := houtstr b hb
            rw [hbs]
            rcases hbb with h3 | h3
            · rw [List.mem_cons] at h3
              rcases h3 with rfl | h3
              · obtain ⟨b0, hb0, hsteq⟩ := hnewFstr
                rw [hsteq]
                exact orientedAtus_stripe_mem asm first (hsubasm first (by simp))
                  b0 hb0
              · rw [List.mem_append] at h3
                rcases h3 with h3 | h3
                · exact orientedAtus_stripe_mem asm first
                    (hsubasm first (by simp)) bb (List.mem_of_mem_drop h3)
                · exact travAtus_stripe_mem asm excl pre2 hpre2sub bb h3
            · exact orientedAtus_stripe_mem asm lst (hsubasm lst hlstmem) bb h3


/-! ## Concrete store fixtures for the closed instances -/

/-- A 3-bin stripe with unit weights. -/
def st0 : Stripe := ⟨0, 3, [1, 1, 1]⟩

/-- A 4-bin stripe with unit weights. -/
def st1 : Stripe := ⟨1, 4, [1, 1, 1, 1]⟩

/-- A forward 3-bin contig made of one ATU over st0. -/
def cA : CNode := ⟨⟨[⟨st0, 0, 3, .forward⟩], false⟩, .forward⟩

/-- A forward 4-bin contig made of two ATUs over st1. -/
def cB : CNode :=
  ⟨⟨[⟨st1, 0, 2, .forward⟩, ⟨st1, 2, 4, .forward⟩], false⟩, .forward⟩

/-- The contig cB with effective direction reversed. -/
def cBrev : CNode :=
  ⟨⟨[⟨st1, 0, 2, .forward⟩, ⟨st1, 2, 4, .forward⟩], false⟩, .reversed⟩

/-- A 7-bin assembly of two forward contigs. -/
def asm1 : List CNode := [cA, cB]

/-- The same assembly with the second contig reversed. -/
def asm2 : List CNode := [cA, cBrev]

/-- The stored upper-triangular diagonal block of stripe 0. -/
def b00 : Mat := [[1, 2, 3], [0, 4, 5], [0, 0, 6]]

/-- The stored off-diagonal block of stripes 0 and 1. -/
def b01 : Mat := [[7, 8, 9, 10], [11, 12, 13, 14], [15, 16, 17, 18]]

/-- The stored upper-triangular diagonal block of stripe 1. -/
def b11 : Mat := [[21, 22, 23, 24], [0, 25, 26, 27], [0, 0, 28, 29], [0, 0, 0, 30]]

/-- The on-disk block table of the fixture store. -/
def blk : ℕ → ℕ → Option Mat := fun r c =>
  if r = 0 ∧ c = 0 then some b00
  else if r = 0 ∧ c = 1 then some b01
  else if r = 1 ∧ c = 1 then some b11
  else none

/-- The opened fixture file over asm1. -/
def hs1 : HState := ⟨asm1, blk⟩

/-- The opened fixture file over asm2. -/
def hs2 : HState := ⟨asm2, blk⟩

/-! ## Claim C1 -/

/-- C1: (counterexample to part (a)) the claimed total-length formula
min(end, total) - max(0, start) is wrong for queries entirely left of
the assembly: get_atus_for_range on the 7-bin fixture with
(start, end) = (-5, -3) returns the empty list of total length 0, while
the claimed formula evaluates to -3. -/
theorem C1_counterexample :
    getAtusForRange asm1 false (-5) (-3) = some [] ∧
    sumLen [] = 0 ∧
    min (-3 : ℤ) (sizeU false asm1) - max 0 (-5 : ℤ) = -3 := by
  refine ⟨by decide, rfl, by decide⟩

/-- C1: (amended) on a well-formed assembly every resolver call
succeeds; the total length of the returned ATUs is
max(0, min(end, total) - max(0, start)) - the claimed formula clamped
below at zero, to which it is equal whenever the clamped query window is
non-degenerate; (b) every returned ATU has start_incl < end_excl; and
(c) when start >= end the returned list is empty
(chunked_file.py lines 629-895). -/
theorem C1_amended (asm : List CNode) (excl : Bool) (s e : ℤ)
    (hwf : AsmWF asm) :
    ∃ out, getAtusForRange asm excl s e = some out ∧
      sumLen out = max 0 (min e (sizeU excl asm) - max 0 s) ∧
      (∀ a ∈ out, a.startI < a.endE) ∧
      (e ≤ s → out = []) := by
  obtain ⟨out, h1, h2, h3, h4, h5⟩ := getAtusForRange_spec asm excl s e hwf
  exact ⟨out, h1, h2, fun a ha => (h3 a ha).2.1, h4⟩

/-- C1: closed instance of the amended theorem on the fixture assembly
with the query [1, 6). -/
theorem C1_amended_witness :
    AsmWF asm1 ∧
    ∃ out, getAtusForRange asm1 false 1 6 = some out ∧
      sumLen out = max 0 (min 6 (sizeU false asm1) - max 0 1) ∧
      (∀ a ∈ out, a.startI < a.endE) ∧
      ((6 : ℤ) ≤ 1 → out = []) :=
  ⟨by decide, C1_amended asm1 false 1 6 (by decide)⟩


/-! ## Claims C6, C7: the split length/presence clobber -/

/-- C6: (code bug, chunked_file.py lines 1399-1403) at a non-minimal
resolution where the old contig presence is ForcedShown, the
per-resolution length entries produced by split_contig_at_bin for the
two new contigs are ContigHideType enum members, not integers, so they
cannot sum to the old integer length at that resolution. -/
theorem C6_bug :
    splitContigAtResolution [⟨st1, 0, 4, .forward⟩] .forward 1 1 4
      .forcedShown false 1000 2000 2000 =
      .ok ((LenVal.hide .forcedShown, LenVal.hide .forcedShown), (none, none),
        ([⟨st1, 0, 1, .forward⟩], [⟨st1, 1, 4, .forward⟩])) ∧
    ∀ n : ℤ, (LenVal.hide .forcedShown : LenVal) ≠ LenVal.num n := by
  exact ⟨rfl, fun n h => LenVal.noConfusion h⟩

/-- C7: (code bug, chunked_file.py lines 1399-1406) at a resolution
where the old contig presence is ForcedHidden, split_contig_at_bin
stores the presence value into the length dictionaries and leaves the
presence dictionaries without the key for this resolution, so the new
contigs do not inherit the forced presence. -/
theorem C7_bug :
    splitContigAtResolution [⟨st1, 0, 4, .forward⟩] .forward 1 1 4
      .forcedHidden false 1000 2000 2000 =
      .ok ((LenVal.hide .forcedHidden, LenVal.hide .forcedHidden), (none, none),
        ([⟨st1, 0, 1, .forward⟩], [⟨st1, 1, 4, .forward⟩])) ∧
    (none : Option HideType) ≠ some HideType.forcedHidden := by
  exact ⟨rfl, by simp⟩

/-! ## Claim C9: the AGP importer -/

/-- A well-formed AGP W line. -/
def wline1 : String := "scaf1\t1\t500\t1\tW\tctg1\t1\t500\t+"

/-- A second W line of the same scaffold, reversed direction. -/
def wline2 : String := "scaf1\t501\t1000\t2\tW\tctg2\t1\t500\t-"

/-- A W line opening a second scaffold. -/
def wline3 : String := "scaf2\t1\t400\t1\tW\tctg3\t1\t400\t+"

/-- A well-formed AGP N spacer line. -/
def nline : String := "scaf1\t501\t600\t2\tN\t100\tscaffold\tyes\tproximity_ligation"

/-- C9: (code bug, AGPProcessor.py lines 99-111) the scaffold-run
bookkeeping keys on the raw line index i == 0 instead of on the first W
record, so an AGP file whose first line is a valid N spacer line makes
parseAGP read the never-bound run variable cur_scaf_name and fail on
the very first W line, although each line parses fine on its own. -/
theorem C9_bug :
    parseAGP [nline, wline1] = .error "UnboundLocalError: cur_scaf_name" ∧
    parseAGPLine nline = .ok ("N_spacer", "100", "", 0, 0) ∧
    parseAGPLine wline1 = .ok ("scaf1", "ctg1", "+", 1, 500) := by
  refine ⟨rfl, rfl, rfl⟩

/-! ## Claim C10: balance does not mutate its argument -/

theorem heapRead_alloc (h : Heap) (m : Mat) : heapRead (h ++ [m]) h.length = m := by
  unfold heapRead
  induction h with
  | nil => rfl
  | cons x xs ih => simpa [List.getD_cons_succ] using ih

theorem take_len_append (h l : Heap) : (h ++ l).take h.length = h := by
  rw [List.take_append_of_le_length (le_refl _), List.take_length]

/-- Reading back the buffer just allocated by each heap operation
yields the corresponding pure value. -/
theorem heapRead_npCopyOp (h : Heap) (r : ℕ) :
    heapRead (npCopyOp h r).1 (npCopyOp h r).2 = heapRead h r := heapRead_alloc h _

theorem heapRead_npMulOp (h : Heap) (r : ℕ) (v : List ℚ) :
    heapRead (npMulOp h r v).1 (npMulOp h r v).2 =
      bcastMul (heapRead h r) v := heapRead_alloc h _

theorem heapRead_npTOp (h : Heap) (r : ℕ) :
    heapRead (npTOp h r).1 (npTOp h r).2 = npT (heapRead h r) := heapRead_alloc h _

/-- C10: apply_cooler_balance_to_dense_matrix run over the buffer heap
never writes to any pre-existing buffer (in particular the argument
matrix is unchanged for both values of inplace, because every numpy
operation in its body allocates and the local name is merely rebound),
its returned value agrees with the pure embedding, and the returned
matrix is identical for inplace=True and inplace=False
(ContactMatrixFacet.py lines 312-322). -/
theorem C10_frame (h0 : Heap) (r0 : ℕ) (rowW colW : List ℚ) :
    (∀ ip : Bool,
      (applyCoolerBalanceHeap h0 r0 rowW colW ip).1.take h0.length = h0 ∧
      heapRead (applyCoolerBalanceHeap h0 r0 rowW colW ip).1
          (applyCoolerBalanceHeap h0 r0 rowW colW ip).2 =
        applyCoolerBalance (heapRead h0 r0) rowW colW ip) ∧
    heapRead (applyCoolerBalanceHeap h0 r0 rowW colW true).1
        (applyCoolerBalanceHeap h0 r0 rowW colW true).2 =
      heapRead (applyCoolerBalanceHeap h0 r0 rowW colW false).1
        (applyCoolerBalanceHeap h0 r0 rowW colW false).2 := by
  have hmain : ∀ ip : Bool,
      (applyCoolerBalanceHeap h0 r0 rowW colW ip).1.take h0.length = h0 ∧
      heapRead (applyCoolerBalanceHeap h0 r0 rowW colW ip).1
          (applyCoolerBalanceHeap h0 r0 rowW colW ip).2 =
        applyCoolerBalance (heapRead h0 r0) rowW colW ip := by
    intro ip
    cases ip
    · obtain ⟨q1, hq1⟩ : ∃ p, p = npCopyOp h0 r0 := ⟨_, rfl⟩
      obtain ⟨q2, hq2⟩ : ∃ p, p = npMulOp q1.1 q1.2 colW := ⟨_, rfl⟩
      obtain ⟨q3, hq3⟩ : ∃ p, p = npTOp q2.1 q2.2 := ⟨_, rfl⟩
      obtain ⟨q4, hq4⟩ : ∃ p, p = npMulOp q3.1 q3.2 rowW := ⟨_, rfl⟩
      obtain ⟨q5, hq5⟩ : ∃ p, p = npTOp q4.1 q4.2 := ⟨_, rfl⟩
      have hv : applyCoolerBalanceHeap h0 r0 rowW colW false = q5 := by
        rw [hq5, hq4, hq3, hq2, hq1]
        rfl
      have v5 : heapRead q5.1 q5.2 = npT (heapRead q4.1 q4.2) := by
        rw [hq5]
        exact heapRead_npTOp _ _
      have v4 : heapRead q4.1 q4.2 = bcastMul (heapRead q3.1 q3.2) rowW := by
        rw [hq4]
        exact heapRead_npMulOp _ _ _
      have v3 : heapRead q3.1 q3.2 = npT (heapRead q2.1 q2.2) := by
        rw [hq3]
        exact heapRead_npTOp _ _
      have v2 : heapRead q2.1 q2.2 = bcastMul (heapRead q1.1 q1.2) colW := by
        rw [hq2]
        exact heapRead_npMulOp _ _ _
      have v1 : heapRead q1.1 q1.2 = heapRead h0 r0 := by
        rw [hq1]
        exact heapRead_npCopyOp _ _
      have s5 : q5.1 = q4.1 ++ [npT (heapRead q4.1 q4.2)] := by
        rw [hq5]
        rfl
      have s4 : q4.1 = q3.1 ++ [bcastMul (heapRead q3.1 q3.2) rowW] := by
        rw [hq4]
        rfl
      have s3 : q3.1 = q2.1 ++ [npT (heapRead q2.1 q2.2)] := by
        rw [hq3]
        rfl
      have s2 : q2.1 = q1.1 ++ [bcastMul (heapRead q1.1 q1.2) colW] := by
        rw [hq2]
        rfl
      have s1 : q1.1 = h0 ++ [heapRead h0 r0] := by
        rw [hq1]
        rfl
      constructor
      · rw [hv, s5, s4, s3, s2, s1]
        simp only [List.append_assoc]
        exact take_len_append h0 _
      · rw [hv, v5, v4, v3, v2, v1]
        rfl
    · obtain ⟨q2, hq2⟩ : ∃ p, p = npMulOp h0 r0 colW := ⟨_, rfl⟩
      obtain ⟨q3, hq3⟩ : ∃ p, p = npTOp q2.1 q2.2 := ⟨_, rfl⟩
      obtain ⟨q4, hq4⟩ : ∃ p, p = npMulOp q3.1 q3.2 rowW := ⟨_, rfl⟩
      obtain ⟨q5, hq5⟩ : ∃ p, p = npTOp q4.1 q4.2 := ⟨_, rfl⟩
      have hv : applyCoolerBalanceHeap h0 r0 rowW colW true = q5 := by
        rw [hq5, hq4, hq3, hq2]
        rfl
      have v5 : heapRead q5.1 q5.2 = npT (heapRead q4.1 q4.2) := by
        rw [hq5]
        exact heapRead_npTOp _ _
      have v4 : heapRead q4.1 q4.2 = bcastMul (heapRead q3.1 q3.2) rowW := by
        rw [hq4]
        exact heapRead_npMulOp _ _ _
      have v3 : heapRead q3.1 q3.2 = npT (heapRead q2.1 q2.2) := by
        rw [hq3]
        exact heapRead_npTOp _ _
      have v2 : heapRead q2.1 q2.2 = bcastMul (heapRead h0 r0) colW := by
        rw [hq2]
        exact heapRead_npMulOp _ _ _
      have s5 : q5.1 = q4.1 ++ [npT (heapRead q4.1 q4.2)] := by
        rw [hq5]
        rfl
      have s4 : q4.1 = q3.1 ++ [bcastMul (heapRead q3.1 q3.2) rowW] := by
        rw [hq4]
        rfl
      have s3 : q3.1 = q2.1 ++ [npT (heapRead q2.1 q2.2)] := by
        rw [hq3]
        rfl
      have s2 : q2.1 = h0 ++ [bcastMul (heapRead h0 r0) colW] := by
        rw [hq2]
        rfl
      constructor
      · rw [hv, s5, s4, s3, s2]
        simp only [List.append_assoc]
        exact take_len_append h0 _
      · rw [hv, v5, v4, v3, v2]
        rfl
  refine ⟨hmain, ?_⟩
  rw [(hmain true).2, (hmain false).2]
  rfl


/-! ## Lemmas: dense-matrix shapes and entries -/

theorem rect_iff (m : Mat) (r c : ℕ) :
    Rect m r c ↔ m.length = r ∧ ∀ i (h : i < m.length), m[i].length = c := by
  unfold Rect
  constructor
  · rintro ⟨h1, h2⟩
    exact ⟨h1, fun i h => h2 _ (List.getElem_mem h)⟩
  · rintro ⟨h1, h2⟩
    refine ⟨h1, fun row hrow => ?_⟩
    obtain ⟨i, hi, rfl⟩ := List.mem_iff_getElem.mp hrow
    exact h2 i hi

theorem ent_eq_getElem (m : Mat) (i j : ℕ) :
    ent m i j = ((m[i]?).getD []).getD j 0 := by
  unfold ent
  rw [List.getD_eq_getElem?_getD m i []]

theorem ent_of_lt (m : Mat) (i j : ℕ) (hi : i < m.length) :
    ent m i j = (m[i]).getD j 0 := by
  rw [ent_eq_getElem, List.getElem?_eq_getElem hi]
  rfl

theorem getD_replicate (n : ℕ) (x : α) (i : ℕ) :
    (List.replicate n x).getD i x = x := by
  induction n generalizing i with
  | zero => simp [List.getD]
  | succ n ih =>
    cases i with
    | zero => rfl
    | succ i => simpa [List.replicate_succ, List.getD_cons_succ] using ih i

theorem length_zerosM (r c : ℕ) : (zerosM r c).length = r := by simp [zerosM]

theorem Rect_zerosM (r c : ℕ) : Rect (zerosM r c) r c := by
  constructor
  · simp [zerosM]
  · intro row h
    rw [zerosM, List.mem_replicate] at h
    simp [h.2]

theorem ent_zerosM (r c i j : ℕ) : ent (zerosM r c) i j = 0 := by
  rw [ent_eq_getElem]
  unfold zerosM
  rcases lt_or_ge i r with h | h
  · rw [List.getElem?_eq_getElem (by simpa using h)]
    simp only [List.getElem_replicate, Option.getD_some]
    exact getD_replicate c 0 j
  · rw [List.getElem?_eq_none (by simpa using h)]
    rfl

theorem ncolsM_eq (m : Mat) (r c : ℕ) (hr : Rect m r c) (h : 0 < r) :
    ncolsM m = c := by
  obtain ⟨h1, h2⟩ := hr
  unfold ncolsM
  cases m with
  | nil =>
    rw [List.length_nil] at h1
    omega
  | cons row rest => simpa using h2 row (by simp)

theorem length_npT (m : Mat) : (npT m).length = ncolsM m := by simp [npT]

theorem Rect_npT (m : Mat) : Rect (npT m) (ncolsM m) m.length := by
  constructor
  · simp [npT]
  · intro row h
    unfold npT at h
    obtain ⟨j, hj, rfl⟩ := List.mem_map.mp h
    simp

theorem ent_npT (m : Mat) (r c : ℕ) (hr : Rect m r c) (hrpos : 0 < r)
    (i j : ℕ) (hi : i < c) (hj : j < r) :
    ent (npT m) i j = ent m j i := by
  have hmlen : m.length = r := hr.1
  have hcols : ncolsM m = c := ncolsM_eq m r c hr hrpos
  have hnpt : (npT m)[i]? = some (m.map (fun row => row.getD i 0)) := by
    unfold npT
    rw [List.getElem?_map, List.getElem?_eq_getElem (by simpa [hcols] using hi)]
    simp [List.getElem_range]
  rw [ent_eq_getElem, hnpt]
  simp only [Option.getD_some]
  rw [List.getD_eq_getElem?_getD, List.getElem?_map,
    List.getElem?_eq_getElem (by omega : j < m.length)]
  rw [ent_of_lt _ _ _ (by omega : j < m.length)]
  rfl

theorem pyBound_le (n : ℕ) (i : ℤ) : pyBound n i ≤ n := by
  unfold pyBound
  split <;> omega

theorem pyBound_of_nonneg_le (n : ℕ) (i : ℤ) (h0 : 0 ≤ i) (hle : i ≤ n) :
    pyBound n i = i.toNat := by
  unfold pyBound
  split <;> omega

theorem pySlice_length (l : List α) (a b : ℤ) :
    (pySlice l a b).length = pyBound l.length b - pyBound l.length a := by
  unfold pySlice
  rw [List.length_drop, List.length_take]
  have := pyBound_le l.length b
  omega

theorem pySlice_getElemQ (l : List α) (a b : ℤ) (k : ℕ)
    (hk : k < pyBound l.length b - pyBound l.length a) :
    (pySlice l a b)[k]? = l[pyBound l.length a + k]? := by
  unfold pySlice
  rw [List.getElem?_drop]
  rw [List.getElem?_take, if_pos (by omega)]

theorem Rect_flipRows (m : Mat) (r c : ℕ) (hr : Rect m r c) :
    Rect (flipRows m) r c := by
  obtain ⟨h1, h2⟩ := hr
  constructor
  · simpa [flipRows] using h1
  · intro row h
    exact h2 row (by simpa [flipRows, List.mem_reverse] using h)

theorem Rect_flipCols (m : Mat) (r c : ℕ) (hr : Rect m r c) :
    Rect (flipCols m) r c := by
  obtain ⟨h1, h2⟩ := hr
  constructor
  · simpa [flipCols] using h1
  · intro row h
    unfold flipCols at h
    obtain ⟨row0, hrow0, rfl⟩ := List.mem_map.mp h
    simpa using h2 row0 hrow0

theorem Rect_processFlips (m : Mat) (r c : ℕ) (ra ca : ATU) (hr : Rect m r c) :
    Rect (processFlips m ra ca) r c := by
  unfold processFlips
  split
  · split
    · exact Rect_flipCols _ _ _ (Rect_flipRows _ _ _ hr)
    · exact Rect_flipRows _ _ _ hr
  · split
    · exact Rect_flipCols _ _ _ hr
    · exact hr

theorem Rect_whereFix (m : Mat) (r c : ℕ) (hr : Rect m r c) :
    Rect (whereFix m) r c := by
  rw [rect_iff] at hr ⊢
  obtain ⟨h1, h2⟩ := hr
  unfold whereFix
  refine ⟨by simpa using h1, ?_⟩
  intro i h
  rw [List.length_mapIdx] at h
  rw [List.getElem_mapIdx, List.length_mapIdx]
  exact h2 i h

theorem ent_whereFix (m : Mat) (r c : ℕ) (hr : Rect m r c) (i j : ℕ)
    (hi : i < r) (hj : j < c) :
    ent (whereFix m) i j = if ent m i j ≠ 0 then ent m i j else ent m j i := by
  have h1 : m.length = r := hr.1
  have h2 := (rect_iff m r c).mp hr |>.2
  have hwlen : (whereFix m).length = m.length := by
    unfold whereFix
    rw [List.length_mapIdx]
  have him : i < m.length := by omega
  have hjm : j < m[i].length := by rw [h2 i (by omega)]; omega
  rw [ent_of_lt _ _ _ (by omega)]
  unfold whereFix
  rw [List.getElem_mapIdx]
  rw [List.getD_eq_getElem?_getD, List.getElem?_mapIdx,
    List.getElem?_eq_getElem hjm]
  have hent : ent m i j = m[i][j] := by
    rw [ent_of_lt _ _ _ (by omega), List.getD_eq_getElem?_getD,
      List.getElem?_eq_getElem]
    rfl
  rw [hent]
  rfl

/-! ## Lemmas: stacking -/

theorem hstack_fold_rect (ms : List Mat) : ∀ (acc : Mat) (h w : ℕ),
    Rect acc h w → (∀ m ∈ ms, Rect m h (ncolsM m)) →
    Rect (ms.foldl (fun a x => a.zipWith (fun r1 r2 => r1 ++ r2) x) acc)
      h (w + (ms.map ncolsM).sum) := by
  induction ms with
  | nil =>
    intro acc h w ha _
    simpa using ha
  | cons m ms ih =>
    intro acc h w ha hm
    have hstep : Rect (acc.zipWith (fun r1 r2 => r1 ++ r2) m) h (w + ncolsM m) := by
      rw [rect_iff] at ha ⊢
      have hmr := (rect_iff _ _ _).mp (hm m (by simp))
      obtain ⟨ha1, ha2⟩ := ha
      obtain ⟨hm1, hm2⟩ := hmr
      constructor
      · rw [List.length_zipWith, ha1, hm1]
        omega
      · intro i hih
        rw [List.length_zipWith, ha1, hm1] at hih
        rw [List.getElem_zipWith, List.length_append,
          ha2 i (by omega), hm2 i (by omega)]
    have hrec := ih (acc.zipWith (fun r1 r2 => r1 ++ r2) m) h (w + ncolsM m)
      hstep (fun x hx => hm x (by simp [hx]))
    rw [List.foldl_cons, List.map_cons, List.sum_cons,
      show w + (ncolsM m + (ms.map ncolsM).sum) = (w + ncolsM m) +
        (ms.map ncolsM).sum from by omega]
    exact hrec

theorem hstackM_rect (h : ℕ) (ms : List Mat) (hne : ms ≠ [])
    (hm : ∀ m ∈ ms, Rect m h (ncolsM m)) :
    Rect (hstackM ms) h ((ms.map ncolsM).sum) := by
  cases ms with
  | nil => exact absurd rfl hne
  | cons m rest =>
    unfold hstackM
    have hrec := hstack_fold_rect rest m h (ncolsM m) (hm m (by simp))
      (fun x hx => hm x (by simp [hx]))
    rw [List.map_cons, List.sum_cons]
    exact hrec

theorem flatten_rect (ms : List Mat) (w : ℕ)
    (hw : ∀ m ∈ ms, ∀ row ∈ m, row.length = w) :
    Rect ms.flatten ((ms.map List.length).sum) w := by
  constructor
  · exact List.length_flatten ms
  · intro row hrow
    obtain ⟨m, hm, hr⟩ := List.mem_flatten.mp hrow
    exact hw m hm row hr

theorem ncolsM_flatten_cons (m : Mat) (ms : List Mat) (hm : m ≠ []) :
    ncolsM ((m :: ms).flatten) = ncolsM m := by
  cases m with
  | nil => exact absurd rfl hm
  | cons row rest => simp [ncolsM]

theorem sum_toNat_lenZ (l : List ATU) (h : ∀ a ∈ l, a.WF) :
    ((l.map (fun a => a.lenZ.toNat)).sum : ℤ) = sumLen l := by
  induction l with
  | nil => simp [sumLen_nil]
  | cons a t ih =>
    rw [List.map_cons, List.sum_cons, sumLen_cons]
    have ha := ATU.lenZ_pos a (h a (by simp))
    have ht := ih (fun x hx => h x (by simp [hx]))
    push_cast
    omega

theorem sum_toNat_lenZ_nat (l : List ATU) (h : ∀ a ∈ l, a.WF) :
    ((l.map (fun a => a.lenZ.toNat)).sum : ℕ) = (sumLen l).toNat := by
  induction l with
  | nil => simp [sumLen_nil]
  | cons a t ih =>
    rw [List.map_cons, List.sum_cons, sumLen_cons]
    have ha := ATU.lenZ_pos a (h a (by simp))
    have ht := sumLen_nonneg t (fun x hx => h x (by simp [hx]))
    have h2 := ih (fun x hx => h x (by simp [hx]))
    omega


/-! ## Lemmas: the per-pair intersection -/

theorem stripe_len_pos (a : ATU) (h : a.WF) : 0 < a.stripe.stripe_length_bins := by
  obtain ⟨h1, h2, h3⟩ := h
  omega

theorem blockRectB_spec (st : HState) (s1 s2 : Stripe) (m : Mat)
    (hb : blockRectB st s1 s2 = true)
    (hm : st.block s1.stripe_id s2.stripe_id = some m) :
    Rect m s1.stripe_length_bins.toNat s2.stripe_length_bins.toNat := by
  unfold blockRectB at hb
  rw [hm] at hb
  simpa using hb

theorem pySlice_atu_length (l : List α) (a : ATU) (hwf : a.WF)
    (hlen : (l.length : ℤ) = a.stripe.stripe_length_bins) :
    (pySlice l a.startI a.endE).length = a.lenZ.toNat := by
  obtain ⟨h1, h2, h3⟩ := hwf
  rw [pySlice_length,
    pyBound_of_nonneg_le _ _ (by omega) (by omega),
    pyBound_of_nonneg_le _ _ (by omega) (by omega)]
  unfold ATU.lenZ
  omega

theorem Rect_pySlice2_atu (m : Mat) (ra ca : ATU) (hra : ra.WF) (hca : ca.WF)
    (hr : Rect m ra.stripe.stripe_length_bins.toNat
      ca.stripe.stripe_length_bins.toNat) :
    Rect (pySlice2 m ra.startI ra.endE ca.startI ca.endE)
      ra.lenZ.toNat ca.lenZ.toNat := by
  have hrpos := stripe_len_pos ra hra
  have hcpos := stripe_len_pos ca hca
  obtain ⟨hm1, hm2⟩ := hr
  unfold pySlice2
  constructor
  · rw [List.length_map]
    exact pySlice_atu_length m ra hra (by rw [hm1]; omega)
  · intro row hrow
    obtain ⟨row0, hrow0, rfl⟩ := List.mem_map.mp hrow
    have hmem : row0 ∈ m := by
      unfold pySlice at hrow0
      exact List.mem_of_mem_take (List.mem_of_mem_drop hrow0)
    exact pySlice_atu_length row0 ca hca (by rw [hm2 row0 hmem]; omega)

theorem getStripeIntersection_spec (st : HState) (ra ca : ATU)
    (hids : ∀ s1 ∈ stripesOf st.asm, ∀ s2 ∈ stripesOf st.asm,
      s1.stripe_id = s2.stripe_id → s1 = s2)
    (hblks : ∀ s1 ∈ stripesOf st.asm, ∀ s2 ∈ stripesOf st.asm,
      blockRectB st s1 s2 = true)
    (hra : ra.stripe ∈ stripesOf st.asm) (hca : ca.stripe ∈ stripesOf st.asm)
    (hraWF : ra.WF) (hcaWF : ca.WF) :
    ∃ m, getStripeIntersection st ra ca = some m ∧
      Rect m ra.lenZ.toNat ca.lenZ.toNat := by
  have hrpos : 0 < ra.stripe.stripe_length_bins := stripe_len_pos ra hraWF
  have hcpos : 0 < ca.stripe.stripe_length_bins := stripe_len_pos ca hcaWF
  unfold getStripeIntersection
  simp only
  by_cases hid : ra.stripe.stripe_id = ca.stripe.stripe_id
  · have hsame : ra.stripe = ca.stripe := hids _ hra _ hca hid
    have hnlt : ¬ (ca.stripe.stripe_id < ra.stripe.stripe_id) := by omega
    rw [if_neg hnlt, if_neg hnlt]
    cases hb : st.block ra.stripe.stripe_id ca.stripe.stripe_id with
    | none => exact ⟨_, rfl, Rect_zerosM _ _⟩
    | some m0 =>
      simp only
      rw [if_pos hid, if_pos hsame]
      simp only
      rw [if_neg hnlt]
      have hm0 := blockRectB_spec st ra.stripe ca.stripe m0
        (hblks _ hra _ hca) hb
      exact ⟨_, rfl, Rect_processFlips _ _ _ _ _
        (Rect_pySlice2_atu _ ra ca hraWF hcaWF (Rect_whereFix _ _ _ hm0))⟩
  · by_cases hlt : ca.stripe.stripe_id < ra.stripe.stripe_id
    · rw [if_pos hlt, if_pos hlt]
      cases hb : st.block ca.stripe.stripe_id ra.stripe.stripe_id with
      | none => exact ⟨_, rfl, Rect_zerosM _ _⟩
      | some m0 =>
        simp only
        rw [if_neg hid]
        simp only
        rw [if_pos hlt]
        have hm0 := blockRectB_spec st ca.stripe ra.stripe m0
          (hblks _ hca _ hra) hb
        have hT : Rect (npT m0) ra.stripe.stripe_length_bins.toNat
            ca.stripe.stripe_length_bins.toNat := by
          have h2 := Rect_npT m0
          rw [ncolsM_eq m0 _ _ hm0 (by omega), hm0.1] at h2
          exact h2
        exact ⟨_, rfl, Rect_processFlips _ _ _ _ _
          (Rect_pySlice2_atu _ ra ca hraWF hcaWF hT)⟩
    · rw [if_neg hlt, if_neg hlt]
      cases hb : st.block ra.stripe.stripe_id ca.stripe.stripe_id with
      | none => exact ⟨_, rfl, Rect_zerosM _ _⟩
      | some m0 =>
        simp only
        rw [if_neg hid]
        simp only
        rw [if_neg hlt]
        have hm0 := blockRectB_spec st ra.stripe ca.stripe m0
          (hblks _ hra _ hca) hb
        exact ⟨_, rfl, Rect_processFlips _ _ _ _ _
          (Rect_pySlice2_atu _ ra ca hraWF hcaWF hm0)⟩

theorem atuWeight_length (a : ATU)
    (hw : a.stripe.bin_weights.length = a.stripe.stripe_length_bins.toNat)
    (hwf : a.WF) : (atuWeight a).length = a.lenZ.toNat := by
  unfold atuWeight
  have hpos := stripe_len_pos a hwf
  have h2 := pySlice_atu_length a.stripe.bin_weights a hwf
    (by rw [hw]; omega)
  split
  · rw [List.length_reverse]
    exact h2
  · exact h2

theorem getAtuIntersection_spec (st : HState) (ra ca : ATU)
    (hwf : StateWF st)
    (hra : ra.stripe ∈ stripesOf st.asm) (hca : ca.stripe ∈ stripesOf st.asm)
    (hraWF : ra.WF) (hcaWF : ca.WF) :
    getAtuIntersection st ra ca =
      some (interM st ra ca, atuWeight ra, atuWeight ca) ∧
    Rect (interM st ra ca) ra.lenZ.toNat ca.lenZ.toNat ∧
    (atuWeight ra).length = ra.lenZ.toNat ∧
    (atuWeight ca).length = ca.lenZ.toNat := by
  obtain ⟨hasm, hids, hwts, hblks⟩ := hwf
  obtain ⟨m, hm, hrect⟩ :=
    getStripeIntersection_spec st ra ca hids hblks hra hca hraWF hcaWF
  have hinterM : interM st ra ca = m := by
    unfold interM
    rw [hm]
    rfl
  refine ⟨?_, by rw [hinterM]; exact hrect,
    atuWeight_length ra (hwts _ hra) hraWF,
    atuWeight_length ca (hwts _ hca) hcaWF⟩
  unfold getAtuIntersection
  rw [hm]
  simp only
  rw [hinterM]
  rfl


/-! ## Lemmas: the submatrix assembler -/

theorem optBind_some {α β : Type} (a : α) (f : α → Option β) :
    (some a >>= f) = f a := rfl

theorem mapM_option_eq_map {α β : Type} (f : α → Option β) (g : α → β)
    (l : List α) (h : ∀ a ∈ l, f a = some (g a)) :
    l.mapM f = some (l.map g) := by
  induction l with
  | nil => rfl
  | cons a t ih =>
    rw [List.mapM_cons, h a (by simp), ih (fun x hx => h x (by simp [hx]))]
    rfl

theorem rowStrip_spec (st : HState) (cas : List ATU) (qc : ℤ) (ra : ATU)
    (hwf : StateWF st)
    (hra : ra.stripe ∈ stripesOf st.asm) (hraWF : ra.WF)
    (hcas : ∀ ca ∈ cas, ca.stripe ∈ stripesOf st.asm ∧ ca.WF)
    (hne : cas ≠ []) :
    rowStrip st cas qc ra = some (stripOf st cas ra, some (atuWeight ra),
      cas.map (fun ca => (interM st ra ca, atuWeight ra, atuWeight ca))) ∧
    Rect (stripOf st cas ra) ra.lenZ.toNat
      ((cas.map (fun ca => ca.lenZ.toNat)).sum) := by
  have hpair : ∀ ca ∈ cas, getAtuIntersection st ra ca =
      some (interM st ra ca, atuWeight ra, atuWeight ca) := by
    intro ca hca
    exact (getAtuIntersection_spec st ra ca hwf hra (hcas ca hca).1 hraWF
      (hcas ca hca).2).1
  have hrects : ∀ ca ∈ cas,
      Rect (interM st ra ca) ra.lenZ.toNat ca.lenZ.toNat := by
    intro ca hca
    exact (getAtuIntersection_spec st ra ca hwf hra (hcas ca hca).1 hraWF
      (hcas ca hca).2).2.1
  have hrapos : 0 < ra.lenZ := ATU.lenZ_pos ra hraWF
  have hrect : Rect (stripOf st cas ra) ra.lenZ.toNat
      ((cas.map (fun ca => ca.lenZ.toNat)).sum) := by
    unfold stripOf
    have hrmemb : ∀ m ∈ cas.map (fun ca => interM st ra ca),
        Rect m ra.lenZ.toNat (ncolsM m) := by
      intro m hm
      obtain ⟨ca, hca, rfl⟩ := List.mem_map.mp hm
      have hr := hrects ca hca
      have hcols : ncolsM (interM st ra ca) = ca.lenZ.toNat :=
        ncolsM_eq _ _ _ hr (by omega)
      rw [hcols]
      exact hr
    have h2 := hstackM_rect ra.lenZ.toNat (cas.map (fun ca => interM st ra ca))
      (by simpa using hne) hrmemb
    have h3 : ((cas.map (fun ca => interM st ra ca)).map ncolsM) =
        cas.map (fun ca => ca.lenZ.toNat) := by
      rw [List.map_map]
      apply List.map_congr_left
      intro ca hca
      exact ncolsM_eq _ _ _ (hrects ca hca) (by omega)
    rw [h3] at h2
    exact h2
  obtain ⟨c0, ctl, rfl⟩ : ∃ c0 ctl, cas = c0 :: ctl := by
    cases cas with
    | nil => exact absurd rfl hne
    | cons c0 ctl => exact ⟨c0, ctl, rfl⟩
  refine ⟨?_, hrect⟩
  unfold rowStrip
  rw [mapM_option_eq_map _ _ (c0 :: ctl) hpair, optBind_some]
  simp only
  rw [if_pos hne]
  have hRS : (((c0 :: ctl).map (fun ca =>
      (interM st ra ca, atuWeight ra, atuWeight ca))).map (fun t => t.1)) =
      (c0 :: ctl).map (fun ca => interM st ra ca) := by
    rw [List.map_map]
    rfl
  rw [hRS]
  have hP : ∀ sbm ∈ (c0 :: ctl).map (fun ca => interM st ra ca),
      sbm.length = (((c0 :: ctl).map (fun ca => interM st ra ca)).headD []).length := by
    intro sbm hsbm
    obtain ⟨ca, hca, rfl⟩ := List.mem_map.mp hsbm
    have h1 : (interM st ra ca).length = ra.lenZ.toNat := (hrects ca hca).1
    have h2 : (interM st ra c0).length = ra.lenZ.toNat :=
      (hrects c0 (by simp)).1
    rw [h1, show (((c0 :: ctl).map (fun ca => interM st ra ca)).headD []) =
      interM st ra c0 from rfl, h2]
  rw [if_neg (not_not_intro hP)]
  have hQ : ((((c0 :: ctl).map (fun ca => interM st ra ca)).headD []).length : ℤ) =
      ra.endE - ra.startI := by
    rw [show (((c0 :: ctl).map (fun ca => interM st ra ca)).headD []) =
      interM st ra c0 from rfl, (hrects c0 (by simp)).1]
    have h3 := hrapos
    unfold ATU.lenZ at h3 ⊢
    omega
  rw [if_neg (not_not_intro hQ)]
  rfl

theorem rowStrip_empty (st : HState) (qc : ℤ) (ra : ATU) (hqc : qc ≤ 0) :
    rowStrip st [] qc ra =
      some (zerosM (ra.endE - ra.startI).toNat 0, none, []) := by
  unfold rowStrip
  rw [show (List.mapM (fun ca => getAtuIntersection st ra ca) ([] : List ATU)) =
    some [] from rfl, optBind_some]
  simp only
  rw [if_neg (by simp)]
  rw [if_neg (not_not_intro hqc)]


theorem onesV_length (n : ℕ) : (onesV n).length = n := by simp [onesV]

theorem headD_mem {α : Type} (l : List α) (d : α) (h : l ≠ []) :
    l.headD d ∈ l := by
  cases l with
  | nil => exact absurd rfl h
  | cons a t => simp

theorem filterMap_some_fn {α β : Type} (f : α → β) (l : List α) :
    l.filterMap (fun a => some (f a)) = l.map f := by
  induction l with
  | nil => rfl
  | cons a t ih => simp [List.filterMap_cons, ih]

theorem filterMap_none_fn {α β : Type} (f : α → Option β) (l : List α)
    (h : ∀ a ∈ l, f a = none) : l.filterMap f = [] := by
  induction l with
  | nil => rfl
  | cons a t ih =>
    rw [List.filterMap_cons, h a (by simp), ih (fun x hx => h x (by simp [hx]))]

theorem ncolsM_flatten (ms : List Mat) (hne : ms ≠ [])
    (hfirst : ms.headD [] ≠ []) : ncolsM ms.flatten = ncolsM (ms.headD []) := by
  cases ms with
  | nil => exact absurd rfl hne
  | cons m rest => exact ncolsM_flatten_cons m rest (by simpa using hfirst)

theorem ne_nil_of_sumLen_pos (l : List ATU) (h : 0 < sumLen l) : l ≠ [] := by
  intro hnil
  rw [hnil, sumLen_nil] at h
  omega

theorem constrain_of_in_range (x u : ℤ) (h0 : 0 ≤ x) (hu : x ≤ u) :
    constrainCoordinate x 0 u = x := by
  unfold constrainCoordinate
  omega

theorem constrain_idem (x u : ℤ) :
    constrainCoordinate (constrainCoordinate x 0 u) 0 u =
      constrainCoordinate x 0 u := by
  unfold constrainCoordinate
  omega


/-- The success characterisation of get_submatrix on in-range query
coordinates (chunked_file.py lines 472-604): the call succeeds and
returns the assembled block matrix (or a zero matrix for a degenerate
window) with weight vectors of the query dimensions. -/
theorem getSubmatrix_spec (st : HState) (excl : Bool) (r0 c0 r1 c1 : ℤ)
    (hwf : StateWF st)
    (h0r : 0 ≤ r0) (hrord : r0 ≤ r1) (hr1 : r1 ≤ sizeU excl st.asm)
    (h0c : 0 ≤ c0) (hcord : c0 ≤ c1) (hc1 : c1 ≤ sizeU excl st.asm) :
    ∃ rowAtus colAtus rw cw,
      getAtusForRange st.asm excl r0 r1 = some rowAtus ∧
      getAtusForRange st.asm excl c0 c1 = some colAtus ∧
      getSubmatrix st excl r0 c0 r1 c1 = some
        ((if 0 < r1 - r0 ∧ 0 < c1 - c0 then assembleM st rowAtus colAtus
          else zerosM (r1 - r0).toNat (c1 - c0).toNat), rw, cw) ∧
      Rect (if 0 < r1 - r0 ∧ 0 < c1 - c0 then assembleM st rowAtus colAtus
          else zerosM (r1 - r0).toNat (c1 - c0).toNat)
        (r1 - r0).toNat (c1 - c0).toNat ∧
      rw.length = (r1 - r0).toNat ∧
      cw.length = (c1 - c0).toNat := by
  have htot0 : 0 ≤ sizeU excl st.asm := sizeU_nonneg excl st.asm hwf.1
  obtain ⟨rowAtus, hrowEq, hrowSum, hrowWF, hrowTriv, hrowStr⟩ :=
    getAtusForRange_spec st.asm excl r0 r1 hwf.1
  obtain ⟨colAtus, hcolEq, hcolSum, hcolWF, hcolTriv, hcolStr⟩ :=
    getAtusForRange_spec st.asm excl c0 c1 hwf.1
  have hrowSum2 : sumLen rowAtus = r1 - r0 := by
    rw [hrowSum]
    omega
  have hcolSum2 : sumLen colAtus = c1 - c0 := by
    rw [hcolSum]
    omega
  have hguard1 : ¬ (((r0 < r1 ∧ 0 ≤ r0 ∧ r0 < sizeU excl st.asm) ∧
      rowAtus = [])) := by
    rintro ⟨⟨h1, _, _⟩, h2⟩
    rw [h2, sumLen_nil] at hrowSum2
    omega
  have hguard2 : ¬ (((c0 < c1 ∧ 0 ≤ c0 ∧ c0 < sizeU excl st.asm) ∧
      colAtus = [])) := by
    rintro ⟨⟨h1, _, _⟩, h2⟩
    rw [h2, sumLen_nil] at hcolSum2
    omega
  by_cases hq : 0 < r1 - r0 ∧ 0 < c1 - c0
  · -- main case: both window dimensions positive
    have hrne : rowAtus ≠ [] := ne_nil_of_sumLen_pos rowAtus (by omega)
    have hcne : colAtus ≠ [] := ne_nil_of_sumLen_pos colAtus (by omega)
    have hcasprop : ∀ ca ∈ colAtus, ca.stripe ∈ stripesOf st.asm ∧ ca.WF :=
      fun ca hca => ⟨hcolStr ca hca, hcolWF ca hca⟩
    obtain ⟨G, hG⟩ : ∃ G : ATU →
        Mat × Option (List ℚ) × List (Mat × List ℚ × List ℚ),
        G = fun ra => (stripOf st colAtus ra, some (atuWeight ra),
          colAtus.map (fun ca =>
            (interM st ra ca, atuWeight ra, atuWeight ca))) := ⟨_, rfl⟩
    have hstrip : ∀ ra ∈ rowAtus, rowStrip st colAtus (c1 - c0) ra =
        some (G ra) := by
      intro ra hra
      rw [hG]
      exact (rowStrip_spec st colAtus (c1 - c0) ra hwf (hrowStr ra hra)
        (hrowWF ra hra) hcasprop hcne).1
    have hstriprect : ∀ ra ∈ rowAtus, Rect (stripOf st colAtus ra)
        ra.lenZ.toNat ((colAtus.map (fun ca => ca.lenZ.toNat)).sum) := by
      intro ra hra
      exact (rowStrip_spec st colAtus (c1 - c0) ra hwf (hrowStr ra hra)
        (hrowWF ra hra) hcasprop hcne).2
    have hcolsumN : ((colAtus.map (fun ca => ca.lenZ.toNat)).sum : ℤ) =
        c1 - c0 := by
      rw [sum_toNat_lenZ colAtus hcolWF]
      exact hcolSum2
    have hmapG : List.mapM (rowStrip st colAtus (c1 - c0)) rowAtus =
        some (rowAtus.map G) :=
      mapM_option_eq_map _ G rowAtus hstrip
    have hRW : List.filterMap (fun t => t.2.1) (List.map G rowAtus) =
        List.map atuWeight rowAtus := by
      rw [List.filterMap_map, hG]
      exact filterMap_some_fn atuWeight rowAtus
    have hRM : List.map (fun t => t.1) (List.map G rowAtus) =
        List.map (stripOf st colAtus) rowAtus := by
      rw [List.map_map, hG]
      rfl
    obtain ⟨lastRa, hlastRaEq⟩ : ∃ x, rowAtus.getLast? = some x :=
      ⟨rowAtus.getLast hrne, List.getLast?_eq_getLast rowAtus hrne⟩
    have hlastmem : lastRa ∈ rowAtus := by
      have := List.getLast?_eq_getLast rowAtus hrne
      rw [hlastRaEq] at this
      rw [Option.some_inj.mp this]
      exact List.getLast_mem hrne
    have hGL : (List.map G rowAtus).getLast? = some (G lastRa) := by
      rw [List.getLast?_map, hlastRaEq]
      rfl
    have hLS : (Option.map (fun t => t.2.2) (some (G lastRa))).getD [] =
        List.map (fun ca => (interM st lastRa ca, atuWeight lastRa,
          atuWeight ca)) colAtus := by
      rw [hG]
      rfl
    have hCS : List.map (fun t => t.2.2) (List.map (fun ca =>
        (interM st lastRa ca, atuWeight lastRa, atuWeight ca)) colAtus) =
        List.map atuWeight colAtus := by
      rw [List.map_map]
      rfl
    have hg3a : ¬ (0 < r1 - r0 ∧ 0 < c1 - c0 ∧
        List.map atuWeight rowAtus = []) := by
      rintro ⟨-, -, h3⟩
      rw [List.map_eq_nil] at h3
      exact hrne h3
    have hg3b : ¬ (0 < r1 - r0 ∧ 0 < c1 - c0 ∧
        List.map atuWeight colAtus = []) := by
      rintro ⟨-, -, h3⟩
      rw [List.map_eq_nil] at h3
      exact hcne h3
    have hQCN : ∀ ra ∈ rowAtus, ncolsM (stripOf st colAtus ra) =
        ((colAtus.map (fun ca => ca.lenZ.toNat)).sum) := by
      intro ra hra
      have hp := ATU.lenZ_pos ra (hrowWF ra hra)
      exact ncolsM_eq _ _ _ (hstriprect ra hra) (by omega)
    have hg3c : ¬ (0 < r1 - r0 ∧ 0 < c1 - c0 ∧
        ¬ ∀ m ∈ List.map (stripOf st colAtus) rowAtus, ncolsM m =
          ncolsM ((List.map (stripOf st colAtus) rowAtus).headD [])) := by
      rintro ⟨-, -, h3⟩
      refine h3 ?_
      intro m hm
      obtain ⟨ra, hra, rfl⟩ := List.mem_map.mp hm
      have hne2 : List.map (stripOf st colAtus) rowAtus ≠ [] := by
        simpa using hrne
      obtain ⟨ra0, hra0, heq⟩ := List.mem_map.mp (headD_mem _ [] hne2)
      rw [← heq, hQCN ra hra, hQCN ra0 hra0]
    have hrwne : List.map atuWeight rowAtus ≠ [] := by simpa using hrne
    have hcwne : List.map atuWeight colAtus ≠ [] := by simpa using hcne
    have hlenR : (((List.map (stripOf st colAtus) rowAtus).flatten).length : ℤ) =
        r1 - r0 := by
      rw [List.length_flatten, List.map_map]
      have h5 : List.map (List.length ∘ stripOf st colAtus) rowAtus =
          List.map (fun ra => ra.lenZ.toNat) rowAtus :=
        List.map_congr_left (fun ra hra => (hstriprect ra hra).1)
      rw [h5, sum_toNat_lenZ_nat rowAtus hrowWF]
      omega
    have hcolsR : ((ncolsM ((List.map (stripOf st colAtus) rowAtus).flatten)) : ℤ) =
        c1 - c0 := by
      have hne2 : List.map (stripOf st colAtus) rowAtus ≠ [] := by
        simpa using hrne
      obtain ⟨ra0, hra0, heq⟩ := List.mem_map.mp (headD_mem _ [] hne2)
      have hfirst : (List.map (stripOf st colAtus) rowAtus).headD [] ≠ [] := by
        rw [← heq]
        apply List.ne_nil_of_length_pos
        rw [(hstriprect ra0 hra0).1]
        have hp := ATU.lenZ_pos ra0 (hrowWF ra0 hra0)
        omega
      rw [ncolsM_flatten _ hne2 hfirst, ← heq, hQCN ra0 hra0,
        sum_toNat_lenZ_nat colAtus hcolWF]
      omega
    have hlenW : (((List.map atuWeight rowAtus).flatten).length : ℤ) =
        r1 - r0 := by
      rw [List.length_flatten, List.map_map]
      have h6 : List.map (List.length ∘ atuWeight) rowAtus =
          List.map (fun ra => ra.lenZ.toNat) rowAtus :=
        List.map_congr_left (fun ra hra => atuWeight_length ra
          (hwf.2.2.1 _ (hrowStr ra hra)) (hrowWF ra hra))
      rw [h6, sum_toNat_lenZ_nat rowAtus hrowWF]
      omega
    have hlenCW : (((List.map atuWeight colAtus).flatten).length : ℤ) =
        c1 - c0 := by
      rw [List.length_flatten, List.map_map]
      have h7 : List.map (List.length ∘ atuWeight) colAtus =
          List.map (fun ca => ca.lenZ.toNat) colAtus :=
        List.map_congr_left (fun ca hca => atuWeight_length ca
          (hwf.2.2.1 _ (hcolStr ca hca)) (hcolWF ca hca))
      rw [h7, sum_toNat_lenZ_nat colAtus hcolWF]
      omega
    have hrun : getSubmatrix st excl r0 c0 r1 c1 = some
        (assembleM st rowAtus colAtus, (rowAtus.map atuWeight).flatten,
          (colAtus.map atuWeight).flatten) := by
      simp only [getSubmatrix]
      rw [constrain_of_in_range r0 _ h0r (by omega),
        constrain_of_in_range r1 _ (by omega) hr1,
        constrain_of_in_range c0 _ h0c (by omega),
        constrain_of_in_range c1 _ (by omega) hc1]
      rw [hrowEq, optBind_some]
      beta_reduce
      rw [hcolEq, optBind_some]
      beta_reduce
      rw [if_neg hguard1, if_neg hguard2]
      rw [hmapG, optBind_some]
      beta_reduce
      rw [hRW, hRM, hGL, hLS, hCS]
      rw [if_neg hg3a, if_neg hg3b, if_neg hg3c]
      rw [if_pos hq, if_pos hq]
      rw [if_pos hrwne, if_pos hcwne]
      rw [if_neg (not_not_intro hlenR), if_neg (not_not_intro hcolsR),
        if_neg (not_not_intro hlenW), if_neg (not_not_intro hlenCW)]
      rfl
    refine ⟨rowAtus, colAtus, (List.map atuWeight rowAtus).flatten,
      (List.map atuWeight colAtus).flatten, hrowEq, hcolEq, ?_, ?_, ?_, ?_⟩
    · rw [if_pos hq]
      exact hrun
    · rw [if_pos hq]
      have hfr := flatten_rect (List.map (stripOf st colAtus) rowAtus)
        ((colAtus.map (fun ca => ca.lenZ.toNat)).sum)
        (fun m hm row hrow => by
          obtain ⟨ra, hra, rfl⟩ := List.mem_map.mp hm
          exact (hstriprect ra hra).2 row hrow)
      have hhs : ((List.map (stripOf st colAtus) rowAtus).map List.length).sum =
          (r1 - r0).toNat := by
        rw [List.map_map]
        have h5 : List.map (List.length ∘ stripOf st colAtus) rowAtus =
            List.map (fun ra => ra.lenZ.toNat) rowAtus :=
          List.map_congr_left (fun ra hra => (hstriprect ra hra).1)
        rw [h5, sum_toNat_lenZ_nat rowAtus hrowWF, hrowSum2]
      have hws : (colAtus.map (fun ca => ca.lenZ.toNat)).sum =
          (c1 - c0).toNat := by
        rw [sum_toNat_lenZ_nat colAtus hcolWF, hcolSum2]
      rw [hhs, hws] at hfr
      exact hfr
    · have h8 := hlenW
      omega
    · have h8 := hlenCW
      omega
  · -- a degenerate window: at least one dimension is empty
    have hmax_r : max (0 : ℤ) (r1 - r0) = r1 - r0 := by omega
    have hmax_c : max (0 : ℤ) (c1 - c0) = c1 - c0 := by omega
    by_cases hqr : 0 < r1 - r0
    · -- columns empty
      have hqc0 : c1 - c0 = 0 := by
        rcases not_and_or.mp hq with h | h <;> omega
      have hcnil : colAtus = [] := hcolTriv (by omega)
      subst hcnil
      have hrne : rowAtus ≠ [] := ne_nil_of_sumLen_pos rowAtus (by omega)
      obtain ⟨G0, hG0⟩ : ∃ G0 : ATU →
          Mat × Option (List ℚ) × List (Mat × List ℚ × List ℚ),
          G0 = fun ra => (zerosM (ra.endE - ra.startI).toNat 0,
            (none : Option (List ℚ)),
            ([] : List (Mat × List ℚ × List ℚ))) := ⟨_, rfl⟩
      have hstrip0 : ∀ ra ∈ rowAtus, rowStrip st [] (c1 - c0) ra =
          some (G0 ra) := by
        intro ra hra
        rw [hG0]
        exact rowStrip_empty st (c1 - c0) ra (by omega)
      have hmapG0 : List.mapM (rowStrip st [] (c1 - c0)) rowAtus =
          some (rowAtus.map G0) :=
        mapM_option_eq_map _ G0 rowAtus hstrip0
      have hRW0 : List.filterMap (fun t => t.2.1) (List.map G0 rowAtus) =
          [] := by
        rw [List.filterMap_map]
        apply filterMap_none_fn
        intro ra hra
        rw [hG0]
        rfl
      obtain ⟨lastRa, hlastRaEq⟩ : ∃ x, rowAtus.getLast? = some x :=
        ⟨rowAtus.getLast hrne, List.getLast?_eq_getLast rowAtus hrne⟩
      have hGL0 : (List.map G0 rowAtus).getLast? = some (G0 lastRa) := by
        rw [List.getLast?_map, hlastRaEq]
        rfl
      have hLS0 : (Option.map (fun t => t.2.2) (some (G0 lastRa))).getD [] =
          ([] : List (Mat × List ℚ × List ℚ)) := by
        rw [hG0]
        rfl
      have hrun : getSubmatrix st excl r0 c0 r1 c1 = some
          (zerosM (r1 - r0).toNat (c1 - c0).toNat, onesV (r1 - r0).toNat,
            onesV (c1 - c0).toNat) := by
        simp only [getSubmatrix]
        rw [constrain_of_in_range r0 _ h0r (by omega),
          constrain_of_in_range r1 _ (by omega) hr1,
          constrain_of_in_range c0 _ h0c (by omega),
          constrain_of_in_range c1 _ (by omega) hc1]
        rw [hrowEq, optBind_some]
        beta_reduce
        rw [hcolEq, optBind_some]
        beta_reduce
        rw [if_neg hguard1, if_neg hguard2]
        rw [hmapG0, optBind_some]
        beta_reduce
        rw [hRW0, hGL0, hLS0]
        rw [show List.map (fun t => t.2.2)
          ([] : List (Mat × List ℚ × List ℚ)) = ([] : List (List ℚ)) from rfl]
        rw [if_neg (by rintro ⟨-, h2, -⟩; omega)]
        rw [if_neg (by rintro ⟨-, h2, -⟩; omega)]
        rw [if_neg (by rintro ⟨-, h2, -⟩; omega)]
        rw [if_neg (show ¬ (0 < r1 - r0 ∧ 0 < c1 - c0) from
          fun h => absurd h.2 (by omega))]
        rw [if_neg (show ¬ (0 < r1 - r0 ∧ 0 < c1 - c0) from
          fun h => absurd h.2 (by omega))]
        rw [if_neg (show ¬ (([] : List (List ℚ)) ≠ []) from by simp)]
        rw [if_neg (show ¬ (([] : List (List ℚ)) ≠ []) from by simp)]
        rw [hmax_r, hmax_c]
        rw [if_neg (not_not_intro (show
          (((zerosM (r1 - r0).toNat (c1 - c0).toNat).length : ℕ) : ℤ) =
            r1 - r0 by rw [length_zerosM]; omega))]
        rw [if_neg (not_not_intro (show (((c1 - c0).toNat : ℕ) : ℤ) =
          c1 - c0 by omega))]
        rw [if_neg (not_not_intro (show (((onesV (r1 - r0).toNat).length : ℕ) : ℤ) =
          r1 - r0 by rw [onesV_length]; omega))]
        rw [if_neg (not_not_intro (show (((onesV (c1 - c0).toNat).length : ℕ) : ℤ) =
          c1 - c0 by rw [onesV_length]; omega))]
      refine ⟨rowAtus, [], onesV (r1 - r0).toNat, onesV (c1 - c0).toNat,
        hrowEq, hcolEq, ?_, ?_, ?_, ?_⟩
      · rw [if_neg hq]
        exact hrun
      · rw [if_neg hq]
        exact Rect_zerosM _ _
      · exact onesV_length _
      · exact onesV_length _
    · -- rows empty
      have hrnil : rowAtus = [] := hrowTriv (by omega)
      subst hrnil
      have hrun : getSubmatrix st excl r0 c0 r1 c1 = some
          (zerosM (r1 - r0).toNat (c1 - c0).toNat, onesV (r1 - r0).toNat,
            onesV (c1 - c0).toNat) := by
        simp only [getSubmatrix]
        rw [constrain_of_in_range r0 _ h0r (by omega),
          constrain_of_in_range r1 _ (by omega) hr1,
          constrain_of_in_range c0 _ h0c (by omega),
          constrain_of_in_range c1 _ (by omega) hc1]
        rw [hrowEq, optBind_some]
        beta_reduce
        rw [hcolEq, optBind_some]
        beta_reduce
        rw [if_neg hguard1, if_neg hguard2]
        rw [show List.mapM (rowStrip st colAtus (c1 - c0)) ([] : List ATU) =
          some [] from rfl, optBind_some]
        beta_reduce
        rw [show List.filterMap (fun t => t.2.1)
          ([] : List (Mat × Option (List ℚ) × List (Mat × List ℚ × List ℚ))) =
          ([] : List (List ℚ)) from rfl]
        rw [show (Option.map (fun t => t.2.2)
          (([] : List (Mat × Option (List ℚ) ×
            List (Mat × List ℚ × List ℚ))).getLast?)).getD [] =
          ([] : List (Mat × List ℚ × List ℚ)) from rfl]
        rw [show List.map (fun t => t.2.2)
          ([] : List (Mat × List ℚ × List ℚ)) = ([] : List (List ℚ)) from rfl]
        rw [if_neg (by rintro ⟨h1, -⟩; exact hqr h1)]
        rw [if_neg (by rintro ⟨h1, -⟩; exact hqr h1)]
        rw [if_neg (by rintro ⟨h1, -⟩; exact hqr h1)]
        rw [if_neg (show ¬ (0 < r1 - r0 ∧ 0 < c1 - c0) from
          fun h => absurd h.1 hqr)]
        rw [if_neg (show ¬ (0 < r1 - r0 ∧ 0 < c1 - c0) from
          fun h => absurd h.1 hqr)]
        rw [if_neg (show ¬ (([] : List (List ℚ)) ≠ []) from by simp)]
        rw [if_neg (show ¬ (([] : List (List ℚ)) ≠ []) from by simp)]
        rw [hmax_r, hmax_c]
        rw [if_neg (not_not_intro (show
          (((zerosM (r1 - r0).toNat (c1 - c0).toNat).length : ℕ) : ℤ) =
            r1 - r0 by rw [length_zerosM]; omega))]
        rw [if_neg (not_not_intro (show (((c1 - c0).toNat : ℕ) : ℤ) =
          c1 - c0 by omega))]
        rw [if_neg (not_not_intro (show (((onesV (r1 - r0).toNat).length : ℕ) : ℤ) =
          r1 - r0 by rw [onesV_length]; omega))]
        rw [if_neg (not_not_intro (show (((onesV (c1 - c0).toNat).length : ℕ) : ℤ) =
          c1 - c0 by rw [onesV_length]; omega))]
      refine ⟨[], colAtus, onesV (r1 - r0).toNat, onesV (c1 - c0).toNat,
        hrowEq, hcolEq, ?_, ?_, ?_, ?_⟩
      · rw [if_neg hq]
        exact hrun
      · rw [if_neg hq]
        exact Rect_zerosM _ _
      · exact onesV_length _
      · exact onesV_length _


/-! ## Claims C4, C5 -/

/-- C4: in the per-pair intersection, when the row and column ATUs
reference the same stripe and the on-disk block is present, the result
is computed by applying the where-fix-up to the full block first, then
slicing by the ATU index ranges, then applying the direction flips (no
transpose happens: equal stripe ids are never reordered), and the
fix-up replaces exactly the zero entries by their transposed
counterparts (chunked_file.py lines 389-470, fix-up at lines 453-458). -/
theorem C4_theorem (st : HState) (ra ca : ATU) (m0 : Mat) (n : ℕ)
    (hsame : ra.stripe = ca.stripe)
    (hblk : st.block ra.stripe.stripe_id ca.stripe.stripe_id = some m0)
    (hrect : Rect m0 n n) :
    getStripeIntersection st ra ca =
      some (processFlips (pySlice2 (whereFix m0) ra.startI ra.endE
        ca.startI ca.endE) ra ca) ∧
    ∀ i j, i < n → j < n →
      ent (whereFix m0) i j =
        if ent m0 i j ≠ 0 then ent m0 i j else ent m0 j i := by
  constructor
  · unfold getStripeIntersection
    simp only
    have hid : ra.stripe.stripe_id = ca.stripe.stripe_id := by rw [hsame]
    have hnlt : ¬ (ca.stripe.stripe_id < ra.stripe.stripe_id) := by omega
    rw [if_neg hnlt, if_neg hnlt, hblk]
    simp only
    rw [if_pos hid, if_pos hsame]
    simp only
    rw [if_neg hnlt]
  · intro i j hi hj
    exact ent_whereFix m0 n n hrect i j hi hj

/-- C4: closed instance on the fixture store: the diagonal block of
stripe 1 with two ATUs of that stripe. -/
theorem C4_witness :
    ((⟨st1, 0, 2, .forward⟩ : ATU).stripe = (⟨st1, 2, 4, .forward⟩ : ATU).stripe) ∧
    hs1.block 1 1 = some b11 ∧
    Rect b11 4 4 ∧
    (getStripeIntersection hs1 ⟨st1, 0, 2, .forward⟩ ⟨st1, 2, 4, .forward⟩ =
      some (processFlips (pySlice2 (whereFix b11) 0 2 2 4)
        ⟨st1, 0, 2, .forward⟩ ⟨st1, 2, 4, .forward⟩) ∧
    ∀ i j, i < 4 → j < 4 →
      ent (whereFix b11) i j =
        if ent b11 i j ≠ 0 then ent b11 i j else ent b11 j i) :=
  ⟨rfl, by decide, by decide,
    C4_theorem hs1 ⟨st1, 0, 2, .forward⟩ ⟨st1, 2, 4, .forward⟩ b11 4 rfl
      (by decide) (by decide)⟩

theorem Rect_bcastMul (m : Mat) (v : List ℚ) (h w : ℕ)
    (hm : Rect m h w) (hv : v.length = w) : Rect (bcastMul m v) h w := by
  obtain ⟨h1, h2⟩ := hm
  constructor
  · simpa [bcastMul] using h1
  · intro row hrow
    unfold bcastMul at hrow
    obtain ⟨row0, hrow0, rfl⟩ := List.mem_map.mp hrow
    rw [List.length_zipWith, h2 row0 hrow0, hv]
    omega

theorem ent_bcastMul (m : Mat) (v : List ℚ) (h w : ℕ)
    (hm : Rect m h w) (hv : v.length = w) (i j : ℕ) (hi : i < h)
    (hj : j < w) :
    ent (bcastMul m v) i j = ent m i j * v.getD j 0 := by
  obtain ⟨h1, h2⟩ := hm
  have hrow := (rect_iff m h w).mp ⟨h1, h2⟩ |>.2
  have him : i < m.length := by omega
  have hjm : j < m[i].length := by rw [hrow i (by omega)]; omega
  unfold bcastMul
  rw [ent_eq_getElem, List.getElem?_map,
    List.getElem?_eq_getElem him]
  simp only [Option.map_some', Option.getD_some]
  rw [List.getD_eq_getElem?_getD]
  rw [List.getElem?_zipWith]
  rw [List.getElem?_eq_getElem hjm,
    List.getElem?_eq_getElem (by omega : j < v.length)]
  simp only [Option.map_some', Option.getD_some]
  rw [ent_of_lt m i j (by omega), List.getD_eq_getElem?_getD,
    List.getElem?_eq_getElem hjm,
    List.getD_eq_getElem?_getD, List.getElem?_eq_getElem (by omega : j < v.length)]
  rfl

/-- C5: apply_cooler_balance_to_dense_matrix scales entry (i, j) of the
matrix by the i-th row weight and the j-th column weight
(ContactMatrixFacet.py lines 312-322). -/
theorem C5_theorem (m : Mat) (wr wc : List ℚ) (h w : ℕ) (ip : Bool)
    (hm : Rect m h w) (hwr : wr.length = h) (hwc : wc.length = w)
    (i j : ℕ) (hi : i < h) (hj : j < w) :
    ent (applyCoolerBalance m wr wc ip) i j =
      wr.getD i 0 * ent m i j * wc.getD j 0 := by
  unfold applyCoolerBalance npCopy
  have hm' : (if ip then m else m) = m := by split <;> rfl
  rw [hm']
  have hB1 : Rect (bcastMul m wc) h w := Rect_bcastMul m wc h w hm hwc
  have hT1 : Rect (npT (bcastMul m wc)) w h := by
    have h2 := Rect_npT (bcastMul m wc)
    rw [ncolsM_eq _ _ _ hB1 (by omega), hB1.1] at h2
    exact h2
  have hB2 : Rect (bcastMul (npT (bcastMul m wc)) wr) w h :=
    Rect_bcastMul _ wr w h hT1 hwr
  rw [ent_npT _ w h hB2 (by omega) i j hi hj]
  rw [ent_bcastMul _ wr w h hT1 hwr j i hj hi]
  rw [ent_npT _ h w hB1 (by omega) j i hj hi]
  rw [ent_bcastMul m wc h w hm hwc i j hi hj]
  ring

/-- C5: closed instance on a 2-by-2 matrix. -/
theorem C5_witness :
    Rect [[1, 2], [3, 4]] 2 2 ∧
    ent (applyCoolerBalance [[1, 2], [3, 4]] [2, 3] [5, 7] false) 0 1 =
      ([2, 3] : List ℚ).getD 0 0 * ent [[1, 2], [3, 4]] 0 1 *
        ([5, 7] : List ℚ).getD 1 0 :=
  ⟨by decide, C5_theorem [[1, 2], [3, 4]] [2, 3] [5, 7] 2 2 false (by decide)
    (by decide) (by decide) 0 1 (by decide) (by decide)⟩

/-! ## Claim C2: the submatrix shape guarantee -/

theorem getSubmatrix_clamp (st : HState) (excl : Bool) (r0 c0 r1 c1 : ℤ) :
    getSubmatrix st excl r0 c0 r1 c1 =
      getSubmatrix st excl
        (constrainCoordinate r0 0 (sizeU excl st.asm))
        (constrainCoordinate c0 0 (sizeU excl st.asm))
        (constrainCoordinate r1 0 (sizeU excl st.asm))
        (constrainCoordinate c1 0 (sizeU excl st.asm)) := by
  simp only [getSubmatrix, constrain_idem]

theorem constrain_lower (x u : ℤ) : 0 ≤ constrainCoordinate x 0 u := by
  unfold constrainCoordinate
  omega

theorem constrain_upper (x u : ℤ) (hu : 0 ≤ u) :
    constrainCoordinate x 0 u ≤ u := by
  unfold constrainCoordinate
  omega

/-- C2: (counterexample) on a reversed query the clamped dimensions are
negative and get_submatrix does not return a triple at all: the final
shape assertion fails (chunked_file.py lines 591-593), modelled as a
none result.  On the 7-bin fixture, the query (1, 1, 0, 0) clamps to
itself and the claimed shape r1 - r0 would be -1. -/
theorem C2_counterexample :
    getSubmatrix hs1 false 1 1 0 0 = none ∧
    constrainCoordinate 0 0 (sizeU false hs1.asm) -
      constrainCoordinate 1 0 (sizeU false hs1.asm) = -1 := by
  refine ⟨by decide, by decide⟩

/-- C2: (amended) whenever the clamped query window is ordered
(clamped r0 at most clamped r1, clamped c0 at most clamped c1), the call
succeeds on a well-formed state and the returned matrix has exactly the
clamped query shape, with row and column weight vectors of the matching
lengths (chunked_file.py lines 472-604). -/
theorem C2_amended (st : HState) (excl : Bool) (r0 c0 r1 c1 : ℤ)
    (hwf : StateWF st)
    (hrord : constrainCoordinate r0 0 (sizeU excl st.asm) ≤
      constrainCoordinate r1 0 (sizeU excl st.asm))
    (hcord : constrainCoordinate c0 0 (sizeU excl st.asm) ≤
      constrainCoordinate c1 0 (sizeU excl st.asm)) :
    ∃ M rowW colW, getSubmatrix st excl r0 c0 r1 c1 = some (M, rowW, colW) ∧
      Rect M
        (constrainCoordinate r1 0 (sizeU excl st.asm) -
          constrainCoordinate r0 0 (sizeU excl st.asm)).toNat
        (constrainCoordinate c1 0 (sizeU excl st.asm) -
          constrainCoordinate c0 0 (sizeU excl st.asm)).toNat ∧
      rowW.length = (constrainCoordinate r1 0 (sizeU excl st.asm) -
          constrainCoordinate r0 0 (sizeU excl st.asm)).toNat ∧
      colW.length = (constrainCoordinate c1 0 (sizeU excl st.asm) -
          constrainCoordinate c0 0 (sizeU excl st.asm)).toNat := by
  have htot : 0 ≤ sizeU excl st.asm := sizeU_nonneg excl st.asm hwf.1
  rw [getSubmatrix_clamp]
  obtain ⟨rowAtus, colAtus, rowW, colW, -, -, h3, h4, h5, h6⟩ :=
    getSubmatrix_spec st excl
      (constrainCoordinate r0 0 (sizeU excl st.asm))
      (constrainCoordinate c0 0 (sizeU excl st.asm))
      (constrainCoordinate r1 0 (sizeU excl st.asm))
      (constrainCoordinate c1 0 (sizeU excl st.asm)) hwf
      (constrain_lower r0 _) hrord (constrain_upper r1 _ htot)
      (constrain_lower c0 _) hcord (constrain_upper c1 _ htot)
  exact ⟨_, rowW, colW, h3, h4, h5, h6⟩

/-- C2: closed instance of the amended theorem on the 7-bin fixture with
the out-of-range query (-2, 1, 5, 9), which clamps to (0, 1, 5, 7). -/
theorem C2_amended_witness :
    StateWF hs1 ∧
    constrainCoordinate (-2) 0 (sizeU false hs1.asm) ≤
      constrainCoordinate 5 0 (sizeU false hs1.asm) ∧
    constrainCoordinate 1 0 (sizeU false hs1.asm) ≤
      constrainCoordinate 9 0 (sizeU false hs1.asm) ∧
    ∃ M rowW colW,
      getSubmatrix hs1 false (-2) 1 5 9 = some (M, rowW, colW) ∧
      Rect M
        (constrainCoordinate 5 0 (sizeU false hs1.asm) -
          constrainCoordinate (-2) 0 (sizeU false hs1.asm)).toNat
        (constrainCoordinate 9 0 (sizeU false hs1.asm) -
          constrainCoordinate 1 0 (sizeU false hs1.asm)).toNat ∧
      rowW.length = (constrainCoordinate 5 0 (sizeU false hs1.asm) -
          constrainCoordinate (-2) 0 (sizeU false hs1.asm)).toNat ∧
      colW.length = (constrainCoordinate 9 0 (sizeU false hs1.asm) -
          constrainCoordinate 1 0 (sizeU false hs1.asm)).toNat :=
  ⟨by decide, by decide, by decide,
    C2_amended hs1 false (-2) 1 5 9 (by decide) (by decide) (by decide)⟩

/-! ## Claim C8: the facade's error discipline -/

theorem constrain_mono (x y u : ℤ) (h : x ≤ y) :
    constrainCoordinate x 0 u ≤ constrainCoordinate y 0 u := by
  unfold constrainCoordinate
  omega

/-- An opened-file fixture: a single stored resolution mapped to the
7-bin state. -/
def fm1 : FileModel := ⟨[1000], fun _ => hs1⟩

/-- C8: get_dense_submatrix raises IncorrectResolution exactly when the
requested resolution is not stored (ContactMatrixFacet.py lines
273-274); for a stored resolution the call equals the call on the
clamped coordinates max(min(x, total), 0) (chunked_file.py lines 70-72
and 487-494), and any ordered query - however far out of range -
returns a result rather than an error on a well-formed state. -/
theorem C8_theorem (fm : FileModel) (R x0 y0 x1 y1 : ℤ) (u : QUnit)
    (excl : Bool) :
    (getDenseSubmatrix fm R x0 y0 x1 y1 u excl =
        Except.error FErr.incorrectResolution ↔ R ∉ fm.resolutions) ∧
    (R ∈ fm.resolutions →
      getDenseSubmatrix fm R x0 y0 x1 y1 u excl =
        getDenseSubmatrix fm R
          (constrainCoordinate x0 0
            (sizeU (excl || (u = QUnit.pixels)) (fm.dataAt R).asm))
          (constrainCoordinate y0 0
            (sizeU (excl || (u = QUnit.pixels)) (fm.dataAt R).asm))
          (constrainCoordinate x1 0
            (sizeU (excl || (u = QUnit.pixels)) (fm.dataAt R).asm))
          (constrainCoordinate y1 0
            (sizeU (excl || (u = QUnit.pixels)) (fm.dataAt R).asm))
          u excl) ∧
    (R ∈ fm.resolutions → StateWF (fm.dataAt R) → x0 ≤ x1 → y0 ≤ y1 →
      ∃ t, getDenseSubmatrix fm R x0 y0 x1 y1 u excl = Except.ok t) := by
  refine ⟨?_, ?_, ?_⟩
  · unfold getDenseSubmatrix
    by_cases hR : R ∉ fm.resolutions
    · rw [if_pos hR]
      simp [hR]
    · rw [if_neg hR]
      cases h : getSubmatrix (fm.dataAt R) (excl || (u = QUnit.pixels))
          x0 y0 x1 y1 with
      | none => simp [hR]
      | some t => simp [hR]
  · intro hmem
    unfold getDenseSubmatrix
    rw [if_neg (not_not_intro hmem), if_neg (not_not_intro hmem),
      getSubmatrix_clamp]
  · intro hmem hwf hx hy
    unfold getDenseSubmatrix
    rw [if_neg (not_not_intro hmem), getSubmatrix_clamp]
    have htot : 0 ≤ sizeU (excl || (u = QUnit.pixels)) (fm.dataAt R).asm :=
      sizeU_nonneg _ _ hwf.1
    obtain ⟨rowAtus, colAtus, rowW, colW, -, -, h3, -, -, -⟩ :=
      getSubmatrix_spec (fm.dataAt R) (excl || (u = QUnit.pixels))
        (constrainCoordinate x0 0 _) (constrainCoordinate y0 0 _)
        (constrainCoordinate x1 0 _) (constrainCoordinate y1 0 _) hwf
        (constrain_lower x0 _) (constrain_mono x0 x1 _ hx)
        (constrain_upper x1 _ htot)
        (constrain_lower y0 _) (constrain_mono y0 y1 _ hy)
        (constrain_upper y1 _ htot)
    rw [h3]
    exact ⟨_, rfl⟩

/-- C8: closed instance on the single-resolution fixture with an
out-of-range query. -/
theorem C8_witness :
    (getDenseSubmatrix fm1 1000 (-2) 1 5 9 QUnit.bins false =
        Except.error FErr.incorrectResolution ↔
          (1000 : ℤ) ∉ fm1.resolutions) ∧
    ((1000 : ℤ) ∈ fm1.resolutions →
      getDenseSubmatrix fm1 1000 (-2) 1 5 9 QUnit.bins false =
        getDenseSubmatrix fm1 1000
          (constrainCoordinate (-2) 0
            (sizeU (false || (QUnit.bins = QUnit.pixels))
              (fm1.dataAt 1000).asm))
          (constrainCoordinate 1 0
            (sizeU (false || (QUnit.bins = QUnit.pixels))
              (fm1.dataAt 1000).asm))
          (constrainCoordinate 5 0
            (sizeU (false || (QUnit.bins = QUnit.pixels))
              (fm1.dataAt 1000).asm))
          (constrainCoordinate 9 0
            (sizeU (false || (QUnit.bins = QUnit.pixels))
              (fm1.dataAt 1000).asm))
          QUnit.bins false) ∧
    ((1000 : ℤ) ∈ fm1.resolutions → StateWF (fm1.dataAt 1000) →
      (-2 : ℤ) ≤ 5 → (1 : ℤ) ≤ 9 →
      ∃ t, getDenseSubmatrix fm1 1000 (-2) 1 5 9 QUnit.bins false =
        Except.ok t) :=
  C8_theorem fm1 1000 (-2) 1 5 9 QUnit.bins false

/-! ## Claim C3: symmetry of the dense queries -/

theorem getD_append_gen {α : Type} (l1 l2 : List α) (d : α) (j : ℕ) :
    (l1 ++ l2).getD j d =
      if j < l1.length then l1.getD j d else l2.getD (j - l1.length) d := by
  induction l1 generalizing j with
  | nil => simp
  | cons x l1 ih =>
    cases j with
    | zero => simp
    | succ j =>
      rw [List.cons_append, List.getD_cons_succ, ih j]
      by_cases hj : j < l1.length
      · rw [if_pos hj,
          if_pos (show j + 1 < (x :: l1).length by simp; omega),
          List.getD_cons_succ]
      · rw [if_neg hj,
          if_neg (show ¬ (j + 1 < (x :: l1).length) by simp; omega)]
        congr 1
        simp

theorem ent_append (m1 m2 : Mat) (i j : ℕ) :
    ent (m1 ++ m2) i j =
      if i < m1.length then ent m1 i j else ent m2 (i - m1.length) j := by
  unfold ent
  rw [getD_append_gen]
  by_cases hi : i < m1.length
  · rw [if_pos hi, if_pos hi]
  · rw [if_neg hi, if_neg hi]

theorem row_len_of_rect (m : Mat) (h w : ℕ) (hm : Rect m h w) (i : ℕ)
    (hi : i < h) : (m.getD i []).length = w := by
  have h1 : m.length = h := hm.1
  rw [List.getD_eq_getElem?_getD, List.getElem?_eq_getElem
    (show i < m.length by omega)]
  simp only [Option.getD_some]
  exact hm.2 _ (List.getElem_mem _)

theorem ent_outside (m : Mat) (h w : ℕ) (hm : Rect m h w) (i j : ℕ)
    (hij : h ≤ i ∨ w ≤ j) : ent m i j = 0 := by
  have h1 : m.length = h := hm.1
  rcases hij with hij | hij
  · rw [ent_eq_getElem, List.getElem?_eq_none (by omega)]
    rfl
  · rw [ent_eq_getElem]
    cases hmi : m[i]? with
    | none => rfl
    | some row =>
      have hrow : row ∈ m := by
        obtain ⟨hlt, he⟩ := List.getElem?_eq_some.mp hmi
        rw [← he]
        exact List.getElem_mem _
      have hlen : row.length = w := hm.2 row hrow
      simp only [Option.getD_some]
      rw [List.getD_eq_getElem?_getD, List.getElem?_eq_none (by omega)]
      rfl

theorem hstack_fold_row (ms : List Mat) : ∀ (acc : Mat) (i : ℕ),
    (∀ m ∈ ms, m.length = acc.length) → i < acc.length →
    (ms.foldl (fun a x => a.zipWith (fun r1 r2 => r1 ++ r2) x) acc).getD i [] =
      acc.getD i [] ++ (ms.map (fun m => m.getD i [])).flatten := by
  induction ms with
  | nil =>
    intro acc i _ _
    simp
  | cons m ms ih =>
    intro acc i hlen hi
    rw [List.foldl_cons]
    have hml : m.length = acc.length := hlen m (by simp)
    have hzl : (acc.zipWith (fun r1 r2 => r1 ++ r2) m).length = acc.length := by
      rw [List.length_zipWith]
      omega
    rw [ih (acc.zipWith (fun r1 r2 => r1 ++ r2) m) i
      (fun x hx => by rw [hzl]; exact hlen x (by simp [hx])) (by omega)]
    have hrow : (acc.zipWith (fun r1 r2 => r1 ++ r2) m).getD i [] =
        acc.getD i [] ++ m.getD i [] := by
      rw [List.getD_eq_getElem?_getD, List.getElem?_zipWith,
        List.getElem?_eq_getElem hi,
        List.getElem?_eq_getElem (show i < m.length by omega)]
      simp only [Option.map_some', Option.getD_some]
      rw [List.getD_eq_getElem?_getD, List.getElem?_eq_getElem hi,
        List.getD_eq_getElem?_getD,
        List.getElem?_eq_getElem (show i < m.length by omega)]
      rfl
    rw [hrow, List.map_cons, List.flatten_cons, List.append_assoc]

theorem hstackM_row (ms : List Mat) (h : ℕ)
    (hms : ∀ m ∈ ms, m.length = h) (i : ℕ) (hi : i < h) :
    (hstackM ms).getD i [] = (ms.map (fun m => m.getD i [])).flatten := by
  cases ms with
  | nil => simp [hstackM]
  | cons m ms =>
    have hml : m.length = h := hms m (by simp)
    unfold hstackM
    rw [hstack_fold_row ms m i
      (fun x hx => by rw [hml]; exact hms x (by simp [hx])) (by omega)]
    rw [List.map_cons, List.flatten_cons]

theorem ent_flipRows (m : Mat) (h w : ℕ) (hm : Rect m h w) (i j : ℕ)
    (hi : i < h) : ent (flipRows m) i j = ent m (h - 1 - i) j := by
  have h1 : m.length = h := hm.1
  rw [ent_eq_getElem, ent_eq_getElem]
  unfold flipRows
  rw [List.getElem?_reverse (by omega), h1]

theorem ent_flipCols (m : Mat) (h w : ℕ) (hm : Rect m h w) (i j : ℕ)
    (hi : i < h) (hj : j < w) : ent (flipCols m) i j = ent m i (w - 1 - j) := by
  have h1 : m.length = h := hm.1
  have h2 := (rect_iff m h w).mp hm |>.2
  have him : i < m.length := by omega
  have hrl : m[i].length = w := h2 i him
  unfold flipCols
  rw [ent_eq_getElem, ent_eq_getElem, List.getElem?_map,
    List.getElem?_eq_getElem him]
  simp only [Option.map_some', Option.getD_some]
  rw [List.getD_eq_getElem?_getD, List.getElem?_reverse (by omega), hrl,
    List.getD_eq_getElem?_getD]

theorem ent_processFlips (m : Mat) (h w : ℕ) (ra ca : ATU) (hm : Rect m h w)
    (i j : ℕ) (hi : i < h) (hj : j < w) :
    ent (processFlips m ra ca) i j =
      ent m (if ra.dir = Dir.reversed then h - 1 - i else i)
            (if ca.dir = Dir.reversed then w - 1 - j else j) := by
  unfold processFlips
  by_cases hc : ca.dir = Dir.reversed <;> by_cases hr : ra.dir = Dir.reversed
  · rw [if_pos hc, if_pos hr, if_pos hc, if_pos hr]
    rw [ent_flipCols _ h w (Rect_flipRows _ _ _ hm) i j hi hj,
      ent_flipRows _ h w hm i (w - 1 - j) hi]
  · rw [if_pos hc, if_neg hr, if_pos hc, if_neg hr]
    rw [ent_flipCols _ h w hm i j hi hj]
  · rw [if_neg hc, if_pos hr, if_neg hc, if_pos hr]
    rw [ent_flipRows _ h w hm i j hi]
  · rw [if_neg hc, if_neg hr, if_neg hc, if_neg hr]

theorem ent_pySlice2_atu (m : Mat) (ra ca : ATU) (hra : ra.WF) (hca : ca.WF)
    (hm : Rect m ra.stripe.stripe_length_bins.toNat
      ca.stripe.stripe_length_bins.toNat)
    (i j : ℕ) (hi : i < ra.lenZ.toNat) (hj : j < ca.lenZ.toNat) :
    ent (pySlice2 m ra.startI ra.endE ca.startI ca.endE) i j =
      ent m (ra.startI.toNat + i) (ca.startI.toNat + j) := by
  have hrpos := stripe_len_pos ra hra
  have hcpos := stripe_len_pos ca hca
  have hr0 := hra.1
  have hr1 := hra.2.1
  have hr2 := hra.2.2
  have hc0 := hca.1
  have hc1 := hca.2.1
  have hc2 := hca.2.2
  have hlr : ra.lenZ = ra.endE - ra.startI := rfl
  have hlc : ca.lenZ = ca.endE - ca.startI := rfl
  have hmlen : m.length = ra.stripe.stripe_length_bins.toNat := hm.1
  have hrows := (rect_iff _ _ _).mp hm |>.2
  have hbr0 : pyBound m.length ra.startI = ra.startI.toNat :=
    pyBound_of_nonneg_le _ _ hr0 (by rw [hmlen]; omega)
  have hbr1 : pyBound m.length ra.endE = ra.endE.toNat :=
    pyBound_of_nonneg_le _ _ (by omega) (by rw [hmlen]; omega)
  have hidx : ra.startI.toNat + i < m.length := by
    rw [hmlen]
    omega
  have hrowq : (pySlice m ra.startI ra.endE)[i]? = m[ra.startI.toNat + i]? := by
    have h0 := pySlice_getElemQ m ra.startI ra.endE i
      (by rw [hbr0, hbr1]; omega)
    rw [hbr0] at h0
    exact h0
  unfold pySlice2
  rw [ent_eq_getElem, List.getElem?_map, hrowq, List.getElem?_eq_getElem hidx]
  simp only [Option.map_some', Option.getD_some]
  have hrl : (m[ra.startI.toNat + i]).length =
      ca.stripe.stripe_length_bins.toNat := hrows _ hidx
  have hbc0 : pyBound (m[ra.startI.toNat + i]).length ca.startI =
      ca.startI.toNat :=
    pyBound_of_nonneg_le _ _ hc0 (by rw [hrl]; omega)
  have hbc1 : pyBound (m[ra.startI.toNat + i]).length ca.endE =
      ca.endE.toNat :=
    pyBound_of_nonneg_le _ _ (by omega) (by rw [hrl]; omega)
  have hcolq : (pySlice (m[ra.startI.toNat + i]) ca.startI ca.endE)[j]? =
      (m[ra.startI.toNat + i])[ca.startI.toNat + j]? := by
    have h0 := pySlice_getElemQ (m[ra.startI.toNat + i]) ca.startI ca.endE j
      (by rw [hbc0, hbc1]; omega)
    rw [hbc0] at h0
    exact h0
  rw [List.getD_eq_getElem?_getD, hcolq]
  rw [ent_eq_getElem, List.getElem?_eq_getElem hidx]
  simp only [Option.getD_some]
  rw [List.getD_eq_getElem?_getD]

theorem ent_sliceFlip (m : Mat) (ra ca : ATU) (hra : ra.WF) (hca : ca.WF)
    (hm : Rect m ra.stripe.stripe_length_bins.toNat
      ca.stripe.stripe_length_bins.toNat)
    (i j : ℕ) (hi : i < ra.lenZ.toNat) (hj : j < ca.lenZ.toNat) :
    ent (processFlips (pySlice2 m ra.startI ra.endE ca.startI ca.endE)
        ra ca) i j =
      ent m
        (ra.startI.toNat +
          (if ra.dir = Dir.reversed then ra.lenZ.toNat - 1 - i else i))
        (ca.startI.toNat +
          (if ca.dir = Dir.reversed then ca.lenZ.toNat - 1 - j else j)) := by
  have hrect := Rect_pySlice2_atu m ra ca hra hca hm
  rw [ent_processFlips _ _ _ ra ca hrect i j hi hj]
  exact ent_pySlice2_atu m ra ca hra hca hm _ _
    (by split <;> omega) (by split <;> omega)

/-- The diagonal blocks of the store hold only the upper triangle: the
COO reads densify a block whose strictly lower entries are zero, which
lines 457-458 of chunked_file.py then mirror with np.where.  This is
the property of the stored data that makes the dense queries
symmetric. -/
def diagLowerZeroB (st : HState) (s : Stripe) : Bool :=
  match st.block s.stripe_id s.stripe_id with
  | none => true
  | some m => decide (∀ p, p < m.length → ∀ q, q < p → ent m p q = 0)

/-- Every stored diagonal block is upper-triangular. -/
def DiagSym (st : HState) : Prop :=
  ∀ s ∈ stripesOf st.asm, diagLowerZeroB st s = true

instance (st : HState) : Decidable (DiagSym st) := by
  unfold DiagSym
  infer_instance

theorem diagLowerZeroB_spec (st : HState) (s : Stripe) (m : Mat)
    (hd : diagLowerZeroB st s = true)
    (hm : st.block s.stripe_id s.stripe_id = some m) :
    ∀ p, p < m.length → ∀ q, q < p → ent m p q = 0 := by
  unfold diagLowerZeroB at hd
  rw [hm] at hd
  simpa using hd

theorem whereFix_symm (m : Mat) (n : ℕ) (hm : Rect m n n)
    (hz : ∀ p, p < m.length → ∀ q, q < p → ent m p q = 0)
    (p q : ℕ) (hp : p < n) (hq : q < n) :
    ent (whereFix m) p q = ent (whereFix m) q p := by
  have hlen : m.length = n := hm.1
  rw [ent_whereFix m n n hm p q hp hq, ent_whereFix m n n hm q p hq hp]
  rcases Nat.lt_trichotomy p q with h | h | h
  · have hzq : ent m q p = 0 := hz q (by omega) p h
    rw [hzq, if_neg (show ¬ ((0 : ℚ) ≠ 0) by simp)]
    by_cases h1 : ent m p q = 0
    · rw [if_neg (by simp [h1]), h1]
    · rw [if_pos h1]
  · subst h
    rfl
  · have hzp : ent m p q = 0 := hz p (by omega) q h
    rw [hzp, if_neg (show ¬ ((0 : ℚ) ≠ 0) by simp)]
    by_cases h1 : ent m q p = 0
    · rw [if_neg (by simp [h1]), h1]
    · rw [if_pos h1]

theorem getStripeIntersection_none_nolt (st : HState) (ra ca : ATU)
    (hnlt : ¬ ca.stripe.stripe_id < ra.stripe.stripe_id)
    (hb : st.block ra.stripe.stripe_id ca.stripe.stripe_id = none) :
    getStripeIntersection st ra ca =
      some (zerosM ra.lenZ.toNat ca.lenZ.toNat) := by
  unfold getStripeIntersection
  simp only
  rw [if_neg hnlt, if_neg hnlt, hb]

theorem getStripeIntersection_none_lt (st : HState) (ra ca : ATU)
    (hlt : ca.stripe.stripe_id < ra.stripe.stripe_id)
    (hb : st.block ca.stripe.stripe_id ra.stripe.stripe_id = none) :
    getStripeIntersection st ra ca =
      some (zerosM ra.lenZ.toNat ca.lenZ.toNat) := by
  unfold getStripeIntersection
  simp only
  rw [if_pos hlt, if_pos hlt, hb]

theorem getStripeIntersection_eq_same (st : HState) (ra ca : ATU)
    (hsame : ra.stripe = ca.stripe) (m0 : Mat)
    (hb : st.block ra.stripe.stripe_id ca.stripe.stripe_id = some m0) :
    getStripeIntersection st ra ca =
      some (processFlips (pySlice2 (whereFix m0) ra.startI ra.endE
        ca.startI ca.endE) ra ca) := by
  have hid : ra.stripe.stripe_id = ca.stripe.stripe_id := by rw [hsame]
  have hnlt : ¬ (ca.stripe.stripe_id < ra.stripe.stripe_id) := by omega
  unfold getStripeIntersection
  simp only
  rw [if_neg hnlt, if_neg hnlt, hb]
  simp only
  rw [if_pos hid, if_pos hsame]
  simp only
  rw [if_neg hnlt]

theorem getStripeIntersection_eq_lt (st : HState) (ra ca : ATU)
    (hlt : ca.stripe.stripe_id < ra.stripe.stripe_id) (m0 : Mat)
    (hb : st.block ca.stripe.stripe_id ra.stripe.stripe_id = some m0) :
    getStripeIntersection st ra ca =
      some (processFlips (pySlice2 (npT m0) ra.startI ra.endE
        ca.startI ca.endE) ra ca) := by
  have hid : ¬ ra.stripe.stripe_id = ca.stripe.stripe_id := by omega
  unfold getStripeIntersection
  simp only
  rw [if_pos hlt, if_pos hlt, hb]
  simp only
  rw [if_neg hid]
  simp only
  rw [if_pos hlt]

theorem getStripeIntersection_eq_gt (st : HState) (ra ca : ATU)
    (hne : ¬ ra.stripe.stripe_id = ca.stripe.stripe_id)
    (hnlt : ¬ ca.stripe.stripe_id < ra.stripe.stripe_id) (m0 : Mat)
    (hb : st.block ra.stripe.stripe_id ca.stripe.stripe_id = some m0) :
    getStripeIntersection st ra ca =
      some (processFlips (pySlice2 m0 ra.startI ra.endE
        ca.startI ca.endE) ra ca) := by
  unfold getStripeIntersection
  simp only
  rw [if_neg hnlt, if_neg hnlt, hb]
  simp only
  rw [if_neg hne]
  simp only
  rw [if_neg hnlt]

theorem interM_T (st : HState) (hwf : StateWF st) (hds : DiagSym st)
    (a b : ATU) (haWF : a.WF) (ha : a.stripe ∈ stripesOf st.asm)
    (hbWF : b.WF) (hb : b.stripe ∈ stripesOf st.asm)
    (i j : ℕ) (hi : i < b.lenZ.toNat) (hj : j < a.lenZ.toNat) :
    ent (interM st b a) i j = ent (interM st a b) j i := by
  obtain ⟨hasm, hids, hwts, hblks⟩ := hwf
  have hapos := stripe_len_pos a haWF
  have hbpos := stripe_len_pos b hbWF
  have ha0 := haWF.1
  have ha1 := haWF.2.1
  have ha2 := haWF.2.2
  have hb0 := hbWF.1
  have hb1 := hbWF.2.1
  have hb2 := hbWF.2.2
  have hla : a.lenZ = a.endE - a.startI := rfl
  have hlb : b.lenZ = b.endE - b.startI := rfl
  have hbnd_a : a.startI.toNat +
      (if a.dir = Dir.reversed then a.lenZ.toNat - 1 - j else j) <
      a.stripe.stripe_length_bins.toNat := by
    split <;> omega
  have hbnd_b : b.startI.toNat +
      (if b.dir = Dir.reversed then b.lenZ.toNat - 1 - i else i) <
      b.stripe.stripe_length_bins.toNat := by
    split <;> omega
  rcases Nat.lt_trichotomy a.stripe.stripe_id b.stripe.stripe_id with
    hlt | heq | hgt
  · cases hb0k : st.block a.stripe.stripe_id b.stripe.stripe_id with
    | none =>
      have h1 : interM st b a = zerosM b.lenZ.toNat a.lenZ.toNat := by
        unfold interM
        rw [getStripeIntersection_none_lt st b a hlt hb0k]
        rfl
      have h2 : interM st a b = zerosM a.lenZ.toNat b.lenZ.toNat := by
        unfold interM
        rw [getStripeIntersection_none_nolt st a b (by omega) hb0k]
        rfl
      rw [h1, h2, ent_zerosM, ent_zerosM]
    | some m0 =>
      have hm0 : Rect m0 a.stripe.stripe_length_bins.toNat
          b.stripe.stripe_length_bins.toNat :=
        blockRectB_spec st a.stripe b.stripe m0 (hblks _ ha _ hb) hb0k
      have hmT : Rect (npT m0) b.stripe.stripe_length_bins.toNat
          a.stripe.stripe_length_bins.toNat := by
        have h2 := Rect_npT m0
        rw [ncolsM_eq m0 _ _ hm0 (by omega), hm0.1] at h2
        exact h2
      have h1 : interM st b a = processFlips
          (pySlice2 (npT m0) b.startI b.endE a.startI a.endE) b a := by
        unfold interM
        rw [getStripeIntersection_eq_lt st b a hlt m0 hb0k]
        rfl
      have h2 : interM st a b = processFlips
          (pySlice2 m0 a.startI a.endE b.startI b.endE) a b := by
        unfold interM
        rw [getStripeIntersection_eq_gt st a b (by omega) (by omega) m0 hb0k]
        rfl
      rw [h1, h2]
      rw [ent_sliceFlip (npT m0) b a hbWF haWF hmT i j hi hj]
      rw [ent_sliceFlip m0 a b haWF hbWF hm0 j i hj hi]
      rw [ent_npT m0 _ _ hm0 (by omega) _ _ hbnd_b hbnd_a]
  · have hsame : a.stripe = b.stripe := hids _ ha _ hb heq
    cases hb0k : st.block a.stripe.stripe_id a.stripe.stripe_id with
    | none =>
      have h1 : interM st b a = zerosM b.lenZ.toNat a.lenZ.toNat := by
        unfold interM
        rw [getStripeIntersection_none_nolt st b a (by omega)
          (show st.block b.stripe.stripe_id a.stripe.stripe_id = none by
            rw [← hsame]; exact hb0k)]
        rfl
      have h2 : interM st a b = zerosM a.lenZ.toNat b.lenZ.toNat := by
        unfold interM
        rw [getStripeIntersection_none_nolt st a b (by omega)
          (show st.block a.stripe.stripe_id b.stripe.stripe_id = none by
            rw [← hsame]; exact hb0k)]
        rfl
      rw [h1, h2, ent_zerosM, ent_zerosM]
    | some m0 =>
      have hm0 : Rect m0 a.stripe.stripe_length_bins.toNat
          a.stripe.stripe_length_bins.toNat :=
        blockRectB_spec st a.stripe a.stripe m0 (hblks _ ha _ ha) hb0k
      have hz := diagLowerZeroB_spec st a.stripe m0 (hds _ ha) hb0k
      have hW : Rect (whereFix m0) a.stripe.stripe_length_bins.toNat
          a.stripe.stripe_length_bins.toNat := Rect_whereFix _ _ _ hm0
      have h1 : interM st b a = processFlips
          (pySlice2 (whereFix m0) b.startI b.endE a.startI a.endE) b a := by
        unfold interM
        rw [getStripeIntersection_eq_same st b a hsame.symm m0
          (show st.block b.stripe.stripe_id a.stripe.stripe_id = some m0 by
            rw [← hsame]; exact hb0k)]
        rfl
      have h2 : interM st a b = processFlips
          (pySlice2 (whereFix m0) a.startI a.endE b.startI b.endE) a b := by
        unfold interM
        rw [getStripeIntersection_eq_same st a b hsame m0
          (show st.block a.stripe.stripe_id b.stripe.stripe_id = some m0 by
            rw [← hsame]; exact hb0k)]
        rfl
      have hWb : Rect (whereFix m0) b.stripe.stripe_length_bins.toNat
          a.stripe.stripe_length_bins.toNat := by
        rw [← hsame]
        exact hW
      have hWa : Rect (whereFix m0) a.stripe.stripe_length_bins.toNat
          b.stripe.stripe_length_bins.toNat := by
        rw [← hsame]
        exact hW
      have hnn : b.stripe.stripe_length_bins = a.stripe.stripe_length_bins := by
        rw [← hsame]
      rw [h1, h2]
      rw [ent_sliceFlip (whereFix m0) b a hbWF haWF hWb i j hi hj]
      rw [ent_sliceFlip (whereFix m0) a b haWF hbWF hWa j i hj hi]
      exact whereFix_symm m0 a.stripe.stripe_length_bins.toNat hm0 hz _ _
        (by omega) (by omega)
  · cases hb0k : st.block b.stripe.stripe_id a.stripe.stripe_id with
    | none =>
      have h1 : interM st b a = zerosM b.lenZ.toNat a.lenZ.toNat := by
        unfold interM
        rw [getStripeIntersection_none_nolt st b a (by omega) hb0k]
        rfl
      have h2 : interM st a b = zerosM a.lenZ.toNat b.lenZ.toNat := by
        unfold interM
        rw [getStripeIntersection_none_lt st a b hgt hb0k]
        rfl
      rw [h1, h2, ent_zerosM, ent_zerosM]
    | some m0 =>
      have hm0 : Rect m0 b.stripe.stripe_length_bins.toNat
          a.stripe.stripe_length_bins.toNat :=
        blockRectB_spec st b.stripe a.stripe m0 (hblks _ hb _ ha) hb0k
      have hmT : Rect (npT m0) a.stripe.stripe_length_bins.toNat
          b.stripe.stripe_length_bins.toNat := by
        have h2 := Rect_npT m0
        rw [ncolsM_eq m0 _ _ hm0 (by omega), hm0.1] at h2
        exact h2
      have h1 : interM st b a = processFlips
          (pySlice2 m0 b.startI b.endE a.startI a.endE) b a := by
        unfold interM
        rw [getStripeIntersection_eq_gt st b a (by omega) (by omega) m0 hb0k]
        rfl
      have h2 : interM st a b = processFlips
          (pySlice2 (npT m0) a.startI a.endE b.startI b.endE) a b := by
        unfold interM
        rw [getStripeIntersection_eq_lt st a b hgt m0 hb0k]
        rfl
      rw [h1, h2]
      rw [ent_sliceFlip m0 b a hbWF haWF hm0 i j hi hj]
      rw [ent_sliceFlip (npT m0) a b haWF hbWF hmT j i hj hi]
      rw [ent_npT m0 _ _ hm0 (by omega) _ _ hbnd_a hbnd_b]

theorem ne_nil_of_natsum_pos (l : List ATU) (f : ATU → ℕ)
    (h : 0 < (l.map f).sum) : l ≠ [] := by
  intro h0
  subst h0
  simp at h

theorem Rect_stripOf (st : HState) (hwf : StateWF st) (cas : List ATU)
    (ra : ATU) (hraWF : ra.WF) (hra : ra.stripe ∈ stripesOf st.asm)
    (hcas : ∀ x ∈ cas, x.WF ∧ x.stripe ∈ stripesOf st.asm) (hne : cas ≠ []) :
    Rect (stripOf st cas ra) ra.lenZ.toNat
      ((cas.map (fun x => x.lenZ.toNat)).sum) :=
  (rowStrip_spec st cas 0 ra hwf hra hraWF
    (fun ca hca => ⟨(hcas ca hca).2, (hcas ca hca).1⟩) hne).2

theorem ent_strip_split (st : HState) (hwf : StateWF st) (a c : ATU)
    (cas : List ATU) (haWF : a.WF) (ha : a.stripe ∈ stripesOf st.asm)
    (hcWF : c.WF) (hc : c.stripe ∈ stripesOf st.asm)
    (hcas : ∀ x ∈ cas, x.WF ∧ x.stripe ∈ stripesOf st.asm)
    (i j : ℕ) (hi : i < a.lenZ.toNat) :
    ent (stripOf st (c :: cas) a) i j =
      if j < c.lenZ.toNat then ent (interM st a c) i j
      else ent (stripOf st cas a) i (j - c.lenZ.toNat) := by
  have hIc : Rect (interM st a c) a.lenZ.toNat c.lenZ.toNat :=
    (getAtuIntersection_spec st a c hwf ha hc haWF hcWF).2.1
  have hIs : ∀ x ∈ cas, Rect (interM st a x) a.lenZ.toNat x.lenZ.toNat :=
    fun x hx => (getAtuIntersection_spec st a x hwf ha (hcas x hx).2 haWF
      (hcas x hx).1).2.1
  have hih : ∀ m ∈ (c :: cas).map (fun x => interM st a x),
      m.length = a.lenZ.toNat := by
    intro m hm
    obtain ⟨x, hx, rfl⟩ := List.mem_map.mp hm
    rcases List.mem_cons.mp hx with rfl | hx2
    · exact hIc.1
    · exact (hIs x hx2).1
  have hih2 : ∀ m ∈ cas.map (fun x => interM st a x),
      m.length = a.lenZ.toNat := by
    intro m hm
    obtain ⟨x, hx, rfl⟩ := List.mem_map.mp hm
    exact (hIs x hx).1
  have hclen : ((interM st a c).getD i []).length = c.lenZ.toNat :=
    row_len_of_rect _ _ _ hIc i hi
  unfold stripOf ent
  rw [hstackM_row _ a.lenZ.toNat hih i hi,
    hstackM_row _ a.lenZ.toNat hih2 i hi]
  rw [List.map_map, List.map_map, List.map_cons, List.flatten_cons]
  rw [getD_append_gen]
  simp only [Function.comp]
  rw [hclen]

theorem ent_assemble_split (st : HState) (hwf : StateWF st) (a : ATU)
    (ras cas : List ATU) (haWF : a.WF) (ha : a.stripe ∈ stripesOf st.asm)
    (hcas : ∀ x ∈ cas, x.WF ∧ x.stripe ∈ stripesOf st.asm)
    (hne : cas ≠ []) (i j : ℕ) :
    ent (assembleM st (a :: ras) cas) i j =
      if i < a.lenZ.toNat then ent (stripOf st cas a) i j
      else ent (assembleM st ras cas) (i - a.lenZ.toNat) j := by
  have happ : assembleM st (a :: ras) cas =
      stripOf st cas a ++ assembleM st ras cas := by
    unfold assembleM
    rw [List.map_cons, List.flatten_cons]
  have hlen : (stripOf st cas a).length = a.lenZ.toNat :=
    (Rect_stripOf st hwf cas a haWF ha hcas hne).1
  rw [happ, ent_append, hlen]

theorem ent_assemble_colsplit (st : HState) (hwf : StateWF st) (c : ATU)
    (cas : List ATU) (hcWF : c.WF) (hc : c.stripe ∈ stripesOf st.asm)
    (hcas : ∀ x ∈ cas, x.WF ∧ x.stripe ∈ stripesOf st.asm) :
    ∀ (ras : List ATU), (∀ x ∈ ras, x.WF ∧ x.stripe ∈ stripesOf st.asm) →
    ∀ (i j : ℕ), j < (ras.map (fun x => x.lenZ.toNat)).sum →
      i < c.lenZ.toNat + (cas.map (fun x => x.lenZ.toNat)).sum →
      ent (assembleM st ras (c :: cas)) j i =
        if i < c.lenZ.toNat then ent (assembleM st ras [c]) j i
        else ent (assembleM st ras cas) j (i - c.lenZ.toNat) := by
  intro ras
  induction ras with
  | nil =>
    intro _ i j hj _
    simp at hj
  | cons a ras ih =>
    intro hras i j hj hi
    have haWF := (hras a (by simp)).1
    have ha := (hras a (by simp)).2
    have hras2 : ∀ x ∈ ras, x.WF ∧ x.stripe ∈ stripesOf st.asm :=
      fun x hx => hras x (by simp [hx])
    have hcca : ∀ x ∈ c :: cas, x.WF ∧ x.stripe ∈ stripesOf st.asm := by
      intro x hx
      rcases List.mem_cons.mp hx with rfl | hx2
      · exact ⟨hcWF, hc⟩
      · exact hcas x hx2
    have hcone : ∀ x ∈ ([c] : List ATU), x.WF ∧ x.stripe ∈ stripesOf st.asm := by
      intro x hx
      rcases List.mem_cons.mp hx with rfl | hx2
      · exact ⟨hcWF, hc⟩
      · simp at hx2
    have hsumcons : ((a :: ras).map (fun x => x.lenZ.toNat)).sum =
        a.lenZ.toNat + (ras.map (fun x => x.lenZ.toNat)).sum := by
      rw [List.map_cons, List.sum_cons]
    have hsingle : stripOf st [c] a = interM st a c := rfl
    rw [ent_assemble_split st hwf a ras (c :: cas) haWF ha hcca (by simp)]
    by_cases hic : i < c.lenZ.toNat
    · rw [if_pos hic]
      rw [ent_assemble_split st hwf a ras [c] haWF ha hcone (by simp)]
      by_cases hja : j < a.lenZ.toNat
      · rw [if_pos hja, if_pos hja, hsingle]
        rw [ent_strip_split st hwf a c cas haWF ha hcWF hc hcas j i hja]
        rw [if_pos hic]
      · rw [if_neg hja, if_neg hja]
        rw [ih hras2 i (j - a.lenZ.toNat) (by omega) hi, if_pos hic]
    · rw [if_neg hic]
      have hcasne : cas ≠ [] := ne_nil_of_natsum_pos cas (fun x => x.lenZ.toNat) (by omega)
      rw [ent_assemble_split st hwf a ras cas haWF ha hcas hcasne]
      by_cases hja : j < a.lenZ.toNat
      · rw [if_pos hja, if_pos hja]
        rw [ent_strip_split st hwf a c cas haWF ha hcWF hc hcas j i hja]
        rw [if_neg hic]
      · rw [if_neg hja, if_neg hja]
        rw [ih hras2 i (j - a.lenZ.toNat) (by omega) hi, if_neg hic]

theorem strip_single_T (st : HState) (hwf : StateWF st) (hds : DiagSym st)
    (c : ATU) (hcWF : c.WF) (hc : c.stripe ∈ stripesOf st.asm) :
    ∀ (ras : List ATU), (∀ x ∈ ras, x.WF ∧ x.stripe ∈ stripesOf st.asm) →
    ∀ (i j : ℕ), i < c.lenZ.toNat →
      j < (ras.map (fun x => x.lenZ.toNat)).sum →
      ent (stripOf st ras c) i j = ent (assembleM st ras [c]) j i := by
  intro ras
  induction ras with
  | nil =>
    intro _ i j _ hj
    simp at hj
  | cons a ras ih =>
    intro hras i j hi hj
    have haWF := (hras a (by simp)).1
    have ha := (hras a (by simp)).2
    have hras2 : ∀ x ∈ ras, x.WF ∧ x.stripe ∈ stripesOf st.asm :=
      fun x hx => hras x (by simp [hx])
    have hcone : ∀ x ∈ ([c] : List ATU), x.WF ∧ x.stripe ∈ stripesOf st.asm := by
      intro x hx
      rcases List.mem_cons.mp hx with rfl | hx2
      · exact ⟨hcWF, hc⟩
      · simp at hx2
    have hsumcons : ((a :: ras).map (fun x => x.lenZ.toNat)).sum =
        a.lenZ.toNat + (ras.map (fun x => x.lenZ.toNat)).sum := by
      rw [List.map_cons, List.sum_cons]
    have hsingle : stripOf st [c] a = interM st a c := rfl
    rw [ent_strip_split st hwf c a ras hcWF hc haWF ha hras2 i j hi]
    rw [ent_assemble_split st hwf a ras [c] haWF ha hcone (by simp)]
    by_cases hja : j < a.lenZ.toNat
    · rw [if_pos hja, if_pos hja, hsingle]
      exact interM_T st hwf hds a c haWF ha hcWF hc i j hi hja
    · rw [if_neg hja, if_neg hja]
      exact ih hras2 i (j - a.lenZ.toNat) hi (by omega)

theorem assembleM_T (st : HState) (hwf : StateWF st) (hds : DiagSym st) :
    ∀ (cas ras : List ATU),
      (∀ x ∈ cas, x.WF ∧ x.stripe ∈ stripesOf st.asm) →
      (∀ x ∈ ras, x.WF ∧ x.stripe ∈ stripesOf st.asm) →
      ∀ (i j : ℕ), i < (cas.map (fun x => x.lenZ.toNat)).sum →
        j < (ras.map (fun x => x.lenZ.toNat)).sum →
        ent (assembleM st cas ras) i j = ent (assembleM st ras cas) j i := by
  intro cas
  induction cas with
  | nil =>
    intro ras _ _ i j hi _
    simp at hi
  | cons c cs ih =>
    intro ras hcas hras i j hi hj
    have hcWF := (hcas c (by simp)).1
    have hc := (hcas c (by simp)).2
    have hcs : ∀ x ∈ cs, x.WF ∧ x.stripe ∈ stripesOf st.asm :=
      fun x hx => hcas x (by simp [hx])
    have hrasne : ras ≠ [] := ne_nil_of_natsum_pos ras (fun x => x.lenZ.toNat) (by omega)
    have hsumcons : ((c :: cs).map (fun x => x.lenZ.toNat)).sum =
        c.lenZ.toNat + (cs.map (fun x => x.lenZ.toNat)).sum := by
      rw [List.map_cons, List.sum_cons]
    rw [ent_assemble_split st hwf c cs ras hcWF hc hras hrasne]
    rw [ent_assemble_colsplit st hwf c cs hcWF hc hcs ras hras i j hj
      (by omega)]
    by_cases hic : i < c.lenZ.toNat
    · rw [if_pos hic, if_pos hic]
      exact strip_single_T st hwf hds c hcWF hc ras hras i j hic hj
    · rw [if_neg hic, if_neg hic]
      exact ih ras hcs hras (i - c.lenZ.toNat) j (by omega) hj

theorem denseToSub (fm : FileModel) (R a b c d : ℤ) (u : QUnit) (excl : Bool)
    (t : Mat × List ℚ × List ℚ) (hmem : R ∈ fm.resolutions)
    (h : getDenseSubmatrix fm R a b c d u excl = Except.ok t) :
    getSubmatrix (fm.dataAt R) (excl || (u = QUnit.pixels)) a b c d =
      some t := by
  unfold getDenseSubmatrix at h
  rw [if_neg (not_not_intro hmem)] at h
  cases hg : getSubmatrix (fm.dataAt R) (excl || (u = QUnit.pixels)) a b c d with
  | none =>
    rw [hg] at h
    exact absurd h (by simp)
  | some t2 =>
    rw [hg] at h
    simp only [Except.ok.injEq] at h
    rw [h]

theorem denseT_core (st : HState) (hwf : StateWF st) (hds : DiagSym st)
    (ex : Bool) (a0 b0 a1 b1 : ℤ)
    (h0a : 0 ≤ a0) (haa : a0 ≤ a1) (ha1 : a1 ≤ sizeU ex st.asm)
    (h0b : 0 ≤ b0) (hbb : b0 ≤ b1) (hb1 : b1 ≤ sizeU ex st.asm)
    (M Mt : Mat) (rwv cwv rwt cwt : List ℚ)
    (h1 : getSubmatrix st ex a0 b0 a1 b1 = some (M, rwv, cwv))
    (h2 : getSubmatrix st ex b0 a0 b1 a1 = some (Mt, rwt, cwt)) :
    Rect M (a1 - a0).toNat (b1 - b0).toNat ∧
    Rect Mt (b1 - b0).toNat (a1 - a0).toNat ∧
    ∀ i j, ent Mt i j = ent M j i := by
  obtain ⟨rAs, cAs, rw1, cw1, hA1, hB1, hC1, hR1, -, -⟩ :=
    getSubmatrix_spec st ex a0 b0 a1 b1 hwf h0a haa ha1 h0b hbb hb1
  obtain ⟨rBs, cBs, rw2, cw2, hA2, hB2, hC2, hR2, -, -⟩ :=
    getSubmatrix_spec st ex b0 a0 b1 a1 hwf h0b hbb hb1 h0a haa ha1
  have hrB : rBs = cAs := Option.some.inj (hA2.symm.trans hB1)
  have hcB : cBs = rAs := Option.some.inj (hB2.symm.trans hA1)
  rw [hrB, hcB] at hC2 hR2
  rw [hC1] at h1
  rw [hC2] at h2
  simp only [Option.some.injEq, Prod.mk.injEq] at h1 h2
  obtain ⟨hM, -, -⟩ := h1
  obtain ⟨hMt, -, -⟩ := h2
  subst hM hMt
  obtain ⟨rA0, hA0, hSumR, hWFr, -, hStrR⟩ :=
    getAtusForRange_spec st.asm ex a0 a1 hwf.1
  obtain ⟨cA0, hB0, hSumC, hWFc, -, hStrC⟩ :=
    getAtusForRange_spec st.asm ex b0 b1 hwf.1
  have hrA0 : rA0 = rAs := Option.some.inj (hA0.symm.trans hA1)
  have hcA0 : cA0 = cAs := Option.some.inj (hB0.symm.trans hB1)
  have hrsum : (rAs.map (fun x => x.lenZ.toNat)).sum = (a1 - a0).toNat := by
    rw [← hrA0, sum_toNat_lenZ_nat rA0 hWFr, hSumR]
    omega
  have hcsum : (cAs.map (fun x => x.lenZ.toNat)).sum = (b1 - b0).toNat := by
    rw [← hcA0, sum_toNat_lenZ_nat cA0 hWFc, hSumC]
    omega
  have goodR : ∀ x ∈ rAs, x.WF ∧ x.stripe ∈ stripesOf st.asm := by
    rw [← hrA0]
    exact fun x hx => ⟨hWFr x hx, hStrR x hx⟩
  have goodC : ∀ x ∈ cAs, x.WF ∧ x.stripe ∈ stripesOf st.asm := by
    rw [← hcA0]
    exact fun x hx => ⟨hWFc x hx, hStrC x hx⟩
  refine ⟨hR1, hR2, ?_⟩
  intro i j
  by_cases hq : 0 < a1 - a0 ∧ 0 < b1 - b0
  · have hq2 : 0 < b1 - b0 ∧ 0 < a1 - a0 := ⟨hq.2, hq.1⟩
    rw [if_pos hq] at hR1 ⊢
    rw [if_pos hq2] at hR2 ⊢
    by_cases hb : i < (b1 - b0).toNat ∧ j < (a1 - a0).toNat
    · exact assembleM_T st hwf hds cAs rAs goodC goodR i j (by omega)
        (by omega)
    · rw [ent_outside _ _ _ hR2 i j (by omega),
        ent_outside _ _ _ hR1 j i (by omega)]
  · have hq2 : ¬ (0 < b1 - b0 ∧ 0 < a1 - a0) := by omega
    rw [if_neg hq, if_neg hq2, ent_zerosM, ent_zerosM]

/-- C3: querying with the row and column ranges swapped returns the
transposed matrix.  For an ordered query on a well-formed state whose
stored diagonal blocks are upper-triangular, whenever both the query
and its transpose succeed, the two returned matrices have transposed
shapes and transposed entries everywhere
(ContactMatrixFacet.py lines 237-310, chunked_file.py lines 389-470). -/
theorem C3_theorem (fm : FileModel) (R x0 y0 x1 y1 : ℤ) (u : QUnit)
    (excl : Bool) (M Mt : Mat) (rwv cwv rwt cwt : List ℚ)
    (hwf : StateWF (fm.dataAt R)) (hds : DiagSym (fm.dataAt R))
    (hx : x0 ≤ x1) (hy : y0 ≤ y1)
    (h1 : getDenseSubmatrix fm R x0 y0 x1 y1 u excl =
      Except.ok (M, rwv, cwv))
    (h2 : getDenseSubmatrix fm R y0 x0 y1 x1 u excl =
      Except.ok (Mt, rwt, cwt)) :
    ∃ h w, Rect M h w ∧ Rect Mt w h ∧ ∀ i j, ent Mt i j = ent M j i := by
  have hmem : R ∈ fm.resolutions := by
    by_contra hR
    unfold getDenseSubmatrix at h1
    rw [if_pos hR] at h1
    exact absurd h1 (by simp)
  have htot : (0 : ℤ) ≤ sizeU (excl || (u = QUnit.pixels)) (fm.dataAt R).asm :=
    sizeU_nonneg _ _ hwf.1
  have hg1 := denseToSub fm R x0 y0 x1 y1 u excl _ hmem h1
  have hg2 := denseToSub fm R y0 x0 y1 x1 u excl _ hmem h2
  rw [getSubmatrix_clamp] at hg1 hg2
  obtain ⟨hRM, hRMt, hT⟩ := denseT_core (fm.dataAt R) hwf hds
    (excl || (u = QUnit.pixels)) _ _ _ _
    (constrain_lower x0 _) (constrain_mono x0 x1 _ hx)
    (constrain_upper x1 _ htot)
    (constrain_lower y0 _) (constrain_mono y0 y1 _ hy)
    (constrain_upper y1 _ htot)
    M Mt rwv cwv rwt cwt hg1 hg2
  exact ⟨_, _, hRM, hRMt, hT⟩

/-- C3: closed instance on the single-resolution fixture: the query
(0, 3, 2, 6) against its swap (3, 0, 6, 2). -/
theorem C3_witness :
    StateWF (fm1.dataAt 1000) ∧ DiagSym (fm1.dataAt 1000) ∧
    getDenseSubmatrix fm1 1000 0 3 2 6 QUnit.bins false =
      Except.ok ([[7, 8, 9], [11, 12, 13]], [1, 1], [1, 1, 1]) ∧
    getDenseSubmatrix fm1 1000 3 0 6 2 QUnit.bins false =
      Except.ok ([[7, 11], [8, 12], [9, 13]], [1, 1, 1], [1, 1]) ∧
    ∃ h w, Rect ([[7, 8, 9], [11, 12, 13]] : Mat) h w ∧
      Rect ([[7, 11], [8, 12], [9, 13]] : Mat) w h ∧
      ∀ i j, ent [[7, 11], [8, 12], [9, 13]] i j =
        ent [[7, 8, 9], [11, 12, 13]] j i :=
  ⟨by decide, by decide, by rfl, by rfl,
    C3_theorem fm1 1000 0 3 2 6 QUnit.bins false
      [[7, 8, 9], [11, 12, 13]] [[7, 11], [8, 12], [9, 13]]
      [1, 1] [1, 1, 1] [1, 1, 1] [1, 1]
      (by decide) (by decide) (by decide) (by decide) (by rfl)
      (by rfl)⟩

end HiCT
